import Mathlib

/-!
Shallow embedding of `robotic_warehouse/warehouse.py` (the rware multi-agent
warehouse gym environment) and proofs about its step engine.

Conventions used throughout:
* Grid coordinates follow the source: an entity has fields `x` (column) and
  `y` (row); the occupancy layers are indexed `grid[layer, y, x]`.
* Python `list` objects of `Shelf`/`Agent` references are modelled by lists of
  ids (`Nat`, 1-based, unique per episode), since object identity coincides
  with id equality under the unique-id invariant maintained by the code.
* numpy random draws (`np.random.choice`) are modelled by oracle parameters;
  theorems assume exactly what `np.random.choice` guarantees about the draw
  (membership / distinctness), no more.
* `Python list.remove` raises `ValueError` when the element is absent; it is
  modelled totally by `List.erase` (first occurrence removed, no-op when the
  element is absent).  All theorems below are stated in regimes where the
  element is present, matching the non-raising executions of the source.
* Rewards are numpy float arrays holding small dyadic values; they are
  modelled exactly with `ℚ`.
-/

set_option maxHeartbeats 1000000
set_option maxRecDepth 10000

namespace RW

/-- Movement/interaction primitives, `class Action(Enum)` in the source. -/
inductive Action where
  | NOOP
  | FORWARD
  | LEFT
  | RIGHT
  | TOGGLE_LOAD
deriving DecidableEq

/-- Facing directions, `class Direction(Enum)`; `value` is the enum payload. -/
inductive Direction where
  | UP
  | DOWN
  | LEFT
  | RIGHT
deriving DecidableEq

/-- Enum payload of a `Direction` (`Direction.UP.value == 0` and so on). -/
def Direction.value : Direction → Nat
  | .UP => 0
  | .DOWN => 1
  | .LEFT => 2
  | .RIGHT => 3

/-- Reward policy selector, `class RewardType(Enum)`. -/
inductive RewardType where
  | GLOBAL
  | INDIVIDUAL
  | TWO_STAGE
deriving DecidableEq

/-- Agent record (`class Agent(Entity)`).  `carryingShelf` stores the id of
the carried shelf (`None`/`Some`), mirroring the Python object reference. -/
structure Agent where
  id : Nat
  prevX : Option Nat
  prevY : Option Nat
  x : Nat
  y : Nat
  dir : Direction
  message : List Nat
  reqAction : Action
  carryingShelf : Option Nat
  hasDelivered : Bool
deriving DecidableEq

/-- Shelf record (`class Shelf(Entity)`). -/
structure Shelf where
  id : Nat
  x : Nat
  y : Nat
deriving DecidableEq

/-- `Agent.req_location(self, grid_size)`: the cell requested by the agent.
Only `FORWARD` moves; the position is clamped to the grid exactly as in the
source (`max(0, y - 1)` is `Nat` truncated subtraction, and so on).
`grid_size` is `(gridHeight, gridWidth)`. -/
def Agent.req_location (a : Agent) (gridHeight gridWidth : Nat) : Nat × Nat :=
  if a.reqAction ≠ Action.FORWARD then (a.x, a.y)
  else match a.dir with
    | Direction.UP => (a.x, a.y - 1)
    | Direction.DOWN => (a.x, min (gridHeight - 1) (a.y + 1))
    | Direction.LEFT => (a.x - 1, a.y)
    | Direction.RIGHT => (min (gridWidth - 1) (a.x + 1), a.y)

/-- `Agent.req_direction(self)`: rotate in the cyclic order
`[UP, RIGHT, DOWN, LEFT]` — `Action.RIGHT` steps forward in the wraplist,
`Action.LEFT` steps backward, anything else keeps the direction. -/
def Agent.req_direction (a : Agent) : Direction :=
  match a.reqAction, a.dir with
  | Action.RIGHT, Direction.UP => Direction.RIGHT
  | Action.RIGHT, Direction.RIGHT => Direction.DOWN
  | Action.RIGHT, Direction.DOWN => Direction.LEFT
  | Action.RIGHT, Direction.LEFT => Direction.UP
  | Action.LEFT, Direction.UP => Direction.LEFT
  | Action.LEFT, Direction.LEFT => Direction.DOWN
  | Action.LEFT, Direction.DOWN => Direction.RIGHT
  | Action.LEFT, Direction.RIGHT => Direction.UP
  | _, d => d

/-- One occupancy layer: a total function from `(y, x)` to the stored id
(`0` means empty), modelling one plane of the numpy `int32` grid. -/
def Layer : Type := Nat → Nat → Nat

/-- Write a single cell of a layer (numpy `grid[layer, y, x] = v`). -/
def writeCell (g : Layer) (y x v : Nat) : Layer :=
  fun y' x' => if y' = y ∧ x' = x then v else g y' x'

/-- The all-zero layer (`self.grid[:] = 0`). -/
def zeroLayer : Layer := fun _ _ => 0

/-- Rebuild the shelf layer from shelf records, as in `_recalc_grid`
(`for s in self.shelfs: self.grid[_LAYER_SHELFS, s.y, s.x] = s.id`);
later list entries overwrite earlier ones, exactly like the writes. -/
def recalcShelfLayer (shelfs : List Shelf) : Layer :=
  shelfs.foldl (fun g s => writeCell g s.y s.x s.id) zeroLayer

/-- Rebuild the agent layer from agent records, as in `_recalc_grid`. -/
def recalcAgentLayer (agents : List Agent) : Layer :=
  agents.foldl (fun g a => writeCell g a.y a.x a.id) zeroLayer

/-- Full environment state of `class Warehouse`.  Only attributes read or
written by the live code paths are kept; attributes that are written but
never read anywhere (`shelf_original_dist_goal`, the derived classification
attributes stored by `update_shelf_properties`, `canceled_action`,
`_obs_*` caches) are modelled as pure functions where needed instead of
state fields. -/
structure Warehouse where
  gridHeight : Nat
  gridWidth : Nat
  nAgents : Nat
  msgBits : Nat
  sensorRange : Nat
  requestQueueSize : Nat
  maxInactivitySteps : Option Nat
  maxSteps : Option Nat
  rewardType : RewardType
  curInactiveSteps : Nat
  curSteps : Nat
  gridAgents : Layer
  gridShelfs : Layer
  agents : List Agent
  shelfs : List Shelf
  requestQueue : List Nat
  requestedDeliveredShelf : List Nat
  carriedShelf : List (Option Nat)
  shelfOriginalCoordinates : Nat → Nat × Nat

/-- `Warehouse._is_highway(x, y)`.  The comparison `y > grid_size[0] - 11`
is Python integer arithmetic, so it is taken over `ℤ`. -/
def Warehouse.is_highway (w : Warehouse) (x y : Nat) : Bool :=
  x % 3 = 0 ∨ y % 9 = 0 ∨ y = w.gridHeight - 1 ∨
    ((y : ℤ) > (w.gridHeight : ℤ) - 11 ∧
      (x = w.gridWidth / 2 - 1 ∨ x = w.gridWidth / 2))

/-- The delivery goal cells, `self.goals` as set in `__init__`
(`[(i, grid_size[0] - 1) for i in range(grid_size[1])]`). -/
def Warehouse.goals (w : Warehouse) : List (Nat × Nat) :=
  (List.range w.gridWidth).map (fun i => (i, w.gridHeight - 1))

/-! ### Small list helpers shared by several translated routines -/

/-- Update the element at index `i` in place; no-op when out of range.
This models a Python in-place mutation of a list element. -/
def modifyAt (l : List α) (i : Nat) (f : α → α) : List α :=
  match l[i]? with
  | none => l
  | some x => l.set i (f x)

/-- Python index `k - 1` used on `rewards`/`self.agents`: when `k = 0` the
resulting `-1` selects the LAST element (Python negative indexing);
otherwise it selects position `k - 1`. -/
def pyIdx (len k : Nat) : Nat :=
  if k = 0 then len - 1 else k - 1

/-- `rewards[agent_id - 1] += r` with Python negative-index semantics. -/
def addAtPy (rewards : List ℚ) (agentId : Nat) (r : ℚ) : List ℚ :=
  modifyAt rewards (pyIdx rewards.length agentId) (· + r)

/-! ### The observation encoder (`_VectorWriter` and `_make_obs`, fast path)

All values written by the fast observation path are small natural numbers
(coordinates, 0/1 flags, message bits), represented exactly by `Nat`. -/

/-- Splice `data` into `v` starting at position `i`
(numpy `v[i : i + len(data)] = data`; all writes issued by `_make_obs` are
in range by construction of the vector length). -/
def overwriteAt (v : List Nat) (i : Nat) (data : List Nat) : List Nat :=
  v.take i ++ data.take (v.length - i) ++ v.drop (i + data.length)

/-- `class _VectorWriter`: a zero-initialised vector plus a write cursor. -/
structure VectorWriter where
  vector : List Nat
  idx : Nat
deriving DecidableEq

/-- `_VectorWriter.write(data)`. -/
def VectorWriter.write (vw : VectorWriter) (data : List Nat) : VectorWriter :=
  { vector := overwriteAt vw.vector vw.idx data, idx := vw.idx + data.length }

/-- `_VectorWriter.skip(bits)`: advance the cursor, leaving zeros behind. -/
def VectorWriter.skip (vw : VectorWriter) (bits : Nat) : VectorWriter :=
  { vw with idx := vw.idx + bits }

/-- One-hot vector of length 4 (`np.zeros(4); direction[k] = 1.0`). -/
def onehot4 (k : Nat) : List Nat :=
  (List.range 4).map (fun i => if i = k then 1 else 0)

/-- Zero-padded grid lookup over `ℤ` coordinates.  `_make_obs` pads each
layer with `sensor_range` zeros on every side and slices; that is exactly a
bounds-checked lookup that returns `0` outside the grid. -/
def paddedLookup (g : Layer) (gridHeight gridWidth : Nat) (y x : ℤ) : Nat :=
  if 0 ≤ y ∧ y < (gridHeight : ℤ) ∧ 0 ≤ x ∧ x < (gridWidth : ℤ) then
    g y.toNat x.toNat
  else 0

/-- The raster-order id values of the `(2r+1) × (2r+1)` sensor window
centred on `(ax, ay)` (the flattened `padded[min_y:max_y, min_x:max_x]`). -/
def windowIds (g : Layer) (gridHeight gridWidth r : Nat) (ax ay : Nat) : List Nat :=
  (List.range (2 * r + 1)).flatMap (fun dy =>
    (List.range (2 * r + 1)).map (fun dx =>
      paddedLookup g gridHeight gridWidth ((ay : ℤ) - r + dy) ((ax : ℤ) - r + dx)))

/-- Flattened observation length, `self._obs_length` from `__init__`:
`_obs_bits_for_self = 4 + len(Direction)` plus, per sensor location,
`_obs_bits_per_agent = 1 + len(Direction) + msg_bits` and
`_obs_bits_per_shelf = 2`. -/
def Warehouse.obsLength (w : Warehouse) : Nat :=
  (4 + 4) + (2 * w.sensorRange + 1) ^ 2 * (1 + 4 + w.msgBits)
    + (2 * w.sensorRange + 1) ^ 2 * 2

/-- Direction enum value of agent id `i` (`self.agents[id_agent - 1].dir.value`);
total model of the list indexing, in range under the id invariant. -/
def Warehouse.dirValueOfAgentId (w : Warehouse) (i : Nat) : Nat :=
  match w.agents[i - 1]? with
  | some ag => ag.dir.value
  | none => 0

/-- Message payload of agent id `i` (`self.agents[id_agent - 1].message`). -/
def Warehouse.messageOfAgentId (w : Warehouse) (i : Nat) : List Nat :=
  match w.agents[i - 1]? with
  | some ag => ag.message
  | none => []

/-- Request-queue membership of shelf id `i`
(`self.shelfs[id_shelf - 1] in self.request_queue`, with object membership
replaced by id membership, valid under the unique-id invariant). -/
def Warehouse.shelfIdRequested (w : Warehouse) (i : Nat) : Bool :=
  match w.shelfs[i - 1]? with
  | some s => s.id ∈ w.requestQueue
  | none => false

/-- The writer operations issued by `_make_obs` for one sensor-window cell:
the empty-agent branch skips the presence flag, writes `1.0` into the FIRST
direction slot (matching `gym.spaces.flatten` of `Discrete(4)` at value 0,
which the slow observation path declares) and skips the rest; then the
shelf flags. -/
def obsCellWrite (w : Warehouse) (obs : VectorWriter) (ids : Nat × Nat) :
    VectorWriter :=
  let obs :=
    if ids.1 = 0 then
      ((obs.skip 1).write [1]).skip (3 + w.msgBits)
    else
      let obs := obs.write [1]
      let obs := obs.write (onehot4 (w.dirValueOfAgentId ids.1))
      if w.msgBits > 0 then obs.write (w.messageOfAgentId ids.1) else obs
  if ids.2 = 0 then obs.skip 2
  else obs.write [1, if w.shelfIdRequested ids.2 then 1 else 0]

/-- `Warehouse._make_obs(agent)`, fast (flattened-vector) path. -/
def Warehouse.make_obs (w : Warehouse) (a : Agent) : List Nat :=
  let agentIds := windowIds w.gridAgents w.gridHeight w.gridWidth w.sensorRange a.x a.y
  let shelfIds := windowIds w.gridShelfs w.gridHeight w.gridWidth w.sensorRange a.x a.y
  let obs : VectorWriter := ⟨List.replicate w.obsLength 0, 0⟩
  let obs := obs.write [a.x, a.y, if a.carryingShelf.isSome then 1 else 0]
  let obs := obs.write (onehot4 a.dir.value)
  let obs := obs.write [if w.is_highway a.x a.y then 1 else 0]
  let obs := (agentIds.zip shelfIds).foldl (obsCellWrite w) obs
  obs.vector

/-- Statement vocabulary for the observation layout: the self block as the
writer lays it out. -/
def selfBlock (w : Warehouse) (a : Agent) : List Nat :=
  [a.x, a.y, if a.carryingShelf.isSome then 1 else 0] ++ onehot4 a.dir.value
    ++ [if w.is_highway a.x a.y then 1 else 0]

/-- Statement vocabulary: the agent sub-block the writer produces for one
window cell (note the `1` in the first direction slot of an empty cell). -/
def agentBlock (w : Warehouse) (idA : Nat) : List Nat :=
  if idA = 0 then 0 :: 1 :: 0 :: 0 :: 0 :: List.replicate w.msgBits 0
  else 1 :: (onehot4 (w.dirValueOfAgentId idA)
    ++ (if w.msgBits > 0 then w.messageOfAgentId idA else []))

/-- Statement vocabulary: the shelf sub-block for one window cell. -/
def shelfBlock (w : Warehouse) (idS : Nat) : List Nat :=
  if idS = 0 then [0, 0] else [1, if w.shelfIdRequested idS then 1 else 0]

/-- Statement vocabulary: the full per-cell block. -/
def cellBlock (w : Warehouse) (ids : Nat × Nat) : List Nat :=
  agentBlock w ids.1 ++ shelfBlock w ids.2

/-! ### Episode reset (`Warehouse.reset`)

Randomness is passed in as oracles: `agentLocs` stands for
`np.random.choice(np.arange(H * W), size=n_agents, replace=False)` (flat
cell indices, pairwise distinct and `< H * W`), `agentDirs` for the random
direction draw, and `queueDraw` for
`np.random.choice(self.shelfs, size=request_queue_size, replace=False)`
(distinct shelf ids).  Theorems assume of these oracles exactly what the
numpy calls guarantee. -/

/-- Raster-order enumeration of all cells as `(x, y)`, following
`np.indices(self.grid_size)` reshaped row-major. -/
def rasterCells (gridHeight gridWidth : Nat) : List (Nat × Nat) :=
  (List.range gridHeight).flatMap (fun y =>
    (List.range gridWidth).map (fun x => (x, y)))

/-- The shelves created by `reset`: one per non-highway cell, ids assigned
`1, 2, ...` in raster order by the freshly reset `Shelf.counter`. -/
def Warehouse.resetShelfs (w : Warehouse) : List Shelf :=
  (((rasterCells w.gridHeight w.gridWidth).filter
      (fun c => ¬ w.is_highway c.1 c.2)).enum).map
    (fun ic => { id := ic.1 + 1, x := ic.2.1, y := ic.2.2 })

/-- The agents created by `reset`: positions from `np.unravel_index` of the
drawn flat indices over shape `(H, W)` (`y = v / W`, `x = v % W`), ids
assigned `1, 2, ...` by the freshly reset `Agent.counter`.  A new Python
`Agent` starts with `req_action = None`; since `None` behaves exactly like
a non-`FORWARD`, non-turn action in every consumer, it is modelled as
`NOOP`. -/
def Warehouse.resetAgents (w : Warehouse) (agentLocs : List Nat)
    (agentDirs : List Direction) : List Agent :=
  ((agentLocs.zip agentDirs).enum).map (fun ivd =>
    { id := ivd.1 + 1
      prevX := none
      prevY := none
      x := ivd.2.1 % w.gridWidth
      y := ivd.2.1 / w.gridWidth
      dir := ivd.2.2
      message := List.replicate w.msgBits 0
      reqAction := Action.NOOP
      carryingShelf := none
      hasDelivered := false })

/-- `Warehouse.reset(self)`, state effect.  Note which fields it does NOT
touch: `requestedDeliveredShelf` and `carriedShelf` are created once in
`__init__` and survive every reset. -/
def Warehouse.reset (w : Warehouse) (agentLocs : List Nat)
    (agentDirs : List Direction) (queueDraw : List Nat) : Warehouse :=
  let shelfs := w.resetShelfs
  let agents := w.resetAgents agentLocs agentDirs
  { w with
    curInactiveSteps := 0
    curSteps := 0
    shelfs := shelfs
    agents := agents
    gridAgents := recalcAgentLayer agents
    gridShelfs := recalcShelfLayer shelfs
    shelfOriginalCoordinates := fun id =>
      match shelfs.find? (fun s => s.id == id) with
      | some s => (s.y, s.x)
      | none => (0, 0)
    requestQueue := queueDraw }

/-- Observations returned by `reset`. -/
def Warehouse.resetObs (w : Warehouse) (agentLocs : List Nat)
    (agentDirs : List Direction) (queueDraw : List Nat) : List (List Nat) :=
  let wr := w.reset agentLocs agentDirs queueDraw
  wr.agents.map wr.make_obs

/-- `Warehouse.__init__` (state fields only; the observation/action space
descriptors live in the excluded collaborator layer).  `self.shelfs` and
`self.shelf_original_coordinates` do not exist before the first `reset`;
they are modelled by empty defaults. -/
def mkWarehouse (shelfColumns columnHeight shelfRows nAgents msgBits
    sensorRange requestQueueSize : Nat) (maxInactivitySteps maxSteps : Option Nat)
    (rewardType : RewardType) : Warehouse :=
  { gridHeight := (columnHeight + 1) * shelfRows + 2
    gridWidth := (2 + 1) * shelfColumns + 1
    nAgents := nAgents
    msgBits := msgBits
    sensorRange := sensorRange
    requestQueueSize := requestQueueSize
    maxInactivitySteps := maxInactivitySteps
    maxSteps := maxSteps
    rewardType := rewardType
    curInactiveSteps := 0
    curSteps := 0
    gridAgents := zeroLayer
    gridShelfs := zeroLayer
    agents := []
    shelfs := []
    requestQueue := []
    requestedDeliveredShelf := []
    carriedShelf := []
    shelfOriginalCoordinates := fun _ => (0, 0) }

/-- Model of `np.concatenate(np.where(grid == id))` for one layer, as used
by `shelf_ids_coordinates`: the raster-first `(y, x)` cell holding value
`id`, or `none` when the value is absent (then the numpy result is the
empty tuple, which matches no `(agent.y, agent.x)` pair).  A layer produced
by `recalcShelfLayer` holds each positive id at most once, so the first
match is the only match. -/
def npWhereLayer (g : Layer) (gridHeight gridWidth : Nat) (id : Nat) :
    Option (Nat × Nat) :=
  ((List.range gridHeight).flatMap (fun y =>
    (List.range gridWidth).map (fun x => (y, x)))).find?
    (fun c => g c.1 c.2 == id)

/-! ### Movement conflict resolution (`Warehouse.step`, lines 712–768)

The intent graph built by the source is a `networkx.DiGraph` whose nodes are
grid cells and whose edges are each agent's `current → requested` transition
(with a self-loop for a pre-cancelled carrying agent).  It is embedded as an
edge list; since every agent contributes exactly one edge out of its own
(unique) cell, the graph has out-degree at most one, which the proofs below
exploit.  The three networkx algorithms used by the source
(`weakly_connected_components`, `find_cycle`, `dag_longest_path`) are
implemented as executable functions with the properties the source relies
on: components are the weakly-connected classes of the edge set;
`findCycle` returns a directed cycle (as its list of nodes, i.e. the starts
of the returned edge list) iff one exists; `dag_longest_path` returns a
maximal-length directed path of an acyclic component (tie-breaking between
equal-length longest paths is immaterial to every theorem below). -/

/-- A grid cell `(x, y)`. -/
abbrev Cell := Nat × Nat

/-- A directed intent edge `current_cell → target_cell`. -/
abbrev IntentEdge := Cell × Cell

/-- The unique outgoing edge of a node, if any (out-degree is at most one
whenever edge starts are pairwise distinct). -/
def succOf (es : List IntentEdge) (n : Cell) : Option Cell :=
  (es.find? (fun e => e.1 == n)).map Prod.snd

/-- Iterate `succOf` for `k` steps (`none` when the walk falls off a node
with no outgoing edge). -/
def iterSucc (es : List IntentEdge) : Nat → Cell → Option Cell
  | 0, n => some n
  | k + 1, n =>
    match succOf es n with
    | none => none
    | some m => iterSucc es k m

/-- Collect the forward orbit of `t` (excluding the initial `t`) until the
walk returns to `t`; fuel-bounded, used only on nodes known to lie on a
cycle. -/
def orbitAux (es : List IntentEdge) (t : Cell) : Nat → Cell → List Cell
  | 0, _ => []
  | k + 1, n =>
    if n = t then []
    else
      n :: (match succOf es n with
        | none => []
        | some m => orbitAux es t k m)

/-- The node list of the cycle through `t`: `t` followed by the rest of its
forward orbit. -/
def orbitFrom (es : List IntentEdge) (t : Cell) : List Cell :=
  t :: (match succOf es t with
    | none => []
    | some m => orbitAux es t es.length m)

/-- Model of `nx.algorithms.find_cycle(comp)`: returns the node list of a
directed cycle of the component if one exists (`none` plays the role of the
`NetworkXNoCycle` exception).  In an out-degree-≤1 component every cycle is
reached by walking from one of its own edge starts, and the cycle of a
weakly-connected out-degree-≤1 component is unique, so this function agrees
with the networkx search.  The source consumes only the length of the
returned edge list and the set of its edge starts; both are recovered from
the node list. -/
def findCycle (es : List IntentEdge) : Option (List Cell) :=
  match es.find? (fun e => (iterSucc es (es.length + 1) e.1).isSome) with
  | none => none
  | some e =>
    match iterSucc es (es.length + 1) e.1 with
    | none => none
    | some t => some (orbitFrom es t)

/-- All endpoints of the edge list (with repetitions). -/
def nodesOf (es : List IntentEdge) : List Cell :=
  es.flatMap (fun e => [e.1, e.2])

/-- The maximal chain following `succOf` from `n` (fuel-bounded; fuel
`es.length` always suffices on acyclic edge sets). -/
def chainFrom (es : List IntentEdge) : Nat → Cell → List Cell
  | 0, n => [n]
  | k + 1, n =>
    n :: (match succOf es n with
      | none => []
      | some m => chainFrom es k m)

/-- Model of `nx.algorithms.dag_longest_path(comp)` for out-degree-≤1
acyclic components: every directed path is a chain of `succOf`, so a
longest path is a longest chain from some node. -/
def dag_longest_path (es : List IntentEdge) : List Cell :=
  ((nodesOf es).map (chainFrom es es.length)).foldl
    (fun best c => if best.length < c.length then c else best) []

/-- Do two edges share an endpoint (undirected adjacency of edges)? -/
def sharesNode (e f : IntentEdge) : Bool :=
  e.1 == f.1 || e.1 == f.2 || e.2 == f.1 || e.2 == f.2

/-- Saturate a set of edges under shared-endpoint adjacency within `es`. -/
def growComp (es : List IntentEdge) : Nat → List IntentEdge → List IntentEdge
  | 0, acc => acc
  | k + 1, acc =>
    let more := es.filter (fun e => !(acc.contains e) && acc.any (fun f => sharesNode e f))
    if more.isEmpty then acc else growComp es k (acc ++ more)

/-- The weakly-connected component (as an edge list) containing `e`. -/
def componentOf (es : List IntentEdge) (e : IntentEdge) : List IntentEdge :=
  growComp es es.length [e]

/-- Peel off weakly-connected components one at a time (fuel-bounded; fuel
`es.length` suffices because every round removes at least the seed edge). -/
def weakComponentsAux : Nat → List IntentEdge → List (List IntentEdge)
  | 0, _ => []
  | _, [] => []
  | k + 1, e :: rest =>
    let K := componentOf (e :: rest) e
    K :: weakComponentsAux k ((e :: rest).filter (fun f => !(K.contains f)))

/-- Model of `nx.weakly_connected_components` (components as edge lists;
the source's per-component node sets are exactly the endpoint sets). -/
def weakComponents (es : List IntentEdge) : List (List IntentEdge) :=
  weakComponentsAux es.length es

/-- The pre-cancellation rule applied to one agent (lines 716–737): a
carrying agent moving onto a standing shelf — unless the shelf is being
carried by the agent occupying the target — has its action cancelled and
contributes a self-loop; every other agent contributes `start → target`.
Grid lookups use the entry grid, as in the source (no recalc has happened
yet this step).  `carryingAtIdx` is the truthiness test
`self.agents[...].carrying_shelf` on the occupant of the target cell. -/
def carryingAtIdx (agents : List Agent) (i : Nat) : Bool :=
  match agents[i]? with
  | some other => other.carryingShelf.isSome
  | none => false

/-- See `carryingAtIdx` above: the standing-shelf pre-cancellation rule. -/
def Warehouse.precancelAgent (w : Warehouse) (a : Agent) : Agent × IntentEdge :=
  let start : Cell := (a.x, a.y)
  let target := a.req_location w.gridHeight w.gridWidth
  if a.carryingShelf.isSome ∧ start ≠ target ∧
      w.gridShelfs target.2 target.1 ≠ 0 ∧
      ¬ (w.gridAgents target.2 target.1 ≠ 0 ∧
          carryingAtIdx w.agents (w.gridAgents target.2 target.1 - 1) = true) then
    ({ a with reqAction := Action.NOOP }, (start, start))
  else
    (a, (start, target))

/-- Commit decision for one weakly-connected component (lines 741–761):
a length-2 cycle commits nobody; any other cycle commits the agents sitting
on the cycle's edge starts; an acyclic component commits the agents along
the longest path.  Agent ids are read off the entry agent layer exactly as
the source does. -/
def Warehouse.componentCommit (w : Warehouse) (K : List IntentEdge) : List Nat :=
  match findCycle K with
  | some cyc =>
    if cyc.length = 2 then []
    else (cyc.map (fun n => w.gridAgents n.2 n.1)).filter (fun i => decide (0 < i))
  | none =>
    ((dag_longest_path K).map (fun n => w.gridAgents n.2 n.1)).filter (fun i => !(i == 0))

/-- All committed agent ids of a step (union over weak components). -/
def Warehouse.committedIds (w : Warehouse) (es : List IntentEdge) : List Nat :=
  ((weakComponents es).map w.componentCommit).flatten

/-! ### Action application, delivery and the full step -/

/-- The mutable state threaded through the per-agent action loop
(lines 787–825). -/
structure MutState where
  agents : List Agent
  shelfs : List Shelf
  carriedShelf : List (Option Nat)
  rewards : List ℚ
deriving DecidableEq

/-- One iteration of the action-application loop for the agent at index
`i`.  `w` carries the freshly recalculated grid of line 782 (read for
`shelf_id` and reward attribution), the request queue, and the requested
coordinate tuples of lines 784–785; Python's in-place object mutations,
including the `self.agents[agent_id - 1]` aliasing write of the TWO_STAGE
branch, become list updates. -/
def applyAgentAction (w : Warehouse) (coords : List (Option (Nat × Nat)))
    (st : MutState) (i : Nat) : MutState :=
  match st.agents[i]? with
  | none => st
  | some a0 =>
    let a := { a0 with prevX := some a0.x, prevY := some a0.y }
    if a.reqAction = Action.FORWARD then
      let t := a.req_location w.gridHeight w.gridWidth
      let a := { a with x := t.1, y := t.2 }
      let shelfs :=
        match a.carryingShelf with
        | some sid => st.shelfs.map (fun s => if s.id = sid then { s with x := t.1, y := t.2 } else s)
        | none => st.shelfs
      { st with agents := st.agents.set i a, shelfs := shelfs }
    else if a.reqAction = Action.LEFT ∨ a.reqAction = Action.RIGHT then
      { st with agents := st.agents.set i { a with dir := a.req_direction } }
    else if a.reqAction = Action.TOGGLE_LOAD ∧ a.carryingShelf = none ∧
        some (a.y, a.x) ∈ coords then
      let sid := w.gridShelfs a.y a.x
      let a :=
        if sid ≠ 0 then
          { a with carryingShelf :=
              match st.shelfs[sid - 1]? with
              | some s => some s.id
              | none => a.carryingShelf }
        else a
      let agents := st.agents.set i a
      let pickupRewarded := a.carryingShelf.isSome ∧ a.carryingShelf.getD 0 ∈ w.requestQueue
      let agents :=
        if pickupRewarded ∧ w.rewardType = RewardType.TWO_STAGE then
          modifyAt agents (pyIdx agents.length (w.gridAgents a.y a.x))
            (fun ag => { ag with hasDelivered := true })
        else agents
      let rewards :=
        if pickupRewarded then
          match w.rewardType with
          | RewardType.GLOBAL => st.rewards.map (· + 1)
          | RewardType.INDIVIDUAL => addAtPy st.rewards (w.gridAgents a.y a.x) 1
          | RewardType.TWO_STAGE => addAtPy st.rewards (w.gridAgents a.y a.x) (1 / 2)
        else st.rewards
      { st with
        agents := agents
        rewards := rewards
        carriedShelf := st.carriedShelf ++ [a.carryingShelf] }
    else if a.reqAction = Action.TOGGLE_LOAD ∧ a.carryingShelf.isSome then
      if ¬ w.is_highway a.x a.y then
        let notRequested := a.carryingShelf.getD 0 ∉ w.requestQueue
        let carried :=
          if notRequested then st.carriedShelf.erase a.carryingShelf else st.carriedShelf
        let a := if notRequested then { a with carryingShelf := none } else a
        let a := { a with hasDelivered := false }
        { st with agents := st.agents.set i a, carriedShelf := carried }
      else
        { st with agents := st.agents.set i a }
    else
      { st with agents := st.agents.set i a }

/-- The mutable state threaded through the delivery scan over goal cells
(lines 845–907). -/
structure DeliveryState where
  gridAgents : Layer
  gridShelfs : Layer
  agents : List Agent
  shelfs : List Shelf
  requestQueue : List Nat
  requestedDeliveredShelf : List Nat
  carriedShelf : List (Option Nat)
  rewards : List ℚ
  shelfDelivered : Bool
  deliveryCount : Nat

/-- Test `agent.carrying_shelf and (agent.carrying_shelf.x,
agent.carrying_shelf.y) == (x, y)` from the delivery detach loop: the
carried shelf's current coordinates are read off the shelf record. -/
def carriedShelfAt (shelfs : List Shelf) (ag : Agent) (x y : Nat) : Bool :=
  match ag.carryingShelf with
  | some cs =>
    match shelfs.find? (fun s => s.id == cs) with
    | some s => s.x = x ∧ s.y = y
    | none => false
  | none => false

/-- Process one goal cell of the delivery scan.  `pick k` is the oracle for
the `k`-th `np.random.choice(list(set(self.shelfs) - set(self.request_queue)))`
of this step.  `list(set(...))` on `requested_delivered_shelf` is an
order-nondeterministic deduplication whose order is never observed; it is
modelled by the deterministic `List.dedup`. -/
def deliverAtGoal (rewardType : RewardType) (homeOf : Nat → Nat × Nat)
    (pick : Nat → Nat) (ds : DeliveryState) (goal : Nat × Nat) : DeliveryState :=
  let x := goal.1
  let y := goal.2
  let sid := ds.gridShelfs y x
  if sid = 0 then ds
  else
    match ds.shelfs[sid - 1]? with
    | none => ds
    | some shelf =>
      if shelf.id ∉ ds.requestQueue then ds
      else
        let carried := ds.carriedShelf.erase (some shelf.id)
        let agents := ds.agents.map (fun ag =>
          if carriedShelfAt ds.shelfs ag x y then
            { ag with hasDelivered := true, carryingShelf := none }
          else ag)
        let grid1 := writeCell ds.gridShelfs y x 0
        let home := homeOf sid
        let shelfs := ds.shelfs.map (fun s =>
          if s.id = shelf.id then { s with y := home.1, x := home.2 } else s)
        let grid2 := writeCell grid1 home.1 home.2 sid
        let delivered := (ds.requestedDeliveredShelf ++ [shelf.id]).dedup
        let newRequest := pick ds.deliveryCount
        let queue :=
          match ds.requestQueue.findIdx? (fun q => q == shelf.id) with
          | some j => ds.requestQueue.set j newRequest
          | none => ds.requestQueue
        let agents :=
          if rewardType = RewardType.TWO_STAGE then
            modifyAt agents (pyIdx agents.length (ds.gridAgents y x))
              (fun ag => { ag with hasDelivered := true })
          else agents
        let rewards :=
          match rewardType with
          | RewardType.GLOBAL => ds.rewards.map (· + 1 * 2)
          | RewardType.INDIVIDUAL => addAtPy ds.rewards (ds.gridAgents y x) (1 * 2)
          | RewardType.TWO_STAGE => addAtPy ds.rewards (ds.gridAgents y x) (1 / 2 * 2)
        { ds with
          agents := agents
          shelfs := shelfs
          gridShelfs := grid2
          requestQueue := queue
          requestedDeliveredShelf := delivered
          carriedShelf := carried
          rewards := rewards
          shelfDelivered := true
          deliveryCount := ds.deliveryCount + 1 }

/-- Python truthiness of `cap and value >= cap` for an `Optional[int]` cap:
`None` and `0` both disable the bound. -/
def truthyGE (cap : Option Nat) (v : Nat) : Bool :=
  match cap with
  | none => false
  | some c => c ≠ 0 ∧ v ≥ c

/-- Everything `Warehouse.step` returns, plus the successor state. -/
structure StepResult where
  obs : List (List Nat)
  rewards : List ℚ
  dones : List Bool
  state : Warehouse

/-- Phase 0 of `step`: load each agent's requested action (and message bits
when communication is enabled) from the joint action. -/
def loadActions (msgBits : Nat) (agents : List Agent)
    (actions : List (Action × List Nat)) : List Agent :=
  (agents.zip actions).map (fun p =>
    if msgBits > 0 then { p.1 with reqAction := p.2.1, message := p.2.2 }
    else { p.1 with reqAction := p.2.1 })

/-- Action intake (lines 700–705): the state with every agent's
`req_action` (and message) loaded. -/
def Warehouse.withActions (w : Warehouse)
    (actions : List (Action × List Nat)) : Warehouse :=
  { w with agents := loadActions w.msgBits w.agents actions }

/-- The pre-cancellation pass and the intent edges it records
(lines 716–737), on a state whose actions are already loaded. -/
def Warehouse.phase1 (w : Warehouse) : List Agent × List IntentEdge :=
  let pr := w.agents.map w.precancelAgent
  (pr.map Prod.fst, pr.map Prod.snd)

/-- The agent list after conflict resolution: committed agents keep their
requested action, every failed agent is forced to `NOOP`
(lines 763–768, with the id-based membership standing for the object-set
membership of the source). -/
def Warehouse.resolvedAgents (w : Warehouse) : List Agent :=
  let p := w.phase1
  let committed := w.committedIds p.2
  p.1.map (fun a =>
    if a.id ∈ committed then a else { a with reqAction := Action.NOOP })

/-- The assertion of line 767: every agent forced to `NOOP` by conflict
resolution had (at that point) `req_action == Action.FORWARD`. -/
def Warehouse.forcedNoopAssert (w : Warehouse) : Prop :=
  let p := w.phase1
  let committed := w.committedIds p.2
  ∀ a ∈ p.1, a.id ∉ committed → a.reqAction = Action.FORWARD

/-- The state at line 782, after conflict resolution and `_recalc_grid()`
(actions must already be loaded). -/
def Warehouse.midStep (w : Warehouse) : Warehouse :=
  let agents2 := w.resolvedAgents
  { w with
    agents := agents2
    gridAgents := recalcAgentLayer agents2
    gridShelfs := recalcShelfLayer w.shelfs }

/-- `shelf_ids_coordinates(self.request_queue)` converted to tuples
(lines 784–785), on the recomputed grid. -/
def Warehouse.requestedCoords (w : Warehouse) : List (Option (Nat × Nat)) :=
  w.requestQueue.map (fun qid =>
    npWhereLayer w.gridShelfs w.gridHeight w.gridWidth qid)

/-- The action-application loop of lines 787–825, run on the recomputed
state (`Warehouse.midStep` output).  Rewards start at
`np.zeros(self.n_agents)`. -/
def Warehouse.applyPass (w : Warehouse) : MutState :=
  let st0 : MutState :=
    { agents := w.agents, shelfs := w.shelfs, carriedShelf := w.carriedShelf,
      rewards := List.replicate w.nAgents 0 }
  (List.range w.agents.length).foldl (applyAgentAction w w.requestedCoords) st0

/-- State after the whole action-application pass of a step (intake,
conflict resolution, grid recompute, per-agent action application). -/
def Warehouse.actionPass (w : Warehouse)
    (actions : List (Action × List Nat)) : MutState :=
  ((w.withActions actions).midStep).applyPass

/-- Initial state of the delivery scan: the `_recalc_grid()` of line 839
plus the queue/bookkeeping lists. -/
def Warehouse.deliveryInit (w : Warehouse) (st : MutState) : DeliveryState :=
  { gridAgents := recalcAgentLayer st.agents
    gridShelfs := recalcShelfLayer st.shelfs
    agents := st.agents
    shelfs := st.shelfs
    requestQueue := w.requestQueue
    requestedDeliveredShelf := w.requestedDeliveredShelf
    carriedShelf := st.carriedShelf
    rewards := st.rewards
    shelfDelivered := false
    deliveryCount := 0 }

/-- The delivery scan over all goal cells (lines 845–907). -/
def Warehouse.deliveryPass (w : Warehouse) (pick : Nat → Nat)
    (ds : DeliveryState) : DeliveryState :=
  w.goals.foldl (deliverAtGoal w.rewardType w.shelfOriginalCoordinates pick) ds

/-- `Warehouse.step(self, actions)`.  The caller guarantees
`actions.length = agents.length` (the source asserts it).  `pick` is the
random-replacement oracle for deliveries. -/
def Warehouse.step (w : Warehouse) (actions : List (Action × List Nat))
    (pick : Nat → Nat) : StepResult :=
  let st1 := w.actionPass actions
  let ds1 := w.deliveryPass pick (w.deliveryInit st1)
  let inact := if ds1.shelfDelivered then 0 else w.curInactiveSteps + 1
  let steps := w.curSteps + 1
  let done := truthyGE w.maxInactivitySteps inact || truthyGE w.maxSteps steps
  let wNext := { w with
    agents := ds1.agents
    shelfs := ds1.shelfs
    gridAgents := ds1.gridAgents
    gridShelfs := ds1.gridShelfs
    requestQueue := ds1.requestQueue
    requestedDeliveredShelf := ds1.requestedDeliveredShelf
    carriedShelf := ds1.carriedShelf
    curInactiveSteps := inact
    curSteps := steps }
  { obs := wNext.agents.map wNext.make_obs
    rewards := ds1.rewards
    dones := List.replicate w.nAgents done
    state := wNext }

/-- State part of a step (projection used to chain concrete traces). -/
def Warehouse.stepState (w : Warehouse) (actions : List (Action × List Nat))
    (pick : Nat → Nat) : Warehouse :=
  (w.step actions pick).state

/-! ### Well-formedness

The entry-state assumptions used by the general step theorems.  All of them
hold after `reset` (the grid equalities definitionally) and are re-established
by every step for the executions the theorems describe; witnesses discharge
them at concrete states. -/

/-- Well-formedness of a `Warehouse` state: agents sit on pairwise distinct
cells, agent ids enumerate `1, 2, ...` positionally (as produced by the
reset-time `Agent.counter`), and the stored agent layer is the recalculation
of the agent records (true from line 474 / line 839 onward, since nothing
later writes the agent layer). -/
structure Wf (w : Warehouse) : Prop where
  agentsDistinct : w.agents.Pairwise (fun a b => (a.x, a.y) ≠ (b.x, b.y))
  agentsIndexed : w.agents.map Agent.id = List.range' 1 w.agents.length
  gridA : w.gridAgents = recalcAgentLayer w.agents

/-! ### Concrete environments and traces used by witnesses/counterexamples

`mkWarehouse 3 1 1 n 0 1 2 none none GLOBAL` is a legal construction
(`shelf_columns = 3` is odd): a `4 × 10` grid whose non-highway cells are
`x ∈ {1,2,7,8}`, `y ∈ {1,2}`, hence shelves `1..8` in raster order at
`(1,1), (2,1), (7,1), (8,1), (1,2), (2,2), (7,2), (8,2)`. -/

/-- A two-agent test environment. -/
def envTwo : Warehouse := mkWarehouse 3 1 1 2 0 1 2 none none RewardType.GLOBAL

/-- A one-agent test environment. -/
def envOne : Warehouse := mkWarehouse 3 1 1 1 0 1 2 none none RewardType.GLOBAL

/-- A four-agent test environment. -/
def envFour : Warehouse := mkWarehouse 3 1 1 4 0 1 2 none none RewardType.GLOBAL

/-- Replacement oracle choosing shelf 1 at every delivery. -/
def pickTwo : Nat → Nat := fun _ => 1

/-- Replacement oracle choosing shelf 2 at every delivery. -/
def pickOne : Nat → Nat := fun _ => 2

/-- A single-agent joint action without message bits. -/
def soloActs (a : Action) : List (Action × List Nat) := [(a, [])]

/-- Run a single-agent action sequence from a state. -/
def runSolo (w : Warehouse) (acts : List Action) : Warehouse :=
  acts.foldl (fun s a => s.stepState (soloActs a) pickOne) w

/-- Two-agent trace: agent 1 on shelf 5's cell `(1,2)` facing DOWN, agent 2
on shelf 6's cell `(2,2)` facing LEFT; the queue requests shelves 5 and 6. -/
def wTwo0 : Warehouse :=
  envTwo.reset [21, 22] [Direction.DOWN, Direction.LEFT] [5, 6]

/-- After both agents `TOGGLE_LOAD`: each picks up the requested shelf under
it. -/
def wTwo1 : Warehouse :=
  wTwo0.stepState [(Action.TOGGLE_LOAD, []), (Action.TOGGLE_LOAD, [])] pickTwo

/-- After both agents `FORWARD`: agent 1 carries shelf 5 onto the goal cell
`(1,3)` (delivered, shelf 5 teleports home to `(1,2)`), while agent 2
simultaneously carries shelf 6 onto that same home cell `(1,2)`. -/
def wTwo2 : Warehouse :=
  wTwo1.stepState [(Action.FORWARD, []), (Action.FORWARD, [])] pickTwo

/-- Two agents facing each other: agent 1 at `(1,2)` facing RIGHT, agent 2
at `(2,2)` facing LEFT (the 2-cycle swap configuration). -/
def wSwap0 : Warehouse :=
  envTwo.reset [21, 22] [Direction.RIGHT, Direction.LEFT] [5, 6]

/-- Four agents on the square `(1,1), (2,1), (2,2), (1,2)` oriented
clockwise (a rotational 4-cycle; axis-aligned unit moves admit no directed
cycle of odd length, so 4 is the smallest length-≥3 cycle realisable on the
grid). -/
def wRot0 : Warehouse :=
  envFour.reset [11, 12, 22, 21]
    [Direction.RIGHT, Direction.DOWN, Direction.LEFT, Direction.UP] [5, 6]

/-- One-agent trace start: agent at the highway cell `(0,1)` facing RIGHT;
the queue requests shelves 1 and 5. -/
def wOne0 : Warehouse := envOne.reset [10] [Direction.RIGHT] [1, 5]

/-- The (only) agent of `wOne0`, written out. -/
def agentA : Agent :=
  { id := 1, prevX := none, prevY := none, x := 0, y := 1,
    dir := Direction.RIGHT, message := [], reqAction := Action.NOOP,
    carryingShelf := none, hasDelivered := false }

/-- Seventeen scripted steps: walk onto shelf 1, pick it up, carry it around
the highway column `x = 0` to the goal row (step 8 delivers it and sets
`has_delivered`), walk back, pick up the still-requested shelf 5 (the GLOBAL
pickup branch does not touch `has_delivered`, which therefore stays true),
and carry it onto the highway cell `(0,2)`. -/
def wOne17 : Warehouse :=
  runSolo wOne0
    [Action.FORWARD, Action.TOGGLE_LOAD, Action.RIGHT, Action.RIGHT,
     Action.FORWARD, Action.LEFT, Action.FORWARD, Action.FORWARD,
     Action.RIGHT, Action.RIGHT, Action.FORWARD, Action.RIGHT,
     Action.FORWARD, Action.TOGGLE_LOAD, Action.LEFT, Action.LEFT,
     Action.FORWARD]

/-- A carrying agent on the non-highway storage cell `(1,1)` with its
`has_delivered` staging flag still set. -/
def agC7 : Agent :=
  { id := 1, prevX := none, prevY := none, x := 1, y := 1,
    dir := Direction.DOWN, message := [], reqAction := Action.NOOP,
    carryingShelf := some 1, hasDelivered := true }

/-- A one-agent state whose agent carries shelf 1 on the storage cell
`(1,1)`, with the agent layer recalculated to match. -/
def wC7 : Warehouse :=
  { wOne0 with agents := [agC7], gridAgents := recalcAgentLayer [agC7] }

/-- A writer whose vector is a finished prefix `done` followed by `z`
untouched zeros, with the cursor at the boundary. -/
def WShape (v : VectorWriter) (done : List Nat) (z : Nat) : Prop :=
  v.vector = done ++ List.replicate z 0 ∧ v.idx = done.length

/-! ### Vocabulary for the movement graph analysis -/

/-- A cell lies on a directed cycle of the intent graph. -/
def Cyclic (es : List IntentEdge) (n : Cell) : Prop :=
  ∃ p, 0 < p ∧ iterSucc es p n = some n

/-- `m` is reachable from `n` by following successors. -/
def OrbitMem (es : List IntentEdge) (n m : Cell) : Prop :=
  ∃ k, iterSucc es k n = some m

/-- Undirected connectivity between edges, staying inside the edge set `K`
(every intermediate edge belongs to `K`). -/
def EdgeChain (K : List IntentEdge) (e f : IntentEdge) : Prop :=
  Relation.ReflTransGen (fun a b => b ∈ K ∧ sharesNode a b = true) e f

/-- A maximal successor walk: starts at the head, each node steps to the
next, and the last node has no outgoing edge. -/
inductive IsChain (es : List IntentEdge) : Cell → List Cell → Prop where
  | sink {n : Cell} : succOf es n = none → IsChain es n [n]
  | step {n m : Cell} {l : List Cell} :
      succOf es n = some m → IsChain es m l → IsChain es n (n :: l)

/-- The forward orbit of `n` meets the forward orbit of `c`. -/
def MeetsOrbit (es : List IntentEdge) (c : Cell) (n : Cell) : Prop :=
  ∃ x, OrbitMem es n x ∧ OrbitMem es c x

/-- The intent-edge list recorded by a step on the given joint action
(intake followed by the pre-cancellation pass). -/
def Warehouse.stepEdges (w : Warehouse)
    (actions : List (Action × List Nat)) : List IntentEdge :=
  ((w.withActions actions).phase1).2

/-- An agent standing on the goal cell `(0,3)` of `wOne0`, carrying the
requested shelf 1 (used to build a concrete mid-step state in which shelf
1's record has moved to the goal cell and every other shelf is at home). -/
def agentD : Agent :=
  { id := 1, prevX := some 0, prevY := some 2, x := 0, y := 3,
    dir := Direction.DOWN, message := [], reqAction := Action.FORWARD,
    carryingShelf := some 1, hasDelivered := false }

/-- The mid-step state described above, with `agentD` as its only agent. -/
def stDeliver : MutState :=
  ⟨[agentD],
   [⟨1, 0, 3⟩, ⟨2, 2, 1⟩, ⟨3, 7, 1⟩, ⟨4, 8, 1⟩,
    ⟨5, 1, 2⟩, ⟨6, 2, 2⟩, ⟨7, 7, 2⟩, ⟨8, 8, 2⟩],
   [some 1],
   [0]⟩

/-! ## Theorems -/

/-- C10: `reset()` reinitialises the shelves, agents, grid and request queue
(first conjunct block), but leaves `carried_shelf` and
`requested_delivered_shelf` untouched (second block) — those two lists are
created once by `__init__` (third block) and therefore persist across every
later `reset`, remaining visible to the delivery scan (which erases from
`carriedShelf`) and to the shelf-classification set arithmetic of the new
episode. -/
theorem reset_preserves_bookkeeping_lists (w : Warehouse) (locs : List Nat)
    (dirs : List Direction) (draw : List Nat)
    (shelfColumns columnHeight shelfRows nAgents msgBits sensorRange
      requestQueueSize : Nat) (maxInactivitySteps maxSteps : Option Nat)
    (rewardType : RewardType) :
    ((w.reset locs dirs draw).agents = w.resetAgents locs dirs ∧
      (w.reset locs dirs draw).shelfs = w.resetShelfs ∧
      (w.reset locs dirs draw).gridAgents
          = recalcAgentLayer (w.resetAgents locs dirs) ∧
      (w.reset locs dirs draw).gridShelfs = recalcShelfLayer w.resetShelfs ∧
      (w.reset locs dirs draw).requestQueue = draw) ∧
    ((w.reset locs dirs draw).carriedShelf = w.carriedShelf ∧
      (w.reset locs dirs draw).requestedDeliveredShelf
          = w.requestedDeliveredShelf) ∧
    ((mkWarehouse shelfColumns columnHeight shelfRows nAgents msgBits
        sensorRange requestQueueSize maxInactivitySteps maxSteps
        rewardType).carriedShelf = [] ∧
      (mkWarehouse shelfColumns columnHeight shelfRows nAgents msgBits
        sensorRange requestQueueSize maxInactivitySteps maxSteps
        rewardType).requestedDeliveredShelf = []) :=
  ⟨⟨rfl, rfl, rfl, rfl, rfl⟩, ⟨rfl, rfl⟩, ⟨rfl, rfl⟩⟩

/-- C9 (counterexample): the rng may legally draw the flat index of a shelf
cell for an agent: after `reset` with the admissible draw `[11]` (distinct,
in range), the agent starts on the cell of shelf 1 at `(1,1)` while carrying
nothing — refuting "no agent starts in a cell that holds a shelf". -/
theorem reset_agent_on_shelf_cell :
    [11].Nodup ∧ (∀ v ∈ [11], v < envOne.gridHeight * envOne.gridWidth) ∧
    (∃ a ∈ (envOne.reset [11] [Direction.UP] [1, 5]).agents,
      ∃ s ∈ (envOne.reset [11] [Direction.UP] [1, 5]).shelfs,
        (a.x, a.y) = (s.x, s.y) ∧ a.carryingShelf = none) := by
  decide

/-- C9 (amended): after every `reset`, agent positions are pairwise
distinct — `np.random.choice(..., replace=False)` draws distinct flat cell
indices and `np.unravel_index` is injective — but an agent may start on a
cell that holds a shelf (the draw ranges over all cells, shelf cells
included). -/
theorem reset_agent_positions_distinct (w : Warehouse) (locs : List Nat)
    (dirs : List Direction) (draw : List Nat) (hnd : locs.Nodup)
    (hlen : locs.length ≤ dirs.length) :
    (w.reset locs dirs draw).agents.Pairwise
      (fun a b => (a.x, a.y) ≠ (b.x, b.y)) := by
  have hzip : ((locs.zip dirs).map Prod.fst).Nodup := by
    rw [List.map_fst_zip locs dirs hlen]; exact hnd
  have hz : (locs.zip dirs).Pairwise (fun p q => p.1 ≠ q.1) :=
    List.pairwise_map.mp hzip
  have he : ((locs.zip dirs).enum).Pairwise (fun p q => p.2.1 ≠ q.2.1) := by
    have := List.pairwise_map.mp
      (((locs.zip dirs).enum_map_snd).symm ▸ hz :
        (((locs.zip dirs).enum).map Prod.snd).Pairwise (fun p q => p.1 ≠ q.1))
    exact this
  show ((((locs.zip dirs).enum)).map _).Pairwise _
  rw [List.pairwise_map]
  refine he.imp ?_
  intro p q hpq hcontra
  apply hpq
  have hx : p.2.1 % w.gridWidth = q.2.1 % w.gridWidth := congrArg Prod.fst hcontra
  have hy : p.2.1 / w.gridWidth = q.2.1 / w.gridWidth := congrArg Prod.snd hcontra
  calc p.2.1 = w.gridWidth * (p.2.1 / w.gridWidth) + p.2.1 % w.gridWidth :=
        (Nat.div_add_mod _ _).symm
    _ = w.gridWidth * (q.2.1 / w.gridWidth) + q.2.1 % w.gridWidth := by
        rw [hx, hy]
    _ = q.2.1 := Nat.div_add_mod _ _

/-- C9 (witness for the amended theorem): the amended theorem applies at the
concrete two-agent reset with the admissible draw `[21, 22]`. -/
theorem reset_agent_positions_distinct_witness :
    ([21, 22] : List Nat).Nodup ∧
    wTwo0.agents.Pairwise (fun a b => (a.x, a.y) ≠ (b.x, b.y)) :=
  ⟨by decide,
    reset_agent_positions_distinct envTwo [21, 22]
      [Direction.DOWN, Direction.LEFT] [5, 6] (by decide) (by decide)⟩

/-- C1 (counterexample): two steps after a legal reset, the post-step state
violates both the "agent and shelf share a cell only when carrying" clause
(agent 2 shares `(1,2)` with shelf 5 while carrying shelf 6) and pairwise
distinctness of shelf positions (the delivered shelf 5 is relocated to its
home cell `(1,2)` while the carried shelf 6 sits there). -/
theorem step_shelf_overlap_after_delivery :
    (∃ s1 ∈ wTwo2.shelfs, ∃ s2 ∈ wTwo2.shelfs,
      s1.id ≠ s2.id ∧ (s1.x, s1.y) = (s2.x, s2.y)) ∧
    (∃ a ∈ wTwo2.agents, ∃ s ∈ wTwo2.shelfs,
      (a.x, a.y) = (s.x, s.y) ∧ a.carryingShelf ≠ some s.id) := by
  decide

/-- C7 (counterexample): in the reachable state `wOne17` the agent carries
shelf 5, has `has_delivered = True`, and stands on the highway cell
`(0,2)`; after the action-application pass of a `TOGGLE_LOAD` step the flag
is still `True` — the reset of line 825 is guarded by
`if not self._is_highway(...)`, so it is not unconditional. -/
theorem toggle_load_keeps_has_delivered_on_highway :
    wOne17.agents.map (fun a => a.carryingShelf.isSome) = [true] ∧
    wOne17.agents.map (fun a => a.hasDelivered) = [true] ∧
    wOne17.agents.map (fun a => wOne17.is_highway a.x a.y) = [true] ∧
    (wOne17.actionPass (soloActs Action.TOGGLE_LOAD)).agents.map
      (fun a => a.hasDelivered) = [true] := by
  decide

/-! ### Writer-layout lemmas for the observation encoder -/

/-- Weakening/normalising a `WShape` fact. -/
theorem WShape.congr {v : VectorWriter} {done done' : List Nat} {z z' : Nat}
    (h : WShape v done z) (hd : done = done') (hz : z = z') :
    WShape v done' z' := hd ▸ hz ▸ h

/-- `write` appends its data to the finished prefix. -/
theorem WShape.write {v : VectorWriter} {done : List Nat} {z : Nat}
    (h : WShape v done z) (data : List Nat) (hle : data.length ≤ z) :
    WShape (v.write data) (done ++ data) (z - data.length) := by
  obtain ⟨hv, hi⟩ := h
  constructor
  · show overwriteAt v.vector v.idx data = _
    rw [hv, hi]
    unfold overwriteAt
    rw [List.take_left]
    have hlen : (done ++ List.replicate z 0).length = done.length + z := by simp
    rw [hlen, Nat.add_sub_cancel_left, List.take_of_length_le hle,
      List.drop_append]
    simp
  · show v.idx + data.length = _
    rw [hi]; simp

/-- `skip` appends zeros to the finished prefix. -/
theorem WShape.skip {v : VectorWriter} {done : List Nat} {z : Nat}
    (h : WShape v done z) (b : Nat) (hle : b ≤ z) :
    WShape (v.skip b) (done ++ List.replicate b 0) (z - b) := by
  obtain ⟨hv, hi⟩ := h
  constructor
  · show v.vector = _
    rw [hv, List.append_assoc, ← List.replicate_add, Nat.add_sub_cancel' hle]
  · show v.idx + b = _
    rw [hi]; simp

/-- Length of an agent sub-block is `1 + 4 + msg_bits`. -/
theorem agentBlock_length (w : Warehouse) (idA : Nat)
    (hmsg : idA ≠ 0 → (w.messageOfAgentId idA).length = w.msgBits) :
    (agentBlock w idA).length = 5 + w.msgBits := by
  by_cases h0 : idA = 0
  · simp [agentBlock, h0]; omega
  · by_cases hm : w.msgBits > 0
    · simp [agentBlock, h0, hm, onehot4, hmsg h0]; omega
    · have hz : w.msgBits = 0 := by omega
      simp [agentBlock, h0, hm, onehot4, hz]

/-- Length of a shelf sub-block is 2. -/
theorem shelfBlock_length (w : Warehouse) (idS : Nat) :
    (shelfBlock w idS).length = 2 := by
  by_cases h : idS = 0 <;> simp [shelfBlock, h]

/-- Length of a full cell block is `(1 + 4 + msg_bits) + 2`. -/
theorem cellBlock_length (w : Warehouse) (ids : Nat × Nat)
    (hmsg : ids.1 ≠ 0 → (w.messageOfAgentId ids.1).length = w.msgBits) :
    (cellBlock w ids).length = 7 + w.msgBits := by
  simp [cellBlock, agentBlock_length w ids.1 hmsg, shelfBlock_length]
  omega

/-- One sensor cell appends exactly its `cellBlock` to the writer. -/
theorem WShape.cell {v : VectorWriter} {done : List Nat} {z : Nat}
    (h : WShape v done z) (w : Warehouse) (ids : Nat × Nat)
    (hmsg : ids.1 ≠ 0 → (w.messageOfAgentId ids.1).length = w.msgBits)
    (hz : 7 + w.msgBits ≤ z) :
    WShape (obsCellWrite w v ids) (done ++ cellBlock w ids)
      (z - (7 + w.msgBits)) := by
  have hAgent : WShape
      (if ids.1 = 0 then ((v.skip 1).write [1]).skip (3 + w.msgBits)
        else
          let obs := v.write [1]
          let obs := obs.write (onehot4 (w.dirValueOfAgentId ids.1))
          if w.msgBits > 0 then obs.write (w.messageOfAgentId ids.1) else obs)
      (done ++ agentBlock w ids.1) (z - (5 + w.msgBits)) := by
    by_cases h0 : ids.1 = 0
    · rw [if_pos h0]
      have s1 := h.skip 1 (by omega)
      have s2 := s1.write [1] (by simp; omega)
      have s3 := s2.skip (3 + w.msgBits) (by simp; omega)
      refine s3.congr ?_ ?_
      · simp [agentBlock, h0, List.append_assoc]
        rw [show (3 + w.msgBits) = 1 + 1 + 1 + w.msgBits by omega]
        simp [List.replicate_add]
      · simp; omega
    · rw [if_neg h0]
      show WShape
        (if w.msgBits > 0 then
          ((v.write [1]).write (onehot4 (w.dirValueOfAgentId ids.1))).write
            (w.messageOfAgentId ids.1)
        else (v.write [1]).write (onehot4 (w.dirValueOfAgentId ids.1))) _ _
      have h4 : (onehot4 (w.dirValueOfAgentId ids.1)).length = 4 := by
        simp [onehot4]
      have s1 := h.write [1] (by simp; omega)
      have s2 := s1.write (onehot4 (w.dirValueOfAgentId ids.1))
        (by rw [h4]; simp; omega)
      by_cases hm : w.msgBits > 0
      · rw [if_pos hm]
        have s3 := s2.write (w.messageOfAgentId ids.1)
          (by rw [hmsg h0, h4]; simp; omega)
        refine s3.congr ?_ ?_
        · simp [agentBlock, h0, hm, List.append_assoc]
        · rw [hmsg h0, h4]; simp; omega
      · rw [if_neg hm]
        have hm0 : w.msgBits = 0 := by omega
        refine s2.congr ?_ ?_
        · simp [agentBlock, h0, hm, List.append_assoc]
        · rw [h4]; simp; omega
  show WShape
    (if ids.2 = 0 then
      (if ids.1 = 0 then ((v.skip 1).write [1]).skip (3 + w.msgBits)
        else
          let obs := v.write [1]
          let obs := obs.write (onehot4 (w.dirValueOfAgentId ids.1))
          if w.msgBits > 0 then obs.write (w.messageOfAgentId ids.1)
          else obs).skip 2
      else
        (if ids.1 = 0 then ((v.skip 1).write [1]).skip (3 + w.msgBits)
          else
            let obs := v.write [1]
            let obs := obs.write (onehot4 (w.dirValueOfAgentId ids.1))
            if w.msgBits > 0 then obs.write (w.messageOfAgentId ids.1)
            else obs).write [1, if w.shelfIdRequested ids.2 then 1 else 0]) _ _
  by_cases h2 : ids.2 = 0
  · rw [if_pos h2]
    have s := hAgent.skip 2 (by omega)
    refine s.congr ?_ ?_
    · simp [cellBlock, shelfBlock, h2, List.append_assoc]
    · omega
  · rw [if_neg h2]
    have s := hAgent.write [1, if w.shelfIdRequested ids.2 then 1 else 0]
      (by simp; omega)
    refine s.congr ?_ ?_
    · simp [cellBlock, shelfBlock, h2, List.append_assoc]
    · simp; omega

/-- The sensor-cell fold appends the concatenation of all cell blocks. -/
theorem WShape.cellFold {v : VectorWriter} {done : List Nat}
    (w : Warehouse) (ps : List (Nat × Nat))
    (h : WShape v done (ps.length * (7 + w.msgBits)))
    (hmsg : ∀ p ∈ ps, p.1 ≠ 0 → (w.messageOfAgentId p.1).length = w.msgBits) :
    WShape (ps.foldl (obsCellWrite w) v)
      (done ++ (ps.map (cellBlock w)).flatten) 0 := by
  induction ps generalizing v done with
  | nil => simpa using h
  | cons p ps ih =>
    have hp : WShape v done ((7 + w.msgBits) + ps.length * (7 + w.msgBits)) := by
      refine h.congr rfl ?_
      simp [Nat.succ_mul, Nat.add_comm]
    have hc := hp.cell w p (hmsg p (by simp)) (by omega)
    have hc2 : WShape (obsCellWrite w v p) (done ++ cellBlock w p)
        (ps.length * (7 + w.msgBits)) := by
      refine hc.congr rfl ?_
      omega
    have := ih hc2 (fun q hq => hmsg q (by simp [hq]))
    refine this.congr ?_ rfl
    simp [List.append_assoc]

/-- A sensor window has `(2r+1) * (2r+1)` cells. -/
theorem windowIds_length (g : Layer) (gridHeight gridWidth r ax ay : Nat) :
    (windowIds g gridHeight gridWidth r ax ay).length = (2 * r + 1) * (2 * r + 1) := by
  unfold windowIds
  simp [List.length_flatMap, Function.comp_def]
  try rw [List.map_const', List.sum_replicate, smul_eq_mul]

/-- The self block has the 8 entries of `_obs_bits_for_self`. -/
theorem selfBlock_length (w : Warehouse) (a : Agent) :
    (selfBlock w a).length = 8 := by
  simp [selfBlock, onehot4]

/-- Structure of the flattened observation: the encoder writes the self
block followed by one block per sensor-window cell, in raster order; skipped
positions remain zero.  The hypothesis is the action-space contract that
every agent's message payload has exactly `msg_bits` entries. -/
theorem make_obs_blocks (w : Warehouse) (a : Agent)
    (hmsg : ∀ p ∈ windowIds w.gridAgents w.gridHeight w.gridWidth
        w.sensorRange a.x a.y,
      p ≠ 0 → (w.messageOfAgentId p).length = w.msgBits) :
    w.make_obs a = selfBlock w a ++
      (((windowIds w.gridAgents w.gridHeight w.gridWidth w.sensorRange a.x a.y).zip
        (windowIds w.gridShelfs w.gridHeight w.gridWidth w.sensorRange a.x a.y)).map
        (cellBlock w)).flatten := by
  have hzl : ((windowIds w.gridAgents w.gridHeight w.gridWidth w.sensorRange
        a.x a.y).zip
      (windowIds w.gridShelfs w.gridHeight w.gridWidth w.sensorRange
        a.x a.y)).length = (2 * w.sensorRange + 1) * (2 * w.sensorRange + 1) := by
    rw [List.length_zip, windowIds_length, windowIds_length, Nat.min_self]
  have hobs : w.obsLength = 8 +
      ((windowIds w.gridAgents w.gridHeight w.gridWidth w.sensorRange a.x
          a.y).zip
        (windowIds w.gridShelfs w.gridHeight w.gridWidth w.sensorRange a.x
          a.y)).length * (7 + w.msgBits) := by
    rw [hzl, Warehouse.obsLength, pow_two]
    ring
  have h0 : WShape ⟨List.replicate w.obsLength 0, 0⟩ [] w.obsLength :=
    ⟨by simp, by simp⟩
  have h1 := h0.write [a.x, a.y, if a.carryingShelf.isSome then 1 else 0]
    (by rw [hobs]; simp; omega)
  have h2 := h1.write (onehot4 a.dir.value)
    (by rw [hobs]; simp [onehot4]; omega)
  have h3 := h2.write [if w.is_highway a.x a.y then 1 else 0]
    (by rw [hobs]; simp [onehot4]; omega)
  have h3' : WShape
      (((VectorWriter.write ⟨List.replicate w.obsLength 0, 0⟩
          [a.x, a.y, if a.carryingShelf.isSome then 1 else 0]).write
        (onehot4 a.dir.value)).write [if w.is_highway a.x a.y then 1 else 0])
      (selfBlock w a)
      (((windowIds w.gridAgents w.gridHeight w.gridWidth w.sensorRange a.x
          a.y).zip
        (windowIds w.gridShelfs w.gridHeight w.gridWidth w.sensorRange a.x
          a.y)).length * (7 + w.msgBits)) := by
    refine h3.congr ?_ ?_
    · simp [selfBlock, List.append_assoc]
    · rw [hobs]
      simp [onehot4]
      omega
  have hfold := h3'.cellFold w
    ((windowIds w.gridAgents w.gridHeight w.gridWidth w.sensorRange a.x
        a.y).zip
      (windowIds w.gridShelfs w.gridHeight w.gridWidth w.sensorRange a.x
        a.y))
    (fun p hp => hmsg p.1 (List.of_mem_zip hp).1)
  show (((VectorWriter.write ⟨List.replicate w.obsLength 0, 0⟩
      [a.x, a.y, if a.carryingShelf.isSome then 1 else 0]).write
        (onehot4 a.dir.value)).write
          [if w.is_highway a.x a.y then 1 else 0] |>
    (((windowIds w.gridAgents w.gridHeight w.gridWidth w.sensorRange a.x
        a.y).zip
      (windowIds w.gridShelfs w.gridHeight w.gridWidth w.sensorRange a.x
        a.y)).foldl (obsCellWrite w) ·)).vector = _
  rw [hfold.1]
  simp

/-- Dropping a whole number of uniform-length blocks from a flattened list
drops that many blocks. -/
theorem flatten_drop_uniform (l : List (List Nat)) (B i : Nat)
    (h : ∀ x ∈ l, x.length = B) :
    (l.flatten).drop (i * B) = (l.drop i).flatten := by
  induction i generalizing l with
  | zero => simp
  | succ k ih =>
    cases l with
    | nil => simp
    | cons c cs =>
      rw [show (k + 1) * B = c.length + k * B by
        rw [h c (by simp)]; ring]
      rw [List.flatten_cons, List.drop_append]
      rw [ih cs (fun x hx => h x (by simp [hx]))]
      simp

/-- C8 (amended): in every encoded observation vector, a sensor-window cell
with no agent (out-of-bounds cells included, since padding stores id 0)
yields an agent sub-block whose presence flag is 0 and whose message bits
are all zero, but whose 4-entry direction field is `[1, 0, 0, 0]` — the
writer deliberately stores `1.0` in the first direction slot to stay
bit-exact with `gym.spaces.flatten` of `Discrete(4)` at direction value 0,
rather than leaving the one-hot all zeros. -/
theorem make_obs_empty_cell_agent_block (w : Warehouse) (a : Agent) (i : Nat)
    (hmsg : ∀ p ∈ windowIds w.gridAgents w.gridHeight w.gridWidth
        w.sensorRange a.x a.y,
      p ≠ 0 → (w.messageOfAgentId p).length = w.msgBits)
    (hi : i < ((windowIds w.gridAgents w.gridHeight w.gridWidth w.sensorRange
        a.x a.y).zip
      (windowIds w.gridShelfs w.gridHeight w.gridWidth w.sensorRange a.x
        a.y)).length)
    (hempty : (windowIds w.gridAgents w.gridHeight w.gridWidth w.sensorRange
        a.x a.y)[i]? = some 0) :
    ((w.make_obs a).drop (8 + i * (7 + w.msgBits))).take (5 + w.msgBits)
      = 0 :: 1 :: 0 :: 0 :: 0 :: List.replicate w.msgBits 0 := by
  rw [make_obs_blocks w a hmsg]
  rw [show (8 : Nat) + i * (7 + w.msgBits)
    = (selfBlock w a).length + i * (7 + w.msgBits) by rw [selfBlock_length]]
  rw [List.drop_append]
  rw [flatten_drop_uniform _ (7 + w.msgBits) i (by
    intro x hx
    obtain ⟨p, hp, rfl⟩ := List.mem_map.mp hx
    exact cellBlock_length w p (fun h0 => hmsg p.1 (List.of_mem_zip hp).1 h0))]
  set zl := ((windowIds w.gridAgents w.gridHeight w.gridWidth w.sensorRange
      a.x a.y).zip
    (windowIds w.gridShelfs w.gridHeight w.gridWidth w.sensorRange a.x
      a.y)) with hzl
  rw [← List.map_drop]
  rw [List.drop_eq_getElem_cons hi]
  obtain ⟨s, hs⟩ : ∃ s, zl[i] = (0, s) := by
    refine ⟨zl[i].2, ?_⟩
    have hz : zl[i]? = some zl[i] := List.getElem?_eq_getElem hi
    have h1 := (List.getElem?_zip_eq_some.mp hz).1
    rw [hempty] at h1
    have h2 : zl[i].1 = 0 := (Option.some.inj h1).symm
    rw [← h2]
  rw [hs]
  rw [List.map_cons, List.flatten_cons]
  have hA0 : agentBlock w 0 = 0 :: 1 :: 0 :: 0 :: 0 :: List.replicate w.msgBits 0 := by
    simp [agentBlock]
  rw [show cellBlock w (0, s) = agentBlock w 0 ++ shelfBlock w s from rfl,
    List.append_assoc]
  rw [show (5 : Nat) + w.msgBits = (agentBlock w 0).length by
    rw [agentBlock_length w 0 (by simp)]]
  rw [List.take_left, hA0]

/-- C8 (counterexample): the first sensor-window cell of the post-reset
observation of `wOne0`'s agent holds no agent (it lies outside the grid and
is zero padded), yet its encoded block is `[0, 1, 0, 0, 0] ++ [0, 0]` —
entry 1 of the direction field is 1, refuting "the 4-entry direction
one-hot is all zeros". -/
theorem make_obs_empty_cell_direction_entry_one :
    wOne0.agents = [agentA] ∧
    (windowIds wOne0.gridAgents wOne0.gridHeight wOne0.gridWidth
      wOne0.sensorRange agentA.x agentA.y)[0]? = some 0 ∧
    ((wOne0.make_obs agentA).drop 8).take 7 = [0, 1, 0, 0, 0, 0, 0] := by
  decide

/-- C8 (witness for the amended theorem): instantiated at `wOne0`'s agent
and window cell 0. -/
theorem make_obs_empty_cell_agent_block_witness :
    (windowIds wOne0.gridAgents wOne0.gridHeight wOne0.gridWidth
      wOne0.sensorRange agentA.x agentA.y)[0]? = some 0 ∧
    ((wOne0.make_obs agentA).drop (8 + 0 * (7 + wOne0.msgBits))).take
        (5 + wOne0.msgBits)
      = 0 :: 1 :: 0 :: 0 :: 0 :: List.replicate wOne0.msgBits 0 :=
  ⟨by decide,
    make_obs_empty_cell_agent_block wOne0 agentA 0 (by decide) (by decide)
      (by decide)⟩

/-! ### Per-iteration frame lemmas for the action-application loop -/

/-- `modifyAt` does not affect other indices. -/
theorem modifyAt_getElem?_ne {α : Type} (l : List α) (j i : Nat) (f : α → α)
    (h : j ≠ i) : (modifyAt l j f)[i]? = l[i]? := by
  unfold modifyAt
  cases hj : l[j]? with
  | none => rfl
  | some x => exact List.getElem?_set_ne h

/-- `modifyAt` maps the targeted index. -/
theorem modifyAt_getElem?_self {α : Type} (l : List α) (i : Nat) (f : α → α) :
    (modifyAt l i f)[i]? = (l[i]?).map f := by
  unfold modifyAt
  cases hi : l[i]? with
  | none => rw [hi]; simp [hi]
  | some x =>
    have hlt : i < l.length := by
      by_contra hcon
      rw [List.getElem?_eq_none (by omega)] at hi
      cases hi
    simp [List.getElem?_set_self', hlt]

/-- A `modifyAt` whose function keeps position, request and carry-link
(such as the `has_delivered` writes) preserves those fields everywhere. -/
theorem modifyAt_core_invariant (l : List Agent) (k i : Nat) (f : Agent → Agent)
    (hf : ∀ a, ((f a).x, (f a).y, (f a).dir, (f a).reqAction, (f a).carryingShelf)
      = (a.x, a.y, a.dir, a.reqAction, a.carryingShelf)) :
    ((modifyAt l k f)[i]?).map
        (fun a => (a.x, a.y, a.dir, a.reqAction, a.carryingShelf))
      = (l[i]?).map (fun a => (a.x, a.y, a.dir, a.reqAction, a.carryingShelf)) := by
  by_cases h : k = i
  · subst h
    rw [modifyAt_getElem?_self, Option.map_map]
    cases l[k]? with
    | none => rfl
    | some a => simp [Function.comp, hf a]
  · rw [modifyAt_getElem?_ne _ _ _ _ h]

/-- The loop iteration for agent `j` does not change the position, request
or carry-link of any other agent `i`. -/
theorem applyAgentAction_core_ne (w : Warehouse)
    (c : List (Option (Nat × Nat))) (st : MutState) (j i : Nat) (h : j ≠ i) :
    (((applyAgentAction w c st j).agents[i]?).map
        (fun a => (a.x, a.y, a.dir, a.reqAction, a.carryingShelf)))
      = ((st.agents[i]?).map
        (fun a => (a.x, a.y, a.dir, a.reqAction, a.carryingShelf))) := by
  unfold applyAgentAction
  cases hj : st.agents[j]? with
  | none => rfl
  | some a0 =>
    simp only []
    split_ifs <;>
      simp_all [List.getElem?_set_ne h, modifyAt_core_invariant,
        modifyAt_getElem?_ne]

/-- Folding the loop over indices that avoid `i` preserves agent `i`'s
position, request and carry-link. -/
theorem foldl_applyAgentAction_core (w : Warehouse)
    (c : List (Option (Nat × Nat))) (idxs : List Nat) (st : MutState)
    (i : Nat) (h : i ∉ idxs) :
    (((idxs.foldl (applyAgentAction w c) st).agents[i]?).map
        (fun a => (a.x, a.y, a.dir, a.reqAction, a.carryingShelf)))
      = ((st.agents[i]?).map
        (fun a => (a.x, a.y, a.dir, a.reqAction, a.carryingShelf))) := by
  induction idxs generalizing st with
  | nil => rfl
  | cons j js ih =>
    rw [List.foldl_cons, ih _ (fun hmem => h (by simp [hmem]))]
    exact applyAgentAction_core_ne w c st j i (fun hji => h (by simp [hji]))

/-- The loop iteration of a non-carrying agent whose requested action is
`TOGGLE_LOAD` (or a forced `NOOP`) standing on a cell that none of the
requested-coordinate tuples matches: the reward vector is untouched and the
agent still carries nothing. -/
theorem applyAgentAction_toggle_rejected (w : Warehouse)
    (c : List (Option (Nat × Nat))) (st : MutState) (i : Nat) (a : Agent)
    (ha : st.agents[i]? = some a)
    (hreq : a.reqAction = Action.TOGGLE_LOAD ∨ a.reqAction = Action.NOOP)
    (hcar : a.carryingShelf = none)
    (hcoords : some (a.y, a.x) ∉ c) :
    (applyAgentAction w c st i).rewards = st.rewards ∧
    (((applyAgentAction w c st i).agents[i]?).map
      (fun b => b.carryingShelf)) = some none := by
  unfold applyAgentAction
  rw [ha]
  simp only []
  have hlt : i < st.agents.length := by
    by_contra hcon
    rw [List.getElem?_eq_none (by omega)] at ha
    cases ha
  rcases hreq with hreq | hreq <;>
    simp [hreq, hcar, hcoords, List.getElem?_set_self', hlt]

/-- If the shelf layer recalculated from records holds a nonzero id at a
cell, some shelf record with that id sits at that cell. -/
theorem recalcShelfLayer_cases (shelfs : List Shelf) (y x : Nat) :
    recalcShelfLayer shelfs y x = 0 ∨
    ∃ s ∈ shelfs, s.y = y ∧ s.x = x ∧ s.id = recalcShelfLayer shelfs y x := by
  unfold recalcShelfLayer
  suffices h : ∀ g : Layer,
      (shelfs.foldl (fun g s => writeCell g s.y s.x s.id) g) y x = g y x ∨
      ∃ s ∈ shelfs, s.y = y ∧ s.x = x ∧
        s.id = (shelfs.foldl (fun g s => writeCell g s.y s.x s.id) g) y x by
    rcases h zeroLayer with h0 | h0
    · left; rw [h0]; rfl
    · right; exact h0
  induction shelfs with
  | nil => intro g; left; rfl
  | cons s ss ih =>
    intro g
    rw [List.foldl_cons]
    rcases ih (writeCell g s.y s.x s.id) with h0 | h0
    · rw [h0]
      unfold writeCell
      by_cases hc : y = s.y ∧ x = s.x
      · right
        refine ⟨s, by simp, hc.1.symm, hc.2.symm, ?_⟩
        simp [hc]
      · left; simp [hc]
    · right
      obtain ⟨t, ht, h1, h2, h3⟩ := h0
      exact ⟨t, by simp [ht], h1, h2, h3⟩

/-- Membership of a cell among the requested coordinate tuples implies a
queue shelf record is standing at that cell. -/
theorem requestedCoords_mem (w : Warehouse) (y x : Nat)
    (h : some (y, x) ∈ w.requestedCoords) (hq0 : 0 ∉ w.requestQueue)
    (hgrid : w.gridShelfs = recalcShelfLayer w.shelfs) :
    ∃ s ∈ w.shelfs, s.y = y ∧ s.x = x ∧ s.id ∈ w.requestQueue := by
  unfold Warehouse.requestedCoords at h
  obtain ⟨qid, hqid, hwhere⟩ := List.mem_map.mp h
  have hfound := List.find?_some hwhere
  have heq : w.gridShelfs y x = qid := by
    simpa using hfound
  rw [hgrid] at heq
  have hne : qid ≠ 0 := fun h0 => hq0 (h0 ▸ hqid)
  rcases recalcShelfLayer_cases w.shelfs y x with h0 | h0
  · rw [heq] at h0
    exact absurd h0 hne
  · obtain ⟨s, hs, h1, h2, h3⟩ := h0
    exact ⟨s, hs, h1, h2, by rw [h3, heq]; exact hqid⟩

/-- A `modifyAt` whose function keeps the carry-link (the `has_delivered`
writes) preserves the carry-link everywhere. -/
theorem modifyAt_carrying_invariant (l : List Agent) (k i : Nat)
    (f : Agent → Agent) (hf : ∀ a, (f a).carryingShelf = a.carryingShelf) :
    ((modifyAt l k f)[i]?).map (fun b => b.carryingShelf)
      = (l[i]?).map (fun b => b.carryingShelf) := by
  by_cases h : k = i
  · subst h
    rw [modifyAt_getElem?_self, Option.map_map]
    cases l[k]? with
    | none => rfl
    | some a => simp [Function.comp, hf a]
  · rw [modifyAt_getElem?_ne _ _ _ _ h]

/-- The detach map of the delivery scan never makes an empty carry-link
non-empty. -/
theorem detach_map_carrying_none (shelfs : List Shelf) (l : List Agent)
    (x y : Nat) (i : Nat)
    (h : ((l[i]?).map (fun b => b.carryingShelf)) = some none) :
    (((l.map (fun ag => if carriedShelfAt shelfs ag x y then
        { ag with hasDelivered := true, carryingShelf := none }
      else ag))[i]?).map (fun b => b.carryingShelf)) = some none := by
  rw [List.getElem?_map, Option.map_map]
  cases ha : l[i]? with
  | none => rw [ha] at h; cases h
  | some b =>
    rw [ha] at h
    have hb : b.carryingShelf = none := by simpa using h
    by_cases hc : carriedShelfAt shelfs b x y <;> simp [Function.comp, hc, hb]

/-- The delivery scan never makes an empty carry-link non-empty. -/
theorem deliverAtGoal_carrying_none (rt : RewardType) (homeOf : Nat → Nat × Nat)
    (pick : Nat → Nat) (ds : DeliveryState) (goal : Nat × Nat) (i : Nat)
    (h : ((ds.agents[i]?).map (fun b => b.carryingShelf)) = some none) :
    (((deliverAtGoal rt homeOf pick ds goal).agents[i]?).map
      (fun b => b.carryingShelf)) = some none := by
  unfold deliverAtGoal
  simp only []
  split
  · exact h
  · split
    · exact h
    · split
      · exact h
      · show ((if rt = RewardType.TWO_STAGE then modifyAt _ _ _
          else _)[i]?).map _ = _
        split
        · refine Eq.trans (modifyAt_carrying_invariant _ _ _ _ (fun a => rfl)) ?_
          exact detach_map_carrying_none _ _ _ _ _ h
        · exact detach_map_carrying_none _ _ _ _ _ h

/-- Folding the delivery scan never makes an empty carry-link non-empty. -/
theorem deliveryFold_carrying_none (rt : RewardType) (homeOf : Nat → Nat × Nat)
    (pick : Nat → Nat) (goals : List (Nat × Nat)) (ds : DeliveryState)
    (i : Nat)
    (h : ((ds.agents[i]?).map (fun b => b.carryingShelf)) = some none) :
    (((goals.foldl (deliverAtGoal rt homeOf pick) ds).agents[i]?).map
      (fun b => b.carryingShelf)) = some none := by
  induction goals generalizing ds with
  | nil => exact h
  | cons g gs ih =>
    exact ih _ (deliverAtGoal_carrying_none rt homeOf pick ds g i h)

/-- Action intake at one index. -/
theorem loadActions_getElem? (m : Nat) (ags : List Agent)
    (acts : List (Action × List Nat)) (i : Nat) (a : Agent)
    (act : Action × List Nat) (ha : ags[i]? = some a)
    (hact : acts[i]? = some act) :
    (loadActions m ags acts)[i]? = some (if m > 0 then
      { a with reqAction := act.1, message := act.2 }
    else { a with reqAction := act.1 }) := by
  unfold loadActions
  rw [List.getElem?_map]
  have hz : (ags.zip acts)[i]? = some (a, act) :=
    List.getElem?_zip_eq_some.mpr ⟨ha, hact⟩
  rw [hz]
  rfl

/-- Lengths through action intake. -/
theorem loadActions_length (m : Nat) (ags : List Agent)
    (acts : List (Action × List Nat)) :
    (loadActions m ags acts).length = min ags.length acts.length := by
  simp [loadActions]

/-- Lengths through conflict resolution. -/
theorem resolvedAgents_length (w : Warehouse) :
    w.resolvedAgents.length = w.agents.length := by
  simp [Warehouse.resolvedAgents, Warehouse.phase1]

/-- Pre-cancellation leaves a non-carrying agent alone and records its
`start → target` intent edge. -/
theorem precancelAgent_not_carrying (w : Warehouse) (a : Agent)
    (h : a.carryingShelf = none) :
    w.precancelAgent a
      = (a, ((a.x, a.y), a.req_location w.gridHeight w.gridWidth)) := by
  unfold Warehouse.precancelAgent
  rw [if_neg]
  simp [h]

/-- Conflict resolution at one index. -/
theorem resolvedAgents_getElem? (w : Warehouse) (i : Nat) (a : Agent)
    (ha : w.agents[i]? = some a) :
    w.resolvedAgents[i]? = some (if (w.precancelAgent a).1.id ∈
        w.committedIds (w.phase1).2 then (w.precancelAgent a).1
      else { (w.precancelAgent a).1 with reqAction := Action.NOOP }) := by
  unfold Warehouse.resolvedAgents Warehouse.phase1
  simp only [List.getElem?_map, List.map_map]
  rw [ha]
  rfl

/-- Projection from the preserved core tuple to the carry-link. -/
theorem core_to_carrying {o o' : Option Agent}
    (h : o.map (fun a => (a.x, a.y, a.dir, a.reqAction, a.carryingShelf))
      = o'.map (fun a => (a.x, a.y, a.dir, a.reqAction, a.carryingShelf))) :
    o.map (fun a => a.carryingShelf) = o'.map (fun a => a.carryingShelf) := by
  have h2 := congrArg
    (Option.map (fun t : Nat × Nat × Direction × Action × Option Nat => t.2.2.2.2)) h
  simpa [Option.map_map, Function.comp] using h2

/-- Split of the loop index list at a live index. -/
theorem range_split_at (n i : Nat) (h : i < n) :
    List.range n = List.range' 0 i ++ i :: List.range' (i + 1) (n - i - 1) := by
  rw [List.range_eq_range']
  have h1 : List.range' 0 i ++ List.range' i (n - i) = List.range' 0 n := by
    have h3 := List.range'_append 0 i (n - i) 1
    simp only [Nat.zero_add, Nat.one_mul] at h3
    rw [show n - i + i = n from by omega] at h3
    exact h3
  rw [← h1]
  congr 1
  obtain ⟨k, hk⟩ : ∃ k, n - i = k + 1 := ⟨n - i - 1, by omega⟩
  rw [hk, List.range'_succ]
  simp

/-- C6: an agent that is not carrying and requests `TOGGLE_LOAD` on a cell
whose shelf (if any) is not a member of the request queue is rejected: its
carry-link is still empty after the whole step, and its loop iteration
leaves the reward vector untouched (no pickup reward is granted for that
action).  `hq0` records that queue entries are real shelf ids. -/
theorem toggle_load_unrequested_rejected (w : Warehouse)
    (actions : List (Action × List Nat)) (pick : Nat → Nat) (i : Nat)
    (a : Agent) (msg : List Nat)
    (hlen : actions.length = w.agents.length)
    (hact : actions[i]? = some (Action.TOGGLE_LOAD, msg))
    (hai : w.agents[i]? = some a)
    (hcar : a.carryingShelf = none)
    (hq0 : 0 ∉ w.requestQueue)
    (hshelf : ∀ s ∈ w.shelfs, (s.x, s.y) = (a.x, a.y) →
      s.id ∉ w.requestQueue) :
    ((((w.step actions pick).state.agents)[i]?).map
      (fun b => b.carryingShelf) = some none) ∧
    (∀ (st : MutState) (b : Agent), st.agents[i]? = some b →
      b.carryingShelf = none →
      (b.reqAction = Action.TOGGLE_LOAD ∨ b.reqAction = Action.NOOP) →
      b.x = a.x → b.y = a.y →
      (applyAgentAction ((w.withActions actions).midStep)
          ((w.withActions actions).midStep).requestedCoords st i).rewards
        = st.rewards) := by
  have hcoords : some (a.y, a.x) ∉
      ((w.withActions actions).midStep).requestedCoords := by
    intro hmem
    obtain ⟨s, hs, hy, hx, hreq⟩ :=
      requestedCoords_mem ((w.withActions actions).midStep) a.y a.x hmem hq0 rfl
    exact hshelf s hs (by rw [hx, hy]) hreq
  -- the loaded and resolved forms of agent i
  have hload : (w.withActions actions).agents[i]?
      = some (if w.msgBits > 0 then
          { a with reqAction := Action.TOGGLE_LOAD, message := msg }
        else { a with reqAction := Action.TOGGLE_LOAD }) :=
    loadActions_getElem? w.msgBits w.agents actions i a
      (Action.TOGGLE_LOAD, msg) hai hact
  set aL := (if w.msgBits > 0 then
      { a with reqAction := Action.TOGGLE_LOAD, message := msg }
    else { a with reqAction := Action.TOGGLE_LOAD }) with haL
  have haLcar : aL.carryingShelf = none := by
    rw [haL]; split <;> simpa using hcar
  have haLreq : aL.reqAction = Action.TOGGLE_LOAD := by
    rw [haL]; split <;> rfl
  have haLx : aL.x = a.x := by rw [haL]; split <;> rfl
  have haLy : aL.y = a.y := by rw [haL]; split <;> rfl
  have haLid : aL.id = a.id := by rw [haL]; split <;> rfl
  have hpre : (w.withActions actions).precancelAgent aL
      = (aL, ((aL.x, aL.y), aL.req_location
          (w.withActions actions).gridHeight
          (w.withActions actions).gridWidth)) :=
    precancelAgent_not_carrying _ aL haLcar
  have hres : (w.withActions actions).resolvedAgents[i]?
      = some (if aL.id ∈ (w.withActions actions).committedIds
          ((w.withActions actions).phase1).2 then aL
        else { aL with reqAction := Action.NOOP }) := by
    rw [resolvedAgents_getElem? _ i aL hload, hpre]
  set aR := (if aL.id ∈ (w.withActions actions).committedIds
      ((w.withActions actions).phase1).2 then aL
    else { aL with reqAction := Action.NOOP }) with haR
  have haRcar : aR.carryingShelf = none := by
    rw [haR]; split <;> simpa using haLcar
  have haRreq : aR.reqAction = Action.TOGGLE_LOAD ∨
      aR.reqAction = Action.NOOP := by
    rw [haR]; split
    · left; exact haLreq
    · right; rfl
  have haRx : aR.x = a.x := by rw [haR]; split <;> simpa using haLx
  have haRy : aR.y = a.y := by rw [haR]; split <;> simpa using haLy
  -- the second conjunct first: it is reused for the loop analysis
  have hrew : ∀ (st : MutState) (b : Agent), st.agents[i]? = some b →
      b.carryingShelf = none →
      (b.reqAction = Action.TOGGLE_LOAD ∨ b.reqAction = Action.NOOP) →
      b.x = a.x → b.y = a.y →
      (applyAgentAction ((w.withActions actions).midStep)
          ((w.withActions actions).midStep).requestedCoords st i).rewards
        = st.rewards := by
    intro st b hst hbcar hbreq hbx hby
    exact (applyAgentAction_toggle_rejected _ _ st i b hst hbreq hbcar
      (by rw [hby, hbx]; exact hcoords)).1
  refine ⟨?_, hrew⟩
  -- carry-link after the whole step
  have hstep : (w.step actions pick).state.agents
      = (w.deliveryPass pick (w.deliveryInit (w.actionPass actions))).agents :=
    rfl
  rw [hstep]
  unfold Warehouse.deliveryPass
  apply deliveryFold_carrying_none
  show (((w.actionPass actions).agents[i]?).map (fun b => b.carryingShelf))
    = some none
  unfold Warehouse.actionPass Warehouse.applyPass
  set w2 := (w.withActions actions).midStep with hw2
  have hw2agents : w2.agents = (w.withActions actions).resolvedAgents := rfl
  have hilt : i < w2.agents.length := by
    rw [hw2agents, resolvedAgents_length]
    show i < (loadActions w.msgBits w.agents actions).length
    rw [loadActions_length, hlen, Nat.min_self]
    by_contra hcon
    rw [List.getElem?_eq_none (by omega)] at hai
    cases hai
  rw [range_split_at w2.agents.length i hilt, List.foldl_append,
    List.foldl_cons]
  set st0 : MutState :=
    ⟨w2.agents, w2.shelfs, w2.carriedShelf, List.replicate w2.nAgents 0⟩
    with hst0
  set stA := (List.range' 0 i).foldl
    (applyAgentAction w2 w2.requestedCoords) st0 with hstA
  have hcoreA : ((stA.agents[i]?).map
      (fun b => (b.x, b.y, b.dir, b.reqAction, b.carryingShelf)))
      = ((st0.agents[i]?).map
        (fun b => (b.x, b.y, b.dir, b.reqAction, b.carryingShelf))) := by
    apply foldl_applyAgentAction_core
    intro hmem
    have := (List.mem_range'_1.mp hmem).2
    omega
  have hst0i : st0.agents[i]? = some aR := by
    show w2.agents[i]? = some aR
    rw [hw2agents, hres]
  rw [hst0i] at hcoreA
  obtain ⟨b, hb, hbcore⟩ : ∃ b, stA.agents[i]? = some b ∧
      (b.x, b.y, b.dir, b.reqAction, b.carryingShelf)
        = (aR.x, aR.y, aR.dir, aR.reqAction, aR.carryingShelf) := by
    cases hsb : stA.agents[i]? with
    | none => rw [hsb] at hcoreA; cases hcoreA
    | some b =>
      rw [hsb] at hcoreA
      exact ⟨b, rfl, by simpa using hcoreA⟩
  have hbx : b.x = aR.x := congrArg (fun t => t.1) hbcore
  have hby : b.y = (aR.x, aR.y, aR.dir, aR.reqAction, aR.carryingShelf).2.1 :=
    congrArg (fun t => t.2.1) hbcore
  have hbreq : b.reqAction = aR.reqAction :=
    congrArg (fun t => t.2.2.2.1) hbcore
  have hbcar : b.carryingShelf = aR.carryingShelf :=
    congrArg (fun t => t.2.2.2.2) hbcore
  have hmid := applyAgentAction_toggle_rejected w2 w2.requestedCoords stA i b
    hb
    (by rw [hbreq]; exact haRreq)
    (by rw [hbcar]; exact haRcar)
    (by
      show some (b.y, b.x) ∉ w2.requestedCoords
      rw [show b.y = a.y by rw [hby]; simpa using haRy,
        show b.x = a.x by rw [hbx]; exact haRx]
      exact hcoords)
  have hrest : (((List.range' (i + 1) (w2.agents.length - i - 1)).foldl
      (applyAgentAction w2 w2.requestedCoords)
      (applyAgentAction w2 w2.requestedCoords stA i)).agents[i]?).map
        (fun b => b.carryingShelf)
      = (((applyAgentAction w2 w2.requestedCoords stA i).agents[i]?).map
        (fun b => b.carryingShelf)) := by
    apply core_to_carrying
    apply foldl_applyAgentAction_core
    intro hmem
    have := (List.mem_range'_1.mp hmem).1
    omega
  rw [hrest]
  exact hmid.2

/-! ### Delivery-scan lemmas -/

/-- A goal cell with an empty shelf layer entry is skipped entirely. -/
theorem deliverAtGoal_skip (rt : RewardType) (homeOf : Nat → Nat × Nat)
    (pick : Nat → Nat) (ds : DeliveryState) (g : Nat × Nat)
    (h : ds.gridShelfs g.2 g.1 = 0) :
    deliverAtGoal rt homeOf pick ds g = ds := by
  unfold deliverAtGoal
  simp only []
  rw [if_pos h]

/-- Scanning goal cells whose shelf layer entries are all empty changes
nothing. -/
theorem deliveryFold_skip (rt : RewardType) (homeOf : Nat → Nat × Nat)
    (pick : Nat → Nat) (gs : List (Nat × Nat)) (ds : DeliveryState)
    (h : ∀ g ∈ gs, ds.gridShelfs g.2 g.1 = 0) :
    gs.foldl (deliverAtGoal rt homeOf pick) ds = ds := by
  induction gs with
  | nil => rfl
  | cons g gs ih =>
    rw [List.foldl_cons, deliverAtGoal_skip rt homeOf pick ds g (h g (by simp))]
    exact ih (fun g' hg' => h g' (by simp [hg']))

/-- A cell where no shelf record stands recalculates to 0. -/
theorem recalcShelfLayer_zero (shelfs : List Shelf) (y x : Nat)
    (h : ∀ s ∈ shelfs, ¬(s.y = y ∧ s.x = x)) :
    recalcShelfLayer shelfs y x = 0 := by
  rcases recalcShelfLayer_cases shelfs y x with h0 | h0
  · exact h0
  · obtain ⟨s, hs, h1, h2, _⟩ := h0
    exact absurd ⟨h1, h2⟩ (h s hs)

/-- Full effect of the delivery scan at a goal cell holding a requested
shelf, under the GLOBAL reward policy: the carried shelf is detached from
every agent whose carried shelf stands there, the shelf record teleports to
its recorded home, the grid is patched, the queue slot is substituted with
the oracle's draw, the shelf is recorded delivered, and every reward entry
gains the flat `1 * 2` bonus. -/
theorem deliverAtGoal_global_delivers (homeOf : Nat → Nat × Nat)
    (pick : Nat → Nat) (ds : DeliveryState) (x0 y0 sid : Nat) (sh : Shelf)
    (hgrid : ds.gridShelfs y0 x0 = sid) (hsid : sid ≠ 0)
    (hget : ds.shelfs[sid - 1]? = some sh) (hshid : sh.id = sid)
    (hq : sid ∈ ds.requestQueue) :
    deliverAtGoal RewardType.GLOBAL homeOf pick ds (x0, y0) =
      { ds with
        agents := ds.agents.map (fun ag =>
          if carriedShelfAt ds.shelfs ag x0 y0 then
            { ag with hasDelivered := true, carryingShelf := none }
          else ag)
        shelfs := ds.shelfs.map (fun s => if s.id = sid then
          { s with y := (homeOf sid).1, x := (homeOf sid).2 } else s)
        gridShelfs := writeCell (writeCell ds.gridShelfs y0 x0 0)
          (homeOf sid).1 (homeOf sid).2 sid
        requestQueue := match ds.requestQueue.findIdx? (fun q => q == sid) with
          | some j => ds.requestQueue.set j (pick ds.deliveryCount)
          | none => ds.requestQueue
        requestedDeliveredShelf := (ds.requestedDeliveredShelf ++ [sid]).dedup
        carriedShelf := ds.carriedShelf.erase (some sid)
        rewards := ds.rewards.map (· + 1 * 2)
        shelfDelivered := true
        deliveryCount := ds.deliveryCount + 1 } := by
  unfold deliverAtGoal
  simp only [hgrid]
  rw [if_neg hsid]
  rw [hget]
  simp only []
  rw [if_neg (by rw [hshid]; exact fun hcon => hcon hq)]
  rw [if_neg (by decide : ¬RewardType.GLOBAL = RewardType.TWO_STAGE)]
  simp only [hshid]

/-- Cells nobody writes keep their previous layer value. -/
theorem recalcFold_preserves (l : List Shelf) (g : Layer) (y x : Nat)
    (h : ∀ s ∈ l, ¬(s.y = y ∧ s.x = x)) :
    (l.foldl (fun g s => writeCell g s.y s.x s.id) g) y x = g y x := by
  induction l generalizing g with
  | nil => rfl
  | cons s ss ih =>
    rw [List.foldl_cons, ih _ (fun s' hs' => h s' (by simp [hs']))]
    unfold writeCell
    rw [if_neg (fun hc => h s (by simp) ⟨hc.1.symm, hc.2.symm⟩)]

/-- General form of `recalcShelfLayer_eq_of_all` over any base layer. -/
theorem recalcFold_eq_of_all (y x v : Nat) (shelfs : List Shelf) :
    ∀ g : Layer, (∃ s ∈ shelfs, s.y = y ∧ s.x = x) →
      (∀ s ∈ shelfs, s.y = y → s.x = x → s.id = v) →
      (shelfs.foldl (fun g s => writeCell g s.y s.x s.id) g) y x = v := by
  induction shelfs with
  | nil =>
    intro g hex _
    obtain ⟨s, hs, _⟩ := hex
    cases hs
  | cons s ss ih =>
    intro g hex hall
    rw [List.foldl_cons]
    by_cases hcell : ∃ t ∈ ss, t.y = y ∧ t.x = x
    · exact ih _ hcell (fun t ht h1 h2 => hall t (by simp [ht]) h1 h2)
    · rw [recalcFold_preserves ss _ y x (fun t ht hc => hcell ⟨t, ht, hc⟩)]
      obtain ⟨t, ht, h1, h2⟩ := hex
      have hts : t = s := by
        rcases List.mem_cons.mp ht with h | h
        · exact h
        · exact absurd ⟨t, h, h1, h2⟩ hcell
      subst hts
      unfold writeCell
      rw [if_pos ⟨h1.symm, h2.symm⟩]
      exact hall t (by simp) h1 h2

/-- If some shelf stands at a cell and every shelf standing there has id
`v`, the recalculated layer stores `v` there. -/
theorem recalcShelfLayer_eq_of_all (shelfs : List Shelf) (y x v : Nat)
    (hex : ∃ s ∈ shelfs, s.y = y ∧ s.x = x)
    (hall : ∀ s ∈ shelfs, s.y = y → s.x = x → s.id = v) :
    recalcShelfLayer shelfs y x = v :=
  recalcFold_eq_of_all y x v shelfs zeroLayer hex hall

/-- C5: when an agent carrying a request-queue shelf ends the
action-application pass on a goal cell (its mirrored shelf record stands on
the delivery row), the delivery scan of that step detaches the shelf from
the agent (clearing the carry-link and staging `has_delivered`), relocates
the shelf record to its recorded home coordinates, substitutes the oracle's
replacement draw (by contract a shelf currently outside the queue) into the
same queue slot — so the queue keeps its size — and, under the GLOBAL
policy, adds exactly the flat `+2` delivery bonus to every reward entry.
`honly` pins this down as the only delivery of the scan, and `hhome`
records that home cells are never on the (highway) delivery row. -/
theorem delivery_of_requested_shelf (w : Warehouse) (pick : Nat → Nat)
    (st : MutState) (i x0 sid j : Nat) (ag : Agent) (sh : Shelf)
    (hrt : w.rewardType = RewardType.GLOBAL)
    (hag : st.agents[i]? = some ag)
    (hcarry : ag.carryingShelf = some sid)
    (hfind : st.shelfs.find? (fun s => s.id == sid) = some sh)
    (hget : st.shelfs[sid - 1]? = some sh)
    (hshid : sh.id = sid) (hsid0 : sid ≠ 0)
    (hshx : sh.x = x0) (hshy : sh.y = w.gridHeight - 1)
    (hx0 : x0 < w.gridWidth)
    (hq : sid ∈ w.requestQueue)
    (hjdx : w.requestQueue.findIdx? (fun q => q == sid) = some j)
    (honly : ∀ s ∈ st.shelfs, s.y = w.gridHeight - 1 →
      s.id = sid ∧ s.x = x0)
    (hhome : (w.shelfOriginalCoordinates sid).1 ≠ w.gridHeight - 1) :
    ((w.deliveryPass pick (w.deliveryInit st)).agents[i]?
        = some { ag with hasDelivered := true, carryingShelf := none }) ∧
    ((w.deliveryPass pick (w.deliveryInit st)).shelfs
        = st.shelfs.map (fun s => if s.id = sid then
          { s with y := (w.shelfOriginalCoordinates sid).1,
                   x := (w.shelfOriginalCoordinates sid).2 } else s)) ∧
    ((w.deliveryPass pick (w.deliveryInit st)).requestQueue
        = w.requestQueue.set j (pick 0)) ∧
    ((w.deliveryPass pick (w.deliveryInit st)).requestQueue.length
        = w.requestQueue.length) ∧
    ((w.deliveryPass pick (w.deliveryInit st)).rewards
        = st.rewards.map (· + 2)) ∧
    ((w.deliveryPass pick (w.deliveryInit st)).shelfDelivered = true) := by
  have hmem : sh ∈ st.shelfs := by
    obtain ⟨hl, hv⟩ := List.getElem?_eq_some_iff.mp hget
    exact hv ▸ List.getElem_mem hl
  have hgrid0 : recalcShelfLayer st.shelfs (w.gridHeight - 1) x0 = sid :=
    recalcShelfLayer_eq_of_all st.shelfs (w.gridHeight - 1) x0 sid
      ⟨sh, hmem, hshy, hshx⟩
      (fun s hs h1 h2 => (honly s hs h1).1)
  have hrow0 : ∀ xx, xx ≠ x0 →
      recalcShelfLayer st.shelfs (w.gridHeight - 1) xx = 0 := by
    intro xx hxx
    apply recalcShelfLayer_zero
    intro s hs hc
    exact hxx ((honly s hs hc.1).2 ▸ hc.2.symm)
  -- split the goal list at the delivering column
  have hgoals : w.goals
      = (List.range' 0 x0).map (fun xx => (xx, w.gridHeight - 1))
        ++ (x0, w.gridHeight - 1)
          :: (List.range' (x0 + 1) (w.gridWidth - x0 - 1)).map
            (fun xx => (xx, w.gridHeight - 1)) := by
    unfold Warehouse.goals
    rw [range_split_at w.gridWidth x0 hx0]
    simp
  unfold Warehouse.deliveryPass
  rw [hgoals, List.foldl_append, List.foldl_cons]
  rw [deliveryFold_skip w.rewardType w.shelfOriginalCoordinates pick
    ((List.range' 0 x0).map (fun xx => (xx, w.gridHeight - 1)))
    (w.deliveryInit st) (by
    intro g hg
    obtain ⟨xx, hxx, rfl⟩ := List.mem_map.mp hg
    have hlt := (List.mem_range'_1.mp hxx).2
    show recalcShelfLayer st.shelfs (w.gridHeight - 1) xx = 0
    exact hrow0 xx (by omega))]
  rw [hrt]
  rw [deliverAtGoal_global_delivers w.shelfOriginalCoordinates pick
    (w.deliveryInit st) x0 (w.gridHeight - 1) sid sh hgrid0 hsid0 hget hshid hq]
  set home := w.shelfOriginalCoordinates sid with hhomedef
  rw [deliveryFold_skip _ _ _ _ _ (by
    intro g hg
    obtain ⟨xx, hxx, rfl⟩ := List.mem_map.mp hg
    have hgt := (List.mem_range'_1.mp hxx).1
    show writeCell (writeCell (recalcShelfLayer st.shelfs)
        (w.gridHeight - 1) x0 0) home.1 home.2 sid (w.gridHeight - 1) xx = 0
    unfold writeCell
    rw [if_neg (fun hc => hhome hc.1.symm)]
    rw [if_neg (fun hc => by omega)]
    exact hrow0 xx (by omega))]
  refine ⟨?_, ?_, ?_, ?_, ?_, rfl⟩
  · show ((st.agents.map _)[i]?) = _
    rw [List.getElem?_map, hag]
    have hcs : carriedShelfAt (w.deliveryInit st).shelfs ag x0
        (w.gridHeight - 1) = true := by
      unfold carriedShelfAt
      rw [hcarry]
      show (match List.find? (fun s => s.id == sid) st.shelfs with
        | some s => decide (s.x = x0 ∧ s.y = w.gridHeight - 1)
        | none => false) = true
      rw [hfind]
      simp [hshx, hshy]
    simp [hcs]
  · rfl
  · show (match w.requestQueue.findIdx? (fun q => q == sid) with
      | some j => w.requestQueue.set j (pick 0)
      | none => w.requestQueue) = _
    rw [hjdx]
  · show (match w.requestQueue.findIdx? (fun q => q == sid) with
      | some j => w.requestQueue.set j (pick 0)
      | none => w.requestQueue).length = _
    rw [hjdx]
    exact List.length_set w.requestQueue j (pick 0)
  · show st.rewards.map (· + 1 * 2) = st.rewards.map (· + 2)
    congr 1
    funext r
    norm_num

/-- Witness for C5: in `wOne0` with the agent standing on goal cell `(0,3)`
carrying the requested shelf 1, the delivery scan detaches the shelf and
pays the GLOBAL `+2` bonus. -/
theorem delivery_of_requested_shelf_witness :
    (wOne0.rewardType = RewardType.GLOBAL ∧ (1 : Nat) ∈ wOne0.requestQueue) ∧
    ((wOne0.deliveryPass pickOne (wOne0.deliveryInit stDeliver)).rewards
        = stDeliver.rewards.map (· + 2)) ∧
    ((wOne0.deliveryPass pickOne (wOne0.deliveryInit stDeliver)).agents[0]?
        = some { agentD with hasDelivered := true, carryingShelf := none }) :=
  ⟨⟨by decide, by decide⟩,
    (delivery_of_requested_shelf wOne0 pickOne stDeliver 0 0 1 0 agentD
      ⟨1, 0, 3⟩ (by decide) (by decide) (by decide) (by decide) (by decide)
      (by decide) (by decide) (by decide) (by decide) (by decide) (by decide)
      (by decide) (by decide) (by decide)).2.2.2.2.1,
    (delivery_of_requested_shelf wOne0 pickOne stDeliver 0 0 1 0 agentD
      ⟨1, 0, 3⟩ (by decide) (by decide) (by decide) (by decide) (by decide)
      (by decide) (by decide) (by decide) (by decide) (by decide) (by decide)
      (by decide) (by decide) (by decide)).1⟩

/-- Witness for C6: in `wOne0` the agent stands on the empty highway cell
`(0,1)`; a `TOGGLE_LOAD` request leaves it carrying nothing after the step. -/
theorem toggle_load_unrequested_rejected_witness :
    ((soloActs Action.TOGGLE_LOAD).length = wOne0.agents.length ∧
      0 ∉ wOne0.requestQueue) ∧
    ((((wOne0.step (soloActs Action.TOGGLE_LOAD) pickOne).state.agents)[0]?).map
      (fun b => b.carryingShelf) = some none) :=
  ⟨⟨by decide, by decide⟩,
    (toggle_load_unrequested_rejected wOne0 (soloActs Action.TOGGLE_LOAD)
      pickOne 0 agentA [] (by decide) (by decide) (by decide) (by decide)
      (by decide) (by decide)).1⟩

/-! ### Successor-walk basics for the intent graph -/

/-- Distinct starts make the edge list a partial function on nodes. -/
theorem starts_inj {es : List IntentEdge}
    (hnd : (es.map Prod.fst).Nodup) :
    ∀ e ∈ es, ∀ f ∈ es, e.1 = f.1 → e = f := by
  intro e he f hf h1
  exact List.inj_on_of_nodup_map hnd he hf h1

/-- A successor step comes from an edge of the list. -/
theorem succOf_mem {es : List IntentEdge} {n m : Cell}
    (h : succOf es n = some m) : (n, m) ∈ es := by
  unfold succOf at h
  cases hfind : es.find? (fun e => e.1 == n) with
  | none => rw [hfind] at h; simp at h
  | some e =>
    rw [hfind] at h
    simp at h
    have h1 : e.1 = n := by simpa using List.find?_some hfind
    have hmem := List.mem_of_find?_eq_some hfind
    have he : e = (n, m) := by
      cases e with
      | mk a b => simp_all
    exact he ▸ hmem

/-- With distinct starts, membership determines the successor. -/
theorem succOf_of_mem {es : List IntentEdge} {n m : Cell}
    (hnd : (es.map Prod.fst).Nodup) (hmem : (n, m) ∈ es) :
    succOf es n = some m := by
  unfold succOf
  cases hfind : es.find? (fun e => e.1 == n) with
  | none =>
    have := List.find?_eq_none.mp hfind (n, m) hmem
    simp at this
  | some e =>
    have h1 : e.1 = n := by simpa using List.find?_some hfind
    have he : e = (n, m) :=
      starts_inj hnd e (List.mem_of_find?_eq_some hfind) (n, m) hmem (by simpa using h1)
    simp [he]

/-- A node with no successor starts no edge. -/
theorem succOf_none {es : List IntentEdge} {n : Cell}
    (h : succOf es n = none) : ∀ m, (n, m) ∉ es := by
  intro m hm
  unfold succOf at h
  cases hfind : es.find? (fun e => e.1 == n) with
  | some e => rw [hfind] at h; simp at h
  | none =>
    have := List.find?_eq_none.mp hfind (n, m) hm
    simp at this

/-- Walks compose. -/
theorem iterSucc_add (es : List IntentEdge) (a b : Nat) (n : Cell) :
    iterSucc es (a + b) n = (iterSucc es a n).bind (iterSucc es b) := by
  induction a generalizing n with
  | zero => simp [iterSucc]
  | succ k ih =>
    have h1 : k + 1 + b = (k + b) + 1 := by omega
    rw [h1]
    cases hs : succOf es n with
    | none => simp [iterSucc, hs]
    | some m => simp [iterSucc, hs, ih m]

/-- One step of the walk is the successor map. -/
theorem iterSucc_one (es : List IntentEdge) (n : Cell) :
    iterSucc es 1 n = succOf es n := by
  cases hs : succOf es n <;> simp [iterSucc, hs]

/-- Prefixes of a defined walk are defined. -/
theorem iterSucc_isSome_of_le {es : List IntentEdge} {k j : Nat} {n : Cell}
    (hle : j ≤ k) (h : (iterSucc es k n).isSome) :
    (iterSucc es j n).isSome := by
  have h1 : k = j + (k - j) := by omega
  rw [h1, iterSucc_add] at h
  cases hj : iterSucc es j n with
  | none => rw [hj] at h; simp at h
  | some m => simp

/-- From a cyclic node, the walk never falls off. -/
theorem cyclic_isSome {es : List IntentEdge} {n : Cell}
    (h : Cyclic es n) (k : Nat) : (iterSucc es k n).isSome := by
  obtain ⟨p, hp, hiter⟩ := h
  induction k using Nat.strong_induction_on with
  | _ k ih =>
    by_cases hk : k ≤ p
    · exact iterSucc_isSome_of_le hk (by simp [hiter])
    · have h1 : k = p + (k - p) := by omega
      rw [h1, iterSucc_add, hiter]
      simpa using ih (k - p) (by omega)

/-- Multiples of a period return. -/
theorem iterSucc_mul_period {es : List IntentEdge} {n : Cell} {p : Nat}
    (hiter : iterSucc es p n = some n) (c : Nat) :
    iterSucc es (c * p) n = some n := by
  induction c with
  | zero => simp [iterSucc]
  | succ k ih =>
    have h1 : (k + 1) * p = k * p + p := by ring
    rw [h1, iterSucc_add, ih]
    simpa using hiter

/-- Reachability is transitive. -/
theorem orbitMem_trans {es : List IntentEdge} {a b c : Cell}
    (h1 : OrbitMem es a b) (h2 : OrbitMem es b c) : OrbitMem es a c := by
  obtain ⟨k, hk⟩ := h1
  obtain ⟨l, hl⟩ := h2
  exact ⟨k + l, by rw [iterSucc_add, hk]; simpa using hl⟩

/-- Every node is reachable from itself. -/
theorem orbitMem_refl (es : List IntentEdge) (n : Cell) : OrbitMem es n n :=
  ⟨0, rfl⟩

/-- Nodes reachable from a cyclic node reach back. -/
theorem orbitMem_symm_of_cyclic {es : List IntentEdge} {n m : Cell}
    (h : Cyclic es n) (horb : OrbitMem es n m) : OrbitMem es m n := by
  obtain ⟨p, hp, hiter⟩ := h
  obtain ⟨a, ha⟩ := horb
  have hc : iterSucc es ((a + 1) * p) n = some n := iterSucc_mul_period hiter (a + 1)
  have hge : a ≤ (a + 1) * p := by nlinarith
  refine ⟨(a + 1) * p - a, ?_⟩
  have h1 : (a + 1) * p = a + ((a + 1) * p - a) := by omega
  rw [h1, iterSucc_add, ha] at hc
  simpa using hc

/-- Nodes reachable from a cyclic node are cyclic. -/
theorem cyclic_shift {es : List IntentEdge} {n t : Cell}
    (h : Cyclic es n) (horb : OrbitMem es n t) : Cyclic es t := by
  obtain ⟨p, hp, hiter⟩ := h
  obtain ⟨a, ha⟩ := horb
  refine ⟨p, hp, ?_⟩
  have h1 : iterSucc es (a + p) n = iterSucc es p t := by
    rw [iterSucc_add, ha]; rfl
  have h2 : iterSucc es (p + a) n = some t := by
    rw [iterSucc_add, hiter]; simpa using ha
  rw [← h1, Nat.add_comm]
  exact h2

/-- The orbit of a cyclic node is the orbit of each of its members. -/
theorem orbit_eq_of_cyclic {es : List IntentEdge} {n m : Cell}
    (h : Cyclic es n) (horb : OrbitMem es n m) :
    ∀ x, OrbitMem es m x ↔ OrbitMem es n x :=
  fun _ => ⟨fun hx => orbitMem_trans horb hx,
    fun hx => orbitMem_trans (orbitMem_symm_of_cyclic h horb) hx⟩

/-- A duplicate-free list is no longer than any list containing it. -/
theorem nodup_subset_length_le {α : Type} [DecidableEq α] {l m : List α}
    (hnd : l.Nodup) (hsub : l ⊆ m) : l.length ≤ m.length := by
  calc l.length = l.toFinset.card := (List.toFinset_card_of_nodup hnd).symm
    _ ≤ m.toFinset.card := Finset.card_le_card (fun x hx =>
        List.mem_toFinset.mpr (hsub (List.mem_toFinset.mp hx)))
    _ ≤ m.length := m.toFinset_card_le

/-- Pigeonhole on the intent graph: a walk of `|es| + 1` steps visits more
starts than exist, so it has looped, and every node it can still reach —
in particular its endpoint — is cyclic. -/
theorem exists_cyclic_of_long_walk {es : List IntentEdge} {s t : Cell}
    (h : iterSucc es (es.length + 1) s = some t) : Cyclic es t := by
  have hdef : ∀ k, k ≤ es.length + 1 → (iterSucc es k s).isSome := fun k hk =>
    iterSucc_isSome_of_le hk (by simp [h])
  set g : Nat → Cell := fun k => (iterSucc es k s).getD s with hg
  have hf : ∀ k, k ≤ es.length + 1 → iterSucc es k s = some (g k) := by
    intro k hk
    have h0 := hdef k hk
    rw [hg]
    cases hx : iterSucc es k s with
    | none => rw [hx] at h0; simp at h0
    | some v => simp [hx]
  have hstart : ∀ k, k < es.length + 1 → g k ∈ es.map Prod.fst := by
    intro k hk
    have h3 : iterSucc es (k + 1) s = (iterSucc es k s).bind (iterSucc es 1) := by
      rw [← iterSucc_add]
    rw [hf k (by omega)] at h3
    have h2 : iterSucc es (k + 1) s = succOf es (g k) := by
      rw [h3]; simp [iterSucc_one]
    have h4 := hdef (k + 1) (by omega)
    rw [h2] at h4
    obtain ⟨m, hm⟩ := Option.isSome_iff_exists.mp h4
    exact List.mem_map.mpr ⟨(g k, m), succOf_mem hm, rfl⟩
  have hL : ¬ ((List.range (es.length + 1)).map g).Nodup := by
    intro hnd
    have hsub : ((List.range (es.length + 1)).map g) ⊆ es.map Prod.fst := by
      intro x hx
      obtain ⟨k, hk, hxe⟩ := List.mem_map.mp hx
      exact hxe ▸ hstart k (List.mem_range.mp hk)
    have hle := nodup_subset_length_le hnd hsub
    simp at hle
  rw [List.nodup_iff_injective_get, Function.not_injective_iff] at hL
  obtain ⟨a, b, hab, hne⟩ := hL
  have hget : ∀ (c : Fin (((List.range (es.length + 1)).map g).length)),
      ((List.range (es.length + 1)).map g).get c = g c.1 := by
    intro c
    have hc : c.1 < es.length + 1 := by
      have := c.2; simpa using this
    simp [List.get_eq_getElem]
  rw [hget a, hget b] at hab
  have ha1 : a.1 < es.length + 1 := by have := a.2; simpa using this
  have hb1 : b.1 < es.length + 1 := by have := b.2; simpa using this
  have hne1 : a.1 ≠ b.1 := fun hx => hne (Fin.ext hx)
  -- normalise to i < j with g i = g j
  obtain ⟨i, j, hij, hjN, hgij⟩ : ∃ i j, i < j ∧ j < es.length + 1 ∧ g i = g j := by
    rcases Nat.lt_or_ge a.1 b.1 with hlt | hge
    · exact ⟨a.1, b.1, hlt, hb1, hab⟩
    · exact ⟨b.1, a.1, by omega, ha1, hab.symm⟩
  have hu : iterSucc es i s = some (g i) := hf i (by omega)
  have hv : iterSucc es j s = some (g i) := by rw [hf j (by omega), hgij]
  have hper : iterSucc es (j - i) (g i) = some (g i) := by
    have h5 : iterSucc es j s
        = (iterSucc es i s).bind (iterSucc es (j - i)) := by
      rw [← iterSucc_add]; congr 1; omega
    rw [hu, hv] at h5
    simpa using h5.symm
  have hcyc : Cyclic es (g i) := ⟨j - i, by omega, hper⟩
  have ht : iterSucc es ((es.length + 1) - i) (g i) = some t := by
    have h6 : iterSucc es (es.length + 1) s
        = (iterSucc es i s).bind (iterSucc es ((es.length + 1) - i)) := by
      rw [← iterSucc_add]; congr 1; omega
    rw [hu, h] at h6
    simpa using h6.symm
  exact cyclic_shift hcyc ⟨_, ht⟩

/-! ### Orbit structure of cyclic nodes -/

/-- Every cyclic node has a minimal period. -/
theorem exists_min_period {es : List IntentEdge} {t : Cell} (h : Cyclic es t) :
    ∃ q, (0 < q ∧ iterSucc es q t = some t) ∧
      ∀ k, 0 < k → k < q → iterSucc es k t ≠ some t := by
  obtain ⟨p, hp, hiter⟩ := h
  have hex : ∃ q, 0 < q ∧ iterSucc es q t = some t := ⟨p, hp, hiter⟩
  exact ⟨Nat.find hex, Nat.find_spec hex,
    fun k hk0 hkq hkiter => Nat.find_min hex hkq ⟨hk0, hkiter⟩⟩

/-- The walk value at a cyclic node, with its default filled in. -/
theorem cyclic_iter_eq_getD {es : List IntentEdge} {t : Cell} (h : Cyclic es t)
    (k : Nat) : iterSucc es k t = some ((iterSucc es k t).getD t) := by
  have h0 := cyclic_isSome h k
  cases hx : iterSucc es k t with
  | none => rw [hx] at h0; simp at h0
  | some v => simp [hx]

/-- The walk from a node of period `q` only depends on the step count
modulo `q`. -/
theorem cyclic_iter_mod {es : List IntentEdge} {t : Cell} {q : Nat}
    (hq : 0 < q) (hiter : iterSucc es q t = some t) (k : Nat) :
    iterSucc es k t = iterSucc es (k % q) t := by
  conv_lhs => rw [show k = k / q * q + k % q from by
    rw [Nat.mul_comm (k / q) q]; exact (Nat.div_add_mod k q).symm]
  rw [iterSucc_add, iterSucc_mul_period hiter (k / q)]
  rfl

/-- Walk values below the minimal period are pairwise distinct. -/
theorem min_period_inj {es : List IntentEdge} {t : Cell} {q : Nat}
    (hq : 0 < q) (hiter : iterSucc es q t = some t)
    (hmin : ∀ k, 0 < k → k < q → iterSucc es k t ≠ some t)
    {i j : Nat} (hij : i < j) (hjq : j < q) :
    iterSucc es i t ≠ iterSucc es j t := by
  intro heq
  have hji : iterSucc es (i + (q - j)) t = some t := by
    have h1 : iterSucc es (i + (q - j)) t
        = (iterSucc es i t).bind (iterSucc es (q - j)) := iterSucc_add es i (q - j) t
    have h2 : iterSucc es q t = (iterSucc es j t).bind (iterSucc es (q - j)) := by
      rw [← iterSucc_add]; congr 1; omega
    rw [h1, heq, ← h2, hiter]
  exact hmin (i + (q - j)) (by omega) (by omega) hji

/-- Stepping once along the orbit advances the walk index. -/
theorem cyclic_succ_step {es : List IntentEdge} {t : Cell} (h : Cyclic es t)
    (k : Nat) :
    succOf es ((iterSucc es k t).getD t)
      = some ((iterSucc es (k + 1) t).getD t) := by
  have h1 : iterSucc es (k + 1) t
      = (iterSucc es k t).bind (iterSucc es 1) := by rw [← iterSucc_add]
  rw [cyclic_iter_eq_getD h k] at h1
  simp only [Option.some_bind] at h1
  rw [iterSucc_one] at h1
  rw [← h1]
  exact cyclic_iter_eq_getD h (k + 1)

/-- The minimal period is bounded by the number of edges. -/
theorem min_period_le {es : List IntentEdge} {t : Cell} {q : Nat}
    (hq : 0 < q) (hiter : iterSucc es q t = some t)
    (hmin : ∀ k, 0 < k → k < q → iterSucc es k t ≠ some t) :
    q ≤ es.length := by
  have hcyc : Cyclic es t := ⟨q, hq, hiter⟩
  have hnd : ((List.range q).map
      (fun k => (iterSucc es k t).getD t)).Nodup := by
    refine List.Nodup.map_on ?_ (List.nodup_range q)
    intro i hi j hj hf
    rcases Nat.lt_trichotomy i j with hij | hij | hij
    · exact absurd (by
        rw [cyclic_iter_eq_getD hcyc i, cyclic_iter_eq_getD hcyc j, hf])
        (min_period_inj hq hiter hmin hij (List.mem_range.mp hj))
    · exact hij
    · exact absurd (by
        rw [cyclic_iter_eq_getD hcyc i, cyclic_iter_eq_getD hcyc j, hf])
        (Ne.symm (min_period_inj hq hiter hmin hij (List.mem_range.mp hi)))
  have hsub : ((List.range q).map (fun k => (iterSucc es k t).getD t))
      ⊆ es.map Prod.fst := by
    intro x hx
    obtain ⟨k, _, hxe⟩ := List.mem_map.mp hx
    have hs := cyclic_succ_step hcyc k
    exact List.mem_map.mpr ⟨(x, (iterSucc es (k + 1) t).getD t),
      succOf_mem (hxe ▸ hs), rfl⟩
  have hle := nodup_subset_length_le hnd hsub
  simpa using hle

/-- `orbitAux` collects exactly the walk values from its entry index up to
the minimal period. -/
theorem orbitAux_eq {es : List IntentEdge} {t : Cell} {q : Nat}
    (hq : 0 < q) (hiter : iterSucc es q t = some t)
    (hmin : ∀ k, 0 < k → k < q → iterSucc es k t ≠ some t) :
    ∀ fuel a, 0 < a → a ≤ q → q - a ≤ fuel →
      orbitAux es t fuel ((iterSucc es a t).getD t)
        = (List.range' a (q - a)).map (fun k => (iterSucc es k t).getD t) := by
  have hcyc : Cyclic es t := ⟨q, hq, hiter⟩
  intro fuel
  induction fuel with
  | zero =>
    intro a ha0 haq hfa
    have haq' : a = q := by omega
    subst haq'
    simp [orbitAux]
  | succ fl ih =>
    intro a ha0 haq hfa
    by_cases haq' : a = q
    · have hfq : (iterSucc es a t).getD t = t := by
        rw [haq', hiter]; rfl
      have hz : q - a = 0 := by omega
      simp [orbitAux, hfq, hz]
    · have haltq : a < q := by omega
      have hne : (iterSucc es a t).getD t ≠ t := by
        intro heq
        have h1 : iterSucc es a t = some t := by
          rw [cyclic_iter_eq_getD hcyc a, heq]
        exact hmin a ha0 haltq h1
      have hsucc := cyclic_succ_step hcyc a
      show (if (iterSucc es a t).getD t = t then []
        else (iterSucc es a t).getD t ::
          (match succOf es ((iterSucc es a t).getD t) with
            | none => []
            | some m => orbitAux es t fl m)) = _
      rw [if_neg hne, hsucc]
      show (iterSucc es a t).getD t
          :: orbitAux es t fl ((iterSucc es (a + 1) t).getD t) = _
      rw [ih (a + 1) (by omega) (by omega) (by omega)]
      have hr : q - a = (q - a - 1) + 1 := by omega
      rw [hr, List.range'_succ, List.map_cons]
      have hr2 : q - (a + 1) = q - a - 1 := by omega
      rw [hr2]

/-- `orbitFrom` at a cyclic node lists the walk values below the minimal
period, in order. -/
theorem orbitFrom_eq {es : List IntentEdge} {t : Cell} {q : Nat}
    (hq : 0 < q) (hiter : iterSucc es q t = some t)
    (hmin : ∀ k, 0 < k → k < q → iterSucc es k t ≠ some t) :
    orbitFrom es t = (List.range q).map (fun k => (iterSucc es k t).getD t) := by
  have hcyc : Cyclic es t := ⟨q, hq, hiter⟩
  have hqlen := min_period_le hq hiter hmin
  unfold orbitFrom
  rcases Nat.eq_or_lt_of_le hq with hq1 | hq1
  · -- q = 1 : the orbit is just [t]
    have hs : succOf es t = some t := by
      have h1 := cyclic_succ_step hcyc 0
      have h0 : (iterSucc es 0 t).getD t = t := rfl
      have h1' : (iterSucc es 1 t).getD t = t := by
        rw [show (1 : Nat) = q from by omega, hiter]; rfl
      rw [h0, h1'] at h1
      exact h1
    rw [hs]
    have horb : orbitAux es t es.length t = [] := by
      cases hlen : es.length with
      | zero => rfl
      | succ k => simp [orbitAux]
    show t :: orbitAux es t es.length t = _
    rw [horb, show q = 1 from by omega]
    rfl
  · -- q ≥ 2
    have hs : succOf es t = some ((iterSucc es 1 t).getD t) := by
      have h1 := cyclic_succ_step hcyc 0
      simpa using h1
    rw [hs]
    have h2 : orbitAux es t es.length ((iterSucc es 1 t).getD t)
        = (List.range' 1 (q - 1)).map (fun k => (iterSucc es k t).getD t) :=
      orbitAux_eq hq hiter hmin es.length 1 (by omega) (by omega) (by omega)
    show t :: orbitAux es t es.length ((iterSucc es 1 t).getD t) = _
    rw [h2]
    have h3 : List.range q = 0 :: List.range' 1 (q - 1) := by
      rw [List.range_eq_range']
      obtain ⟨k, hk⟩ : ∃ k, q = k + 1 := ⟨q - 1, by omega⟩
      rw [hk, List.range'_succ]
      simp
    rw [h3, List.map_cons]
    rfl

/-- Membership in the orbit list is reachability. -/
theorem orbitFrom_mem_iff {es : List IntentEdge} {t : Cell} {q : Nat}
    (hq : 0 < q) (hiter : iterSucc es q t = some t)
    (hmin : ∀ k, 0 < k → k < q → iterSucc es k t ≠ some t) :
    ∀ n, n ∈ orbitFrom es t ↔ OrbitMem es t n := by
  have hcyc : Cyclic es t := ⟨q, hq, hiter⟩
  intro n
  rw [orbitFrom_eq hq hiter hmin]
  constructor
  · intro hn
    obtain ⟨k, _, hk⟩ := List.mem_map.mp hn
    exact ⟨k, hk ▸ cyclic_iter_eq_getD hcyc k⟩
  · rintro ⟨k, hk⟩
    refine List.mem_map.mpr ⟨k % q, List.mem_range.mpr (Nat.mod_lt k hq), ?_⟩
    rw [← cyclic_iter_mod hq hiter k, hk]
    rfl

/-- The orbit list has no duplicates. -/
theorem orbitFrom_nodup {es : List IntentEdge} {t : Cell} {q : Nat}
    (hq : 0 < q) (hiter : iterSucc es q t = some t)
    (hmin : ∀ k, 0 < k → k < q → iterSucc es k t ≠ some t) :
    (orbitFrom es t).Nodup := by
  have hcyc : Cyclic es t := ⟨q, hq, hiter⟩
  rw [orbitFrom_eq hq hiter hmin]
  refine List.Nodup.map_on ?_ (List.nodup_range q)
  intro i hi j hj hf
  rcases Nat.lt_trichotomy i j with hij | hij | hij
  · exact absurd (by
      rw [cyclic_iter_eq_getD hcyc i, cyclic_iter_eq_getD hcyc j, hf])
      (min_period_inj hq hiter hmin hij (List.mem_range.mp hj))
  · exact hij
  · exact absurd (by
      rw [cyclic_iter_eq_getD hcyc i, cyclic_iter_eq_getD hcyc j, hf])
      (Ne.symm (min_period_inj hq hiter hmin hij (List.mem_range.mp hi)))

/-- `findCycle` succeeds whenever some node is cyclic. -/
theorem findCycle_isSome_of_cyclic {es : List IntentEdge} {n : Cell}
    (h : Cyclic es n) : ∃ cyc, findCycle es = some cyc := by
  have h1 : (iterSucc es (es.length + 1) n).isSome := cyclic_isSome h _
  have hsucc : (iterSucc es 1 n).isSome := cyclic_isSome h 1
  rw [iterSucc_one] at hsucc
  obtain ⟨m, hm⟩ := Option.isSome_iff_exists.mp hsucc
  have hmem : (n, m) ∈ es := succOf_mem hm
  unfold findCycle
  cases hfind : es.find? (fun e => (iterSucc es (es.length + 1) e.1).isSome) with
  | none =>
    have h2 := List.find?_eq_none.mp hfind (n, m) hmem
    exact absurd h1 (by simpa using h2)
  | some e =>
    have hp : (iterSucc es (es.length + 1) e.1).isSome := by
      simpa using List.find?_some hfind
    cases ht : iterSucc es (es.length + 1) e.1 with
    | none => rw [ht] at hp; simp at hp
    | some t =>
      refine ⟨orbitFrom es t, ?_⟩
      show (match iterSucc es (es.length + 1) e.1 with
        | none => none
        | some t => some (orbitFrom es t)) = some (orbitFrom es t)
      rw [ht]

/-- What a successful `findCycle` returns: the orbit of some cyclic node. -/
theorem findCycle_some_spec {es : List IntentEdge} {cyc : List Cell}
    (h : findCycle es = some cyc) :
    ∃ t, Cyclic es t ∧ cyc = orbitFrom es t := by
  unfold findCycle at h
  cases hfind : es.find? (fun e => (iterSucc es (es.length + 1) e.1).isSome) with
  | none => rw [hfind] at h; simp at h
  | some e =>
    rw [hfind] at h
    replace h : (match iterSucc es (es.length + 1) e.1 with
      | none => none
      | some t => some (orbitFrom es t)) = some cyc := h
    cases ht : iterSucc es (es.length + 1) e.1 with
    | none => rw [ht] at h; simp at h
    | some t =>
      rw [ht] at h
      simp only [Option.some.injEq] at h
      exact ⟨t, exists_cyclic_of_long_walk ht, h.symm⟩

/-- A failed cycle search certifies acyclicity. -/
theorem no_cyclic_of_findCycle_none {es : List IntentEdge}
    (h : findCycle es = none) : ∀ n, ¬ Cyclic es n := by
  intro n hn
  obtain ⟨cyc, hcyc⟩ := findCycle_isSome_of_cyclic hn
  rw [h] at hcyc
  cases hcyc

/-! ### Chains in acyclic components -/

/-- With enough fuel (one more step falls off), `chainFrom` is a maximal
chain. -/
theorem chainFrom_isChain {es : List IntentEdge} :
    ∀ fuel n, iterSucc es (fuel + 1) n = none →
      IsChain es n (chainFrom es fuel n) := by
  intro fuel
  induction fuel with
  | zero =>
    intro n h
    have h' : succOf es n = none := by rw [← iterSucc_one]; exact h
    exact IsChain.sink h'
  | succ fl ih =>
    intro n h
    cases hs : succOf es n with
    | none =>
      have hc : chainFrom es (fl + 1) n = [n] := by
        simp only [chainFrom, hs]
      rw [hc]
      exact IsChain.sink hs
    | some m =>
      have hm : iterSucc es (fl + 1) m = none := by
        have h2 : iterSucc es (1 + (fl + 1)) n
            = (iterSucc es 1 n).bind (iterSucc es (fl + 1)) := iterSucc_add es 1 (fl + 1) n
        rw [iterSucc_one, hs] at h2
        rw [show (1 : Nat) + (fl + 1) = fl + 1 + 1 from by omega] at h2
        rw [h] at h2
        exact h2.symm
      have hc : chainFrom es (fl + 1) n = n :: chainFrom es fl m := by
        simp only [chainFrom, hs]
      rw [hc]
      exact IsChain.step hs (ih m hm)

/-- A chain starts at its head. -/
theorem isChain_head {es : List IntentEdge} {n : Cell} {l : List Cell}
    (h : IsChain es n l) : l[0]? = some n := by
  cases h <;> simp

/-- Consecutive chain entries are successor steps. -/
theorem isChain_succ {es : List IntentEdge} {n : Cell} {l : List Cell}
    (h : IsChain es n l) :
    ∀ i x y, l[i]? = some x → l[i + 1]? = some y → succOf es x = some y := by
  induction h with
  | sink hs => intro i x y hx hy; simp at hy
  | step hs hc ih =>
    intro i x y hx hy
    cases i with
    | zero =>
      simp only [List.getElem?_cons_zero, Option.some.injEq] at hx
      rw [List.getElem?_cons_succ] at hy
      have hhead := isChain_head hc
      rw [hhead] at hy
      simp only [Option.some.injEq] at hy
      rw [← hx, ← hy]
      exact hs
    | succ i' =>
      rw [List.getElem?_cons_succ] at hx hy
      exact ih i' x y hx hy

/-- The last chain entry is a sink. -/
theorem isChain_last {es : List IntentEdge} {n : Cell} {l : List Cell}
    (h : IsChain es n l) :
    ∃ z, l[l.length - 1]? = some z ∧ succOf es z = none := by
  induction h with
  | sink hs => exact ⟨_, rfl, hs⟩
  | step hs hc ih =>
    rename_i nn mm ll
    obtain ⟨z, hz, hzs⟩ := ih
    obtain ⟨k, hk⟩ : ∃ k, ll.length = k + 1 := by
      cases hc <;> exact ⟨_, rfl⟩
    refine ⟨z, ?_, hzs⟩
    have h1 : (nn :: ll).length - 1 = k + 1 := by simp [hk]
    rw [h1, List.getElem?_cons_succ]
    rw [hk] at hz
    simpa using hz

/-- Chain entries other than the head are edge targets. -/
theorem chainFrom_subset_nodes {es : List IntentEdge} :
    ∀ fuel n x, x ∈ chainFrom es fuel n → x = n ∨ x ∈ nodesOf es := by
  intro fuel
  induction fuel with
  | zero =>
    intro n x hx
    simp [chainFrom] at hx
    exact Or.inl hx
  | succ fl ih =>
    intro n x hx
    simp only [chainFrom] at hx
    rcases List.mem_cons.mp hx with hx | hx
    · exact Or.inl hx
    · cases hs : succOf es n with
      | none => rw [hs] at hx; simp at hx
      | some m =>
        rw [hs] at hx
        rcases ih m x hx with hx' | hx'
        · exact Or.inr (List.mem_flatMap.mpr
            ⟨(n, m), succOf_mem hs, by simp [hx']⟩)
        · exact Or.inr hx'

/-- The running arg-max fold either keeps its seed or picks a candidate. -/
theorem foldl_choose_mem (l : List (List Cell)) (init : List Cell) :
    l.foldl (fun best c => if best.length < c.length then c else best) init = init ∨
    l.foldl (fun best c => if best.length < c.length then c else best) init ∈ l := by
  induction l generalizing init with
  | nil => exact Or.inl rfl
  | cons c cs ih =>
    rw [List.foldl_cons]
    rcases ih (if init.length < c.length then c else init) with h | h
    · rw [h]
      by_cases hc : init.length < c.length
      · rw [if_pos hc]; exact Or.inr (by simp)
      · rw [if_neg hc]; exact Or.inl rfl
    · exact Or.inr (List.mem_cons_of_mem c h)

/-! ### Uniqueness of the cycle inside a weakly-connected component -/

/-- Edge adjacency is symmetric. -/
theorem sharesNode_symm {e f : IntentEdge} (h : sharesNode e f = true) :
    sharesNode f e = true := by
  unfold sharesNode at h ⊢
  simp only [Bool.or_eq_true, beq_iff_eq] at h ⊢
  tauto

/-- Walking across one edge preserves whether the walk can meet a given
orbit. -/
theorem meetsOrbit_of_edge {es : List IntentEdge} {c : Cell}
    (hnd : (es.map Prod.fst).Nodup) {a b : Cell} (hab : (a, b) ∈ es) :
    (MeetsOrbit es c a ↔ MeetsOrbit es c b) := by
  have hsucc : succOf es a = some b := succOf_of_mem hnd hab
  constructor
  · rintro ⟨x, ⟨k, hk⟩, hcx⟩
    cases k with
    | zero =>
      have hxa : x = a := by
        simp [iterSucc] at hk
        exact hk.symm
      subst hxa
      exact ⟨b, orbitMem_refl es b,
        orbitMem_trans hcx ⟨1, by rw [iterSucc_one]; exact hsucc⟩⟩
    | succ k' =>
      have hk' : iterSucc es k' b = some x := by
        rw [show k' + 1 = 1 + k' from by omega, iterSucc_add,
          iterSucc_one, hsucc] at hk
        simpa using hk
      exact ⟨x, ⟨k', hk'⟩, hcx⟩
  · rintro ⟨x, hbx, hcx⟩
    exact ⟨x, orbitMem_trans ⟨1, by rw [iterSucc_one]; exact hsucc⟩ hbx, hcx⟩

/-- Adjacent edges agree on whether their starts can meet a given orbit. -/
theorem meetsOrbit_shares {es : List IntentEdge} {c : Cell}
    (hnd : (es.map Prod.fst).Nodup) {e f : IntentEdge}
    (he : e ∈ es) (hf : f ∈ es) (hshare : sharesNode e f = true) :
    (MeetsOrbit es c e.1 ↔ MeetsOrbit es c f.1) := by
  have he' : (e.1, e.2) ∈ es := by
    cases e; exact he
  have hf' : (f.1, f.2) ∈ es := by
    cases f; exact hf
  have h1 := meetsOrbit_of_edge (c := c) hnd he'
  have h2 := meetsOrbit_of_edge (c := c) hnd hf'
  unfold sharesNode at hshare
  simp only [Bool.or_eq_true, beq_iff_eq] at hshare
  rcases hshare with ((h | h) | h) | h
  · rw [h]
  · rw [h]; exact h2.symm
  · rw [h] at h1; exact h1
  · rw [h] at h1; exact h1.trans h2.symm

/-- Connectivity inside a component propagates orbit-meeting from one edge
start to every other. -/
theorem meetsOrbit_chain {es K : List IntentEdge}
    (hnd : (es.map Prod.fst).Nodup) (hsub : K ⊆ es) {c : Cell}
    {e f : IntentEdge} (he : e ∈ es) (hchain : EdgeChain K e f) :
    f ∈ es ∧ (MeetsOrbit es c e.1 ↔ MeetsOrbit es c f.1) := by
  induction hchain with
  | refl => exact ⟨he, Iff.rfl⟩
  | tail hc hstep ih =>
    obtain ⟨hmid, hiff⟩ := ih
    exact ⟨hsub hstep.1,
      hiff.trans (meetsOrbit_shares hnd hmid (hsub hstep.1) hstep.2)⟩

/-- In a chain-connected edge set with unique starts, any two cyclic nodes
have the same orbit. -/
theorem cycle_unique_in_component {K : List IntentEdge}
    (hnd : (K.map Prod.fst).Nodup)
    (hconn : ∃ e₀ ∈ K, ∀ f ∈ K, EdgeChain K e₀ f)
    {c c' : Cell} (hc : Cyclic K c) (hc' : Cyclic K c') :
    ∀ x, OrbitMem K c x ↔ OrbitMem K c' x := by
  obtain ⟨e₀, he₀, hch⟩ := hconn
  -- the outgoing edges of the two cyclic nodes
  have hs : (iterSucc K 1 c).isSome := cyclic_isSome hc 1
  rw [iterSucc_one] at hs
  obtain ⟨m, hm⟩ := Option.isSome_iff_exists.mp hs
  have hs' : (iterSucc K 1 c').isSome := cyclic_isSome hc' 1
  rw [iterSucc_one] at hs'
  obtain ⟨m', hm'⟩ := Option.isSome_iff_exists.mp hs'
  have hec : (c, m) ∈ K := succOf_mem hm
  have hec' : (c', m') ∈ K := succOf_mem hm'
  -- both edges are chained to the seed
  obtain ⟨_, hiff⟩ := meetsOrbit_chain hnd (fun x hx => hx) (c := c) he₀ (hch _ hec)
  obtain ⟨_, hiff'⟩ :=
    meetsOrbit_chain hnd (fun x hx => hx) (c := c) he₀ (hch _ hec')
  -- the orbit of c meets itself, hence the orbit of c' meets that of c
  have hmc : MeetsOrbit K c c := ⟨c, orbitMem_refl K c, orbitMem_refl K c⟩
  have hmc' : MeetsOrbit K c c' := by
    rw [show MeetsOrbit K c c' = MeetsOrbit K c ((c', m') : IntentEdge).1 from rfl]
    rw [← hiff']
    rw [hiff]
    exact hmc
  obtain ⟨x, hx', hx⟩ := hmc'
  intro y
  have h1 := orbit_eq_of_cyclic hc hx (x := y)
  have h2 := orbit_eq_of_cyclic hc' hx' (x := y)
  rw [← h1, h2]

/-! ### Invariants of the component construction -/

/-- One unfolding step of the saturation loop. -/
theorem growComp_succ (es : List IntentEdge) (fl : Nat)
    (acc : List IntentEdge) :
    growComp es (fl + 1) acc
      = (if (es.filter (fun e => !(acc.contains e)
            && acc.any (fun f => sharesNode e f))).isEmpty then acc
        else growComp es fl (acc ++ es.filter (fun e => !(acc.contains e)
            && acc.any (fun f => sharesNode e f)))) := rfl

/-- The accumulator survives saturation. -/
theorem growComp_mem_acc {es : List IntentEdge} :
    ∀ fuel acc x, x ∈ acc → x ∈ growComp es fuel acc := by
  intro fuel
  induction fuel with
  | zero => intro acc x hx; exact hx
  | succ fl ih =>
    intro acc x hx
    rw [growComp_succ]
    split
    · exact hx
    · exact ih _ x (List.mem_append_left _ hx)

/-- Saturation only ever adds edges of `es`. -/
theorem growComp_subset {es : List IntentEdge} :
    ∀ fuel acc x, x ∈ growComp es fuel acc → x ∈ acc ∨ x ∈ es := by
  intro fuel
  induction fuel with
  | zero => intro acc x hx; exact Or.inl hx
  | succ fl ih =>
    intro acc x hx
    rw [growComp_succ] at hx
    split at hx
    · exact Or.inl hx
    · rcases ih _ x hx with h | h
      · rcases List.mem_append.mp h with h' | h'
        · exact Or.inl h'
        · exact Or.inr (List.mem_of_mem_filter h')
      · exact Or.inr h

/-- Saturation keeps the accumulator duplicate-free. -/
theorem growComp_nodup {es : List IntentEdge} (hes : es.Nodup) :
    ∀ fuel acc, acc.Nodup → (growComp es fuel acc).Nodup := by
  intro fuel
  induction fuel with
  | zero => intro acc h; exact h
  | succ fl ih =>
    intro acc h
    rw [growComp_succ]
    split
    · exact h
    · refine ih _ (List.Nodup.append h (List.Nodup.filter _ hes) ?_)
      intro x hx hx'
      have := List.of_mem_filter hx'
      simp only [Bool.and_eq_true, Bool.not_eq_true'] at this
      have hxc : acc.contains x = false := this.1
      simp [List.contains] at hxc
      exact hxc hx

/-- Every saturated edge is chained to the seed inside the result. -/
theorem growComp_chain {es : List IntentEdge} (e₀ : IntentEdge) :
    ∀ fuel acc, (∀ f ∈ acc, EdgeChain acc e₀ f) →
      ∀ f ∈ growComp es fuel acc, EdgeChain (growComp es fuel acc) e₀ f := by
  intro fuel
  induction fuel with
  | zero => intro acc h; exact h
  | succ fl ih =>
    intro acc h
    rw [growComp_succ]
    split
    · exact h
    · refine ih _ ?_
      intro f hf
      set more := es.filter (fun e => !(acc.contains e)
        && acc.any (fun fx => sharesNode e fx)) with hmore
      rcases List.mem_append.mp hf with hfa | hfm
      · exact Relation.ReflTransGen.mono
          (fun a b hab => ⟨List.mem_append_left more hab.1, hab.2⟩) (h f hfa)
      · have hprop := List.of_mem_filter hfm
        simp only [Bool.and_eq_true] at hprop
        obtain ⟨g, hg, hshare⟩ := List.any_eq_true.mp hprop.2
        have hchain : EdgeChain (acc ++ more) e₀ g :=
          Relation.ReflTransGen.mono
            (fun a b hab => ⟨List.mem_append_left more hab.1, hab.2⟩) (h g hg)
        exact Relation.ReflTransGen.tail hchain
          ⟨List.mem_append_right acc hfm, sharesNode_symm hshare⟩

/-- When the fuel dominates the number of missing edges, saturation
terminates saturated: nothing outside the result touches it. -/
theorem growComp_sat {es : List IntentEdge} (hes : es.Nodup) :
    ∀ fuel acc, acc.Nodup → (∀ x ∈ acc, x ∈ es) →
      es.length + 1 ≤ fuel + acc.length →
      ∀ g ∈ es, g ∉ growComp es fuel acc →
        ∀ f ∈ growComp es fuel acc, sharesNode g f = false := by
  intro fuel
  induction fuel with
  | zero =>
    intro acc hnd hsub hlen g hg hgK f hf
    exact absurd (nodup_subset_length_le hnd hsub) (by simp at hlen ⊢; omega)
  | succ fl ih =>
    intro acc hnd hsub hlen g hg hgK f hf
    rw [growComp_succ] at hgK hf
    by_cases hempty : (es.filter (fun e => !(acc.contains e)
        && acc.any (fun fx => sharesNode e fx))).isEmpty = true
    · -- saturated already: g would have been added
      rw [if_pos hempty] at hgK hf
      cases hgf : sharesNode g f with
      | false => rfl
      | true =>
        exfalso
        have hgmem : g ∈ es.filter (fun e => !(acc.contains e)
            && acc.any (fun fx => sharesNode e fx)) := by
          refine List.mem_filter.mpr ⟨hg, ?_⟩
          simp only [Bool.and_eq_true, Bool.not_eq_true']
          constructor
          · simp [List.contains]
            exact hgK
          · exact List.any_eq_true.mpr ⟨f, hf, hgf⟩
        rw [List.isEmpty_iff] at hempty
        rw [hempty] at hgmem
        cases hgmem
    · rw [if_neg hempty] at hgK hf
      refine ih _ ?_ ?_ ?_ g hg hgK f hf
      · refine List.Nodup.append hnd (List.Nodup.filter _ hes) ?_
        intro x hx hx'
        have := List.of_mem_filter hx'
        simp only [Bool.and_eq_true, Bool.not_eq_true'] at this
        have hxc := this.1
        simp [List.contains] at hxc
        exact hxc hx
      · intro x hx
        rcases List.mem_append.mp hx with h' | h'
        · exact hsub x h'
        · exact List.mem_of_mem_filter h'
      · have hpos : 0 < (es.filter (fun e => !(acc.contains e)
            && acc.any (fun fx => sharesNode e fx))).length := by
          rw [List.isEmpty_iff] at hempty
          cases hfl : es.filter (fun e => !(acc.contains e)
              && acc.any (fun fx => sharesNode e fx)) with
          | nil => exact absurd hfl hempty
          | cons y ys => simp [hfl]
        simp only [List.length_append]
        omega

/-- The component of a seed edge: contains the seed, stays inside `es`,
has no duplicates, is saturated, and is chain-connected to the seed. -/
theorem componentOf_spec {es : List IntentEdge} (hnd : es.Nodup)
    {e : IntentEdge} (he : e ∈ es) :
    e ∈ componentOf es e ∧ (∀ x ∈ componentOf es e, x ∈ es) ∧
    (componentOf es e).Nodup ∧
    (∀ g ∈ es, g ∉ componentOf es e →
      ∀ f ∈ componentOf es e, sharesNode g f = false) ∧
    (∀ f ∈ componentOf es e, EdgeChain (componentOf es e) e f) := by
  have hbase : ∀ f ∈ [e], EdgeChain [e] e f := by
    intro f hf
    simp at hf
    subst hf
    exact Relation.ReflTransGen.refl
  refine ⟨growComp_mem_acc es.length [e] e (by simp), ?_,
    growComp_nodup hnd es.length [e] (by simp),
    growComp_sat hnd es.length [e] (by simp) (by simpa using he) (by simp),
    growComp_chain e es.length [e] hbase⟩
  intro x hx
  rcases growComp_subset es.length [e] x hx with h | h
  · have : x = e := by simpa using h
    exact this ▸ he
  · exact h

/-- One unfolding step of the component-peeling loop. -/
theorem weakComponentsAux_succ (fl : Nat) (e : IntentEdge)
    (rest : List IntentEdge) :
    weakComponentsAux (fl + 1) (e :: rest)
      = componentOf (e :: rest) e
        :: weakComponentsAux fl ((e :: rest).filter
            (fun f => !((componentOf (e :: rest) e).contains f))) := rfl

/-- The component decomposition: it covers every edge; each component is
nonempty, inside `es`, duplicate-free, saturated against the rest of `es`,
and chain-connected; distinct components are edge-disjoint. -/
theorem weakComponentsAux_spec :
    ∀ fuel es, es.length ≤ fuel → es.Nodup →
      (∀ g ∈ es, ∃ K, K ∈ weakComponentsAux fuel es ∧ g ∈ K) ∧
      (∀ K ∈ weakComponentsAux fuel es,
        K ≠ [] ∧ (∀ x ∈ K, x ∈ es) ∧ K.Nodup ∧
        (∀ g ∈ es, g ∉ K → ∀ f ∈ K, sharesNode g f = false) ∧
        (∃ e₀ ∈ K, ∀ f ∈ K, EdgeChain K e₀ f)) ∧
      (weakComponentsAux fuel es).Pairwise (fun K K' => ∀ x ∈ K, x ∉ K') := by
  intro fuel
  induction fuel with
  | zero =>
    intro es hlen hnd
    have hes : es = [] := List.eq_nil_of_length_eq_zero (by omega)
    subst hes
    refine ⟨?_, ?_, ?_⟩ <;> simp [weakComponentsAux]
  | succ fl ih =>
    intro es hlen hnd
    cases es with
    | nil => refine ⟨?_, ?_, ?_⟩ <;> simp [weakComponentsAux]
    | cons e rest =>
      obtain ⟨hmem1, hsub1, hnd1, hsat1, hchain1⟩ :=
        componentOf_spec hnd (List.mem_cons_self e rest)
      rw [weakComponentsAux_succ]
      have hmem2 : ∀ x, x ∈ (e :: rest).filter
          (fun f => !((componentOf (e :: rest) e).contains f))
            ↔ (x ∈ e :: rest ∧ x ∉ componentOf (e :: rest) e) := by
        intro x
        rw [List.mem_filter]
        simp [List.contains]
      have hlen2 : ((e :: rest).filter
          (fun f => !((componentOf (e :: rest) e).contains f))).length ≤ fl := by
        have hpe : ¬ ((fun f => !((componentOf (e :: rest) e).contains f)) e
            = true) := by
          simp [List.contains]
          exact hmem1
        have hfc : List.filter
              (fun f => !((componentOf (e :: rest) e).contains f)) (e :: rest)
            = List.filter
              (fun f => !((componentOf (e :: rest) e).contains f)) rest :=
          List.filter_cons_of_neg hpe
        rw [hfc]
        have := List.length_filter_le
          (fun f => !((componentOf (e :: rest) e).contains f)) rest
        have hr : rest.length ≤ fl := by simpa using Nat.le_of_succ_le_succ hlen
        omega
      obtain ⟨cover2, spec2, pair2⟩ := ih _ hlen2 (List.Nodup.filter _ hnd)
      refine ⟨?_, ?_, ?_⟩
      · -- cover
        intro g hg
        by_cases hgK : g ∈ componentOf (e :: rest) e
        · exact ⟨componentOf (e :: rest) e, List.mem_cons_self _ _, hgK⟩
        · obtain ⟨K, hK, hgK'⟩ := cover2 g ((hmem2 g).mpr ⟨hg, hgK⟩)
          exact ⟨K, List.mem_cons_of_mem _ hK, hgK'⟩
      · -- per-component facts
        intro K hK
        rcases List.mem_cons.mp hK with hK1 | hKtl
        · subst hK1
          exact ⟨List.ne_nil_of_mem hmem1, hsub1, hnd1, hsat1,
            e, hmem1, hchain1⟩
        · obtain ⟨hne, hsubK, hndK, hsatK, hchainK⟩ := spec2 K hKtl
          refine ⟨hne, ?_, hndK, ?_, hchainK⟩
          · intro x hx
            exact ((hmem2 x).mp (hsubK x hx)).1
          · intro g hg hgK f hf
            by_cases hg2 : g ∈ (e :: rest).filter
                (fun f => !((componentOf (e :: rest) e).contains f))
            · exact hsatK g hg2 hgK f hf
            · have hgK1 : g ∈ componentOf (e :: rest) e := by
                by_contra hgg
                exact hg2 ((hmem2 g).mpr ⟨hg, hgg⟩)
              have hf2 := (hmem2 f).mp (hsubK f hf)
              have hff := hsat1 f hf2.1 hf2.2
              cases hgf : sharesNode g f with
              | false => rfl
              | true =>
                exact absurd (sharesNode_symm hgf)
                  (by rw [hff g hgK1]; simp)
      · -- pairwise edge-disjointness
        refine List.Pairwise.cons ?_ pair2
        intro K' hK' x hx hxK'
        obtain ⟨_, hsubK', _, _, _⟩ := spec2 K' hK'
        exact ((hmem2 x).mp (hsubK' x hxK')).2 hx

/-- `weakComponents` inherits the decomposition facts. -/
theorem weakComponents_spec {es : List IntentEdge} (hnd : es.Nodup) :
    (∀ g ∈ es, ∃ K, K ∈ weakComponents es ∧ g ∈ K) ∧
    (∀ K ∈ weakComponents es,
      K ≠ [] ∧ (∀ x ∈ K, x ∈ es) ∧ K.Nodup ∧
      (∀ g ∈ es, g ∉ K → ∀ f ∈ K, sharesNode g f = false) ∧
      (∃ e₀ ∈ K, ∀ f ∈ K, EdgeChain K e₀ f)) ∧
    (weakComponents es).Pairwise (fun K K' => ∀ x ∈ K, x ∉ K') :=
  weakComponentsAux_spec es.length es (Nat.le_refl _) hnd

/-! ### The agent layer under distinct positions -/

/-- Write-propagation for the agent-layer fold. -/
theorem recalcAgentFold_preserves (l : List Agent) (g : Layer) (y x : Nat)
    (h : ∀ a ∈ l, ¬(a.y = y ∧ a.x = x)) :
    (l.foldl (fun g a => writeCell g a.y a.x a.id) g) y x = g y x := by
  induction l generalizing g with
  | nil => rfl
  | cons a as ih =>
    rw [List.foldl_cons, ih _ (fun a' ha' => h a' (by simp [ha']))]
    unfold writeCell
    rw [if_neg (fun hc => h a (by simp) ⟨hc.1.symm, hc.2.symm⟩)]

/-- The recalculated agent layer at a cell where nobody stands. -/
theorem recalcAgentLayer_zero (agents : List Agent) (y x : Nat)
    (h : ∀ a ∈ agents, ¬(a.y = y ∧ a.x = x)) :
    recalcAgentLayer agents y x = 0 := by
  unfold recalcAgentLayer
  rw [recalcAgentFold_preserves agents zeroLayer y x h]
  rfl

/-- A non-zero agent-layer value names an agent standing at the cell. -/
theorem recalcAgentLayer_cases (agents : List Agent) (y x : Nat) :
    recalcAgentLayer agents y x = 0 ∨
    ∃ a ∈ agents, a.y = y ∧ a.x = x ∧ a.id = recalcAgentLayer agents y x := by
  unfold recalcAgentLayer
  suffices h : ∀ g : Layer,
      (agents.foldl (fun g a => writeCell g a.y a.x a.id) g) y x = g y x ∨
      ∃ a ∈ agents, a.y = y ∧ a.x = x ∧
        a.id = (agents.foldl (fun g a => writeCell g a.y a.x a.id) g) y x by
    rcases h zeroLayer with h0 | h0
    · left; rw [h0]; rfl
    · right; exact h0
  induction agents with
  | nil => intro g; left; rfl
  | cons a as ih =>
    intro g
    rw [List.foldl_cons]
    rcases ih (writeCell g a.y a.x a.id) with h0 | h0
    · rw [h0]
      unfold writeCell
      by_cases hc : y = a.y ∧ x = a.x
      · right
        refine ⟨a, by simp, hc.1.symm, hc.2.symm, ?_⟩
        simp [hc]
      · left; simp [hc]
    · right
      obtain ⟨b, hb, h1, h2, h3⟩ := h0
      exact ⟨b, by simp [hb], h1, h2, h3⟩

/-- With an occupant and all occupants sharing one id, the layer stores
it. -/
theorem recalcAgentFold_eq_of_all (y x v : Nat) (agents : List Agent) :
    ∀ g : Layer, (∃ a ∈ agents, a.y = y ∧ a.x = x) →
      (∀ a ∈ agents, a.y = y → a.x = x → a.id = v) →
      (agents.foldl (fun g a => writeCell g a.y a.x a.id) g) y x = v := by
  induction agents with
  | nil =>
    intro g hex _
    obtain ⟨a, ha, _⟩ := hex
    cases ha
  | cons a as ih =>
    intro g hex hall
    rw [List.foldl_cons]
    by_cases hcell : ∃ b ∈ as, b.y = y ∧ b.x = x
    · exact ih _ hcell (fun b hb h1 h2 => hall b (by simp [hb]) h1 h2)
    · rw [recalcAgentFold_preserves as _ y x (fun b hb hc => hcell ⟨b, hb, hc⟩)]
      obtain ⟨b, hb, h1, h2⟩ := hex
      have hba : b = a := by
        rcases List.mem_cons.mp hb with h | h
        · exact h
        · exact absurd ⟨b, h, h1, h2⟩ hcell
      subst hba
      unfold writeCell
      rw [if_pos ⟨h1.symm, h2.symm⟩]
      exact hall b (by simp) h1 h2

/-- Looking an agent up through the recalculated layer, under pairwise
distinct positions. -/
theorem recalcAgentLayer_lookup {agents : List Agent}
    (hdis : agents.Pairwise (fun a b => (a.x, a.y) ≠ (b.x, b.y)))
    {a : Agent} (ha : a ∈ agents) :
    recalcAgentLayer agents a.y a.x = a.id := by
  unfold recalcAgentLayer
  refine recalcAgentFold_eq_of_all a.y a.x a.id agents zeroLayer
    ⟨a, ha, rfl, rfl⟩ ?_
  intro b hb h1 h2
  by_cases hba : b = a
  · rw [hba]
  · have hsymm : Symmetric (fun a b : Agent => (a.x, a.y) ≠ (b.x, b.y)) :=
      fun x y hxy heq => hxy heq.symm
    exact absurd (by rw [h1, h2] : (b.x, b.y) = (a.x, a.y))
      (List.Pairwise.forall hsymm hdis hb ha hba)

/-! ### The intent edges recorded by a step -/

/-- Every recorded edge starts at its agent's cell. -/
theorem precancel_edge_start (w : Warehouse) (a : Agent) :
    ((w.precancelAgent a).2).1 = (a.x, a.y) := by
  simp only [Warehouse.precancelAgent]
  split <;> rfl

/-- Pre-cancellation never moves the agent or changes its identity or
carry-link. -/
theorem precancel_core (w : Warehouse) (a : Agent) :
    ((w.precancelAgent a).1).x = a.x ∧ ((w.precancelAgent a).1).y = a.y ∧
    ((w.precancelAgent a).1).id = a.id ∧
    ((w.precancelAgent a).1).carryingShelf = a.carryingShelf := by
  simp only [Warehouse.precancelAgent]
  split <;> exact ⟨rfl, rfl, rfl, rfl⟩

/-- The recorded edge target is where the (possibly cancelled) agent will
end up if it commits: the requested cell for a surviving `FORWARD`, its own
cell otherwise. -/
theorem precancel_move_eq (w : Warehouse) (a : Agent) :
    (if ((w.precancelAgent a).1).reqAction = Action.FORWARD
        then ((w.precancelAgent a).1).req_location w.gridHeight w.gridWidth
        else (((w.precancelAgent a).1).x, ((w.precancelAgent a).1).y))
      = ((w.precancelAgent a).2).2 := by
  simp only [Warehouse.precancelAgent]
  split
  · simp
  · by_cases hreq : a.reqAction = Action.FORWARD
    · simp [hreq]
    · simp only [if_neg hreq]
      unfold Agent.req_location
      rw [if_pos hreq]

/-- An agent whose phase-1 request is not `FORWARD` recorded a self-loop:
either it was pre-cancelled, or its own target is its own cell. -/
theorem precancel_selfloop_of_nonforward (w : Warehouse) (a : Agent)
    (h : ((w.precancelAgent a).1).reqAction ≠ Action.FORWARD) :
    (w.precancelAgent a).2 = ((a.x, a.y), (a.x, a.y)) := by
  have hs := precancel_edge_start w a
  have hm := precancel_move_eq w a
  have hc := precancel_core w a
  rw [if_neg h] at hm
  cases hp : w.precancelAgent a with
  | mk a1 e =>
    rw [hp] at hs hm hc
    cases e with
    | mk s t =>
      simp only at hs hm hc ⊢
      rw [hs, ← hm, hc.1, hc.2.1]

/-- The phase-1 agent list, index-wise. -/
theorem phase1_fst_getElem? (w : Warehouse) (k : Nat) (a : Agent)
    (ha : w.agents[k]? = some a) :
    (w.phase1).1[k]? = some ((w.precancelAgent a).1) := by
  unfold Warehouse.phase1
  simp only [List.getElem?_map, List.map_map]
  rw [ha]
  rfl

/-- The recorded edge list, index-wise. -/
theorem phase1_snd_getElem? (w : Warehouse) (k : Nat) (a : Agent)
    (ha : w.agents[k]? = some a) :
    (w.phase1).2[k]? = some ((w.precancelAgent a).2) := by
  unfold Warehouse.phase1
  simp only [List.getElem?_map, List.map_map]
  rw [ha]
  rfl

/-- The starts of the recorded edges are the agents' cells, in order. -/
theorem phase1_starts (w : Warehouse) :
    (w.phase1).2.map Prod.fst = w.agents.map (fun a => (a.x, a.y)) := by
  unfold Warehouse.phase1
  simp only [List.map_map]
  exact List.map_congr_left (fun a _ => precancel_edge_start w a)

/-- Action intake keeps every agent's position. -/
theorem loadActions_pos_map (m : Nat) (ags : List Agent)
    (acts : List (Action × List Nat)) (hlen : acts.length = ags.length) :
    (loadActions m ags acts).map (fun a => (a.x, a.y))
      = ags.map (fun a => (a.x, a.y)) := by
  unfold loadActions
  rw [List.map_map]
  have h1 : ∀ p : Agent × (Action × List Nat),
      ((fun a => (a.x, a.y)) ∘ (fun p : Agent × (Action × List Nat) =>
        if m > 0 then { p.1 with reqAction := p.2.1, message := p.2.2 }
        else { p.1 with reqAction := p.2.1 })) p = (p.1.x, p.1.y) := by
    intro p
    simp only [Function.comp]
    split <;> rfl
  rw [List.map_congr_left (fun p _ => h1 p)]
  rw [show (fun p : Agent × (Action × List Nat) => (p.1.x, p.1.y))
      = (fun a : Agent => (a.x, a.y)) ∘ Prod.fst from rfl]
  rw [← List.map_map, List.map_fst_zip ags acts (by omega)]

/-- Action intake keeps every agent's id. -/
theorem loadActions_id_map (m : Nat) (ags : List Agent)
    (acts : List (Action × List Nat)) (hlen : acts.length = ags.length) :
    (loadActions m ags acts).map Agent.id = ags.map Agent.id := by
  unfold loadActions
  rw [List.map_map]
  have h1 : ∀ p : Agent × (Action × List Nat),
      (Agent.id ∘ (fun p : Agent × (Action × List Nat) =>
        if m > 0 then { p.1 with reqAction := p.2.1, message := p.2.2 }
        else { p.1 with reqAction := p.2.1 })) p = p.1.id := by
    intro p
    simp only [Function.comp]
    split <;> rfl
  rw [List.map_congr_left (fun p _ => h1 p)]
  rw [show (fun p : Agent × (Action × List Nat) => p.1.id)
      = Agent.id ∘ Prod.fst from rfl]
  rw [← List.map_map, List.map_fst_zip ags acts (by omega)]

/-! ### Where each agent ends the step -/

/-- Projection from the preserved core tuple to the position. -/
theorem core_to_pos {o o' : Option Agent}
    (h : o.map (fun a => (a.x, a.y, a.dir, a.reqAction, a.carryingShelf))
      = o'.map (fun a => (a.x, a.y, a.dir, a.reqAction, a.carryingShelf))) :
    o.map (fun a => (a.x, a.y)) = o'.map (fun a => (a.x, a.y)) := by
  have h2 := congrArg
    (Option.map (fun t : Nat × Nat × Direction × Action × Option Nat =>
      (t.1, t.2.1))) h
  simpa [Option.map_map, Function.comp] using h2

/-- `req_location` only reads position, direction and request. -/
theorem req_location_congr {a b : Agent} (hx : a.x = b.x) (hy : a.y = b.y)
    (hd : a.dir = b.dir) (hr : a.reqAction = b.reqAction) (H W : Nat) :
    a.req_location H W = b.req_location H W := by
  unfold Agent.req_location
  rw [hx, hy, hd, hr]

/-- A `modifyAt` whose function keeps the position preserves every
position. -/
theorem modifyAt_pos_invariant (l : List Agent) (k i : Nat)
    (f : Agent → Agent) (hf : ∀ a, ((f a).x, (f a).y) = (a.x, a.y)) :
    ((modifyAt l k f)[i]?).map (fun a => (a.x, a.y))
      = (l[i]?).map (fun a => (a.x, a.y)) := by
  by_cases h : k = i
  · subst h
    rw [modifyAt_getElem?_self, Option.map_map]
    cases l[k]? with
    | none => rfl
    | some a => simp [Function.comp, hf a]
  · rw [modifyAt_getElem?_ne _ _ _ _ h]

/-- An agent's own loop iteration leaves it where conflict resolution says:
at its requested cell after a surviving `FORWARD`, on its own cell
otherwise. -/
theorem applyAgentAction_self_position (w : Warehouse)
    (c : List (Option (Nat × Nat))) (st : MutState) (i : Nat) (b : Agent)
    (hb : st.agents[i]? = some b) :
    ((applyAgentAction w c st i).agents[i]?).map (fun a => (a.x, a.y))
      = some (if b.reqAction = Action.FORWARD
          then b.req_location w.gridHeight w.gridWidth else (b.x, b.y)) := by
  have hlt : i < st.agents.length := (List.getElem?_eq_some_iff.mp hb).1
  unfold applyAgentAction
  rw [hb]
  simp only []
  cases hreq : b.reqAction <;>
    split_ifs <;>
      simp_all [List.getElem?_set_self', hlt, modifyAt_pos_invariant,
        Agent.req_location]

/-- After the whole action-application loop, each agent stands exactly
where conflict resolution sent it. -/
theorem applyPass_position (w : Warehouse) (i : Nat) (b : Agent)
    (hb : w.agents[i]? = some b) :
    ((w.applyPass).agents[i]?).map (fun a => (a.x, a.y))
      = some (if b.reqAction = Action.FORWARD
          then b.req_location w.gridHeight w.gridWidth else (b.x, b.y)) := by
  have hlt : i < w.agents.length := (List.getElem?_eq_some_iff.mp hb).1
  unfold Warehouse.applyPass
  rw [range_split_at w.agents.length i hlt, List.foldl_append,
    List.foldl_cons]
  set st0 : MutState :=
    ⟨w.agents, w.shelfs, w.carriedShelf, List.replicate w.nAgents 0⟩
    with hst0
  set stmid := (List.range' 0 i).foldl
    (applyAgentAction w w.requestedCoords) st0 with hstmid
  have hcore : ((stmid.agents[i]?).map
      (fun a => (a.x, a.y, a.dir, a.reqAction, a.carryingShelf)))
      = ((st0.agents[i]?).map
        (fun a => (a.x, a.y, a.dir, a.reqAction, a.carryingShelf))) := by
    apply foldl_applyAgentAction_core
    intro hmem
    have := (List.mem_range'_1.mp hmem).2
    omega
  have hst0i : st0.agents[i]? = some b := hb
  rw [hst0i] at hcore
  obtain ⟨b', hb', hbcore⟩ : ∃ b', stmid.agents[i]? = some b' ∧
      (b'.x, b'.y, b'.dir, b'.reqAction, b'.carryingShelf)
        = (b.x, b.y, b.dir, b.reqAction, b.carryingShelf) := by
    cases hsb : stmid.agents[i]? with
    | none => rw [hsb] at hcore; cases hcore
    | some v =>
      rw [hsb] at hcore
      exact ⟨v, rfl, by simpa using hcore⟩
  have hbx : b'.x = b.x := congrArg (fun t => t.1) hbcore
  have hby : b'.y = b.y := congrArg
    (fun t : Nat × Nat × Direction × Action × Option Nat => t.2.1) hbcore
  have hbd : b'.dir = b.dir := congrArg
    (fun t : Nat × Nat × Direction × Action × Option Nat => t.2.2.1) hbcore
  have hbr : b'.reqAction = b.reqAction := congrArg
    (fun t : Nat × Nat × Direction × Action × Option Nat => t.2.2.2.1) hbcore
  have hself := applyAgentAction_self_position w w.requestedCoords stmid i b' hb'
  have hafter : (((List.range' (i + 1) (w.agents.length - i - 1)).foldl
        (applyAgentAction w w.requestedCoords)
        (applyAgentAction w w.requestedCoords stmid i)).agents[i]?).map
      (fun a => (a.x, a.y, a.dir, a.reqAction, a.carryingShelf))
      = (((applyAgentAction w w.requestedCoords stmid i).agents[i]?).map
        (fun a => (a.x, a.y, a.dir, a.reqAction, a.carryingShelf))) := by
    apply foldl_applyAgentAction_core
    intro hmem
    have := (List.mem_range'_1.mp hmem).1
    omega
  rw [core_to_pos hafter, hself, hbr, hbx, hby,
    req_location_congr hbx hby hbd hbr w.gridHeight w.gridWidth]

/-- The detach loop of a delivery never moves an agent. -/
theorem detach_map_pos (shelfs : List Shelf) (l : List Agent) (x y : Nat)
    (i : Nat) :
    (((l.map (fun ag => if carriedShelfAt shelfs ag x y then
        { ag with hasDelivered := true, carryingShelf := none }
      else ag))[i]?).map (fun a => (a.x, a.y)))
      = ((l[i]?).map (fun a => (a.x, a.y))) := by
  simp only [List.getElem?_map]
  cases l[i]? with
  | none => rfl
  | some a =>
    show (Option.map (fun a => (a.x, a.y))
      (some (if carriedShelfAt shelfs a x y = true then
        { a with hasDelivered := true, carryingShelf := none } else a))) = _
    split <;> rfl

/-- One goal of the delivery scan never moves an agent. -/
theorem deliverAtGoal_positions (rt : RewardType) (homeOf : Nat → Nat × Nat)
    (pick : Nat → Nat) (ds : DeliveryState) (goal : Nat × Nat) (i : Nat) :
    (((deliverAtGoal rt homeOf pick ds goal).agents[i]?).map
        (fun a => (a.x, a.y)))
      = ((ds.agents[i]?).map (fun a => (a.x, a.y))) := by
  by_cases h0 : ds.gridShelfs goal.2 goal.1 = 0
  · rw [deliverAtGoal_skip rt homeOf pick ds goal h0]
  · unfold deliverAtGoal
    simp only []
    rw [if_neg h0]
    cases hsh : ds.shelfs[ds.gridShelfs goal.2 goal.1 - 1]? with
    | none => rfl
    | some shelf =>
      show Option.map (fun a => (a.x, a.y))
        ((if shelf.id ∉ ds.requestQueue then ds else _).agents[i]?) = _
      by_cases hq : shelf.id ∉ ds.requestQueue
      · rw [if_pos hq]
      · rw [if_neg hq]
        by_cases hrt : rt = RewardType.TWO_STAGE
        · rw [if_pos hrt]
          exact Eq.trans (modifyAt_pos_invariant _ _ _ _ (fun a => rfl))
            (detach_map_pos _ _ _ _ _)
        · rw [if_neg hrt]
          exact detach_map_pos _ _ _ _ _

/-- The whole delivery scan never moves an agent. -/
theorem deliveryFold_positions (rt : RewardType) (homeOf : Nat → Nat × Nat)
    (pick : Nat → Nat) (goals : List (Nat × Nat)) (ds : DeliveryState)
    (i : Nat) :
    (((goals.foldl (deliverAtGoal rt homeOf pick) ds).agents[i]?).map
        (fun a => (a.x, a.y)))
      = ((ds.agents[i]?).map (fun a => (a.x, a.y))) := by
  induction goals generalizing ds with
  | nil => rfl
  | cons g gs ih =>
    rw [List.foldl_cons, ih, deliverAtGoal_positions]

/-- Position of each agent after `step`: the committed target of a
surviving `FORWARD`, its pre-step cell otherwise. -/
theorem step_position (w : Warehouse) (actions : List (Action × List Nat))
    (pick : Nat → Nat) (i : Nat) (aR : Agent)
    (hres : (w.withActions actions).resolvedAgents[i]? = some aR) :
    (((w.step actions pick).state.agents)[i]?).map (fun a => (a.x, a.y))
      = some (if aR.reqAction = Action.FORWARD
          then aR.req_location w.gridHeight w.gridWidth else (aR.x, aR.y)) := by
  show (((w.deliveryPass pick
      (w.deliveryInit (w.actionPass actions))).agents[i]?).map
        (fun a => (a.x, a.y))) = _
  unfold Warehouse.deliveryPass
  rw [deliveryFold_positions]
  show (((((w.withActions actions).midStep).applyPass).agents[i]?).map
    (fun a => (a.x, a.y))) = _
  have hres' : ((w.withActions actions).midStep).agents[i]? = some aR := hres
  exact applyPass_position ((w.withActions actions).midStep) i aR hres'

/-! ### Who commits: reading the committed ids off the entry grid -/

/-- Starts stay distinct on sub-lists. -/
theorem sub_nodup_map_fst {es K : List IntentEdge}
    (hnd : (es.map Prod.fst).Nodup) (hKnd : K.Nodup)
    (hsub : ∀ x ∈ K, x ∈ es) : (K.map Prod.fst).Nodup := by
  have hpw : K.Pairwise (fun e f => e.1 ≠ f.1) := by
    refine List.Pairwise.imp_of_mem ?_ hKnd
    intro e f he hf hne heq
    exact hne (starts_inj hnd e (hsub e he) f (hsub f hf) heq)
  have := (List.pairwise_map (R := (· ≠ ·))).mpr hpw
  exact this

/-- Members of a returned cycle are component nodes. -/
theorem orbit_mem_nodesOf {K : List IntentEdge} {t : Cell} (h : Cyclic K t) :
    ∀ n ∈ orbitFrom K t, n ∈ nodesOf K := by
  obtain ⟨q, ⟨hq, hiter⟩, hmin⟩ := exists_min_period h
  intro n hn
  have horb := (orbitFrom_mem_iff hq hiter hmin n).mp hn
  have hcyc := cyclic_shift h horb
  have hs : (iterSucc K 1 n).isSome := cyclic_isSome hcyc 1
  rw [iterSucc_one] at hs
  obtain ⟨m, hm⟩ := Option.isSome_iff_exists.mp hs
  exact List.mem_flatMap.mpr ⟨(n, m), succOf_mem hm, by simp⟩

/-- Every committed id of a component is a nonzero entry of the agent
layer at one of the component's nodes. -/
theorem componentCommit_sub {w : Warehouse} {K : List IntentEdge} {v : Nat}
    (h : v ∈ w.componentCommit K) :
    v ≠ 0 ∧ ∃ n, n ∈ nodesOf K ∧ w.gridAgents n.2 n.1 = v := by
  unfold Warehouse.componentCommit at h
  cases hfc : findCycle K with
  | some cyc =>
    rw [hfc] at h
    replace h : v ∈ (if cyc.length = 2 then []
        else (cyc.map (fun n => w.gridAgents n.2 n.1)).filter
          (fun i => decide (0 < i))) := h
    by_cases hl : cyc.length = 2
    · rw [if_pos hl] at h; cases h
    · rw [if_neg hl] at h
      obtain ⟨hmem, hpos⟩ := List.mem_filter.mp h
      obtain ⟨n, hn, hvn⟩ := List.mem_map.mp hmem
      obtain ⟨t, hcyc, hceq⟩ := findCycle_some_spec hfc
      have hv0 : 0 < v := by simpa using hpos
      exact ⟨by omega, n, orbit_mem_nodesOf hcyc n (hceq ▸ hn), hvn⟩
  | none =>
    rw [hfc] at h
    replace h : v ∈ ((dag_longest_path K).map
        (fun n => w.gridAgents n.2 n.1)).filter (fun i => !(i == 0)) := h
    obtain ⟨hmem, hpos⟩ := List.mem_filter.mp h
    obtain ⟨n, hn, hvn⟩ := List.mem_map.mp hmem
    refine ⟨by simpa using hpos, n, ?_, hvn⟩
    unfold dag_longest_path at hn
    rcases foldl_choose_mem ((nodesOf K).map (chainFrom K K.length)) []
      with hf | hf
    · rw [hf] at hn; cases hn
    · obtain ⟨n₀, hn₀, hchain⟩ := List.mem_map.mp hf
      rw [← hchain] at hn
      rcases chainFrom_subset_nodes K.length n₀ n hn with h' | h'
      · exact h' ▸ hn₀
      · exact h'

/-- Membership in the committed ids, componentwise. -/
theorem committedIds_mem {w : Warehouse} {es : List IntentEdge} {v : Nat} :
    v ∈ w.committedIds es
      ↔ ∃ K, K ∈ weakComponents es ∧ v ∈ w.componentCommit K := by
  unfold Warehouse.committedIds
  constructor
  · intro h
    obtain ⟨l, hl, hv⟩ := List.mem_flatten.mp h
    obtain ⟨K, hK, hKl⟩ := List.mem_map.mp hl
    exact ⟨K, hK, hKl ▸ hv⟩
  · rintro ⟨K, hK, hv⟩
    exact List.mem_flatten.mpr
      ⟨w.componentCommit K, List.mem_map.mpr ⟨K, hK, rfl⟩, hv⟩

/-- A duplicate-free list whose membership is a single point is that
singleton. -/
theorem nodup_eq_singleton {l : List Cell} {s : Cell} (hnd : l.Nodup)
    (hmem : ∀ x, x ∈ l ↔ x = s) : l = [s] := by
  cases l with
  | nil =>
    have := (hmem s).mpr rfl
    cases this
  | cons a l' =>
    have ha : a = s := (hmem a).mp (by simp)
    subst ha
    cases l' with
    | nil => rfl
    | cons b l'' =>
      have hb : b = a := (hmem b).mp (by simp)
      subst hb
      simp at hnd

/-- The starts of a step's edges are the agents' cells, in order. -/
theorem stepEdges_starts (w : Warehouse)
    (actions : List (Action × List Nat))
    (hlen : actions.length = w.agents.length) :
    (w.stepEdges actions).map Prod.fst
      = w.agents.map (fun a => (a.x, a.y)) := by
  unfold Warehouse.stepEdges
  rw [phase1_starts]
  exact loadActions_pos_map w.msgBits w.agents actions hlen

/-- Under well-formedness, a step's edges have pairwise distinct starts. -/
theorem stepEdges_starts_nodup (w : Warehouse)
    (actions : List (Action × List Nat)) (hW : Wf w)
    (hlen : actions.length = w.agents.length) :
    ((w.stepEdges actions).map Prod.fst).Nodup := by
  rw [stepEdges_starts w actions hlen]
  have := (List.pairwise_map
    (R := (fun c d : Cell => c ≠ d))).mpr hW.agentsDistinct
  exact this

/-- Under well-formedness, a step's edge list has no duplicates. -/
theorem stepEdges_nodup (w : Warehouse)
    (actions : List (Action × List Nat)) (hW : Wf w)
    (hlen : actions.length = w.agents.length) :
    (w.stepEdges actions).Nodup :=
  (stepEdges_starts_nodup w actions hW hlen).of_map Prod.fst

/-- The recorded edge of agent `k` starts at its cell. -/
theorem stepEdges_start_eq (w : Warehouse)
    (actions : List (Action × List Nat))
    (hlen : actions.length = w.agents.length) (k : Nat) (a : Agent)
    (ha : w.agents[k]? = some a) (ek : IntentEdge)
    (hek : (w.stepEdges actions)[k]? = some ek) : ek.1 = (a.x, a.y) := by
  have h1 := congrArg (fun l => l[k]?) (stepEdges_starts w actions hlen)
  simp only [List.getElem?_map] at h1
  rw [hek, ha] at h1
  simpa using h1

/-- Positional ids: the agent stored at index `k` has id `k + 1`. -/
theorem agents_id_at (w : Warehouse) (hW : Wf w) (k : Nat) (a : Agent)
    (ha : w.agents[k]? = some a) : a.id = k + 1 := by
  have h1 := congrArg (fun l => l[k]?) hW.agentsIndexed
  simp only [List.getElem?_map] at h1
  rw [ha] at h1
  have hk : k < w.agents.length := (List.getElem?_eq_some_iff.mp ha).1
  rw [List.getElem?_range'] at h1
  · simpa [Nat.add_comm] using h1
  · exact hk

/-- Positional ids are injective across indices. -/
theorem agents_id_inj (w : Warehouse) (hW : Wf w) {j k : Nat} {b a : Agent}
    (hb : w.agents[j]? = some b) (ha : w.agents[k]? = some a)
    (h : b.id = a.id) : j = k := by
  have h1 := agents_id_at w hW j b hb
  have h2 := agents_id_at w hW k a ha
  omega

/-- The entry agent layer reads each agent's id off its cell. -/
theorem grid_at_agent (w : Warehouse) (hW : Wf w) {a : Agent}
    (ha : a ∈ w.agents) : w.gridAgents a.y a.x = a.id := by
  rw [hW.gridA]
  exact recalcAgentLayer_lookup hW.agentsDistinct ha

/-- A committed agent is committed inside its own weak component: grid
lookup identifies the agent whose id was read, id-injectivity identifies
it with ours, and saturation plus edge-disjointness pin the component. -/
theorem committed_only_own (w : Warehouse)
    (actions : List (Action × List Nat)) (hW : Wf w)
    (hlen : actions.length = w.agents.length)
    (k : Nat) (a : Agent) (ha : w.agents[k]? = some a)
    (ek : IntentEdge) (hek : (w.stepEdges actions)[k]? = some ek)
    (K : List IntentEdge) (hK : K ∈ weakComponents (w.stepEdges actions))
    (hekK : ek ∈ K)
    (hcom : a.id ∈ (w.withActions actions).committedIds (w.stepEdges actions)) :
    a.id ∈ (w.withActions actions).componentCommit K := by
  obtain ⟨K', hK', hv⟩ := committedIds_mem.mp hcom
  obtain ⟨hne0, n, hn, hgrid⟩ := componentCommit_sub hv
  have hgrid' : w.gridAgents n.2 n.1 = a.id := hgrid
  rw [hW.gridA] at hgrid'
  rcases recalcAgentLayer_cases w.agents n.2 n.1 with h0 | hb0
  · rw [h0] at hgrid'
    exact absurd hgrid'.symm hne0
  · obtain ⟨b, hb, hby, hbx, hbid⟩ := hb0
    have hba : b.id = a.id := by rw [hbid, hgrid']
    obtain ⟨j, hj⟩ := List.mem_iff_getElem?.mp hb
    have hjk : j = k := agents_id_inj w hW hj ha hba
    subst hjk
    rw [ha] at hj
    have hbeq : b = a := by
      cases hj
      rfl
    subst hbeq
    have hn_pos : n = (b.x, b.y) := by
      have : n = (n.1, n.2) := rfl
      rw [this, ← hby, ← hbx]
    have hstart : ek.1 = (b.x, b.y) :=
      stepEdges_start_eq w actions hlen j b ha ek hek
    obtain ⟨f, hfK', hnf⟩ := List.mem_flatMap.mp hn
    have hshare : sharesNode ek f = true := by
      unfold sharesNode
      simp only [Bool.or_eq_true, beq_iff_eq]
      simp only [List.mem_cons, List.mem_singleton] at hnf
      rcases hnf with h | h
      · left; left; left; rw [hstart, ← hn_pos, h]
      · rcases h with h | h
        · left; left; right; rw [hstart, ← hn_pos, h]
        · cases h
    obtain ⟨_, spec, hpair⟩ :=
      weakComponents_spec (stepEdges_nodup w actions hW hlen)
    obtain ⟨_, _, _, hsatK', _⟩ := spec K' hK'
    have hekes : ek ∈ w.stepEdges actions :=
      List.mem_iff_getElem?.mpr ⟨j, hek⟩
    have hekK' : ek ∈ K' := by
      by_contra hno
      rw [hsatK' ek hekes hno f hfK'] at hshare
      cases hshare
    have hKK' : K = K' := by
      by_cases heq : K = K'
      · exact heq
      · exfalso
        have hsymm : Symmetric
            (fun K K' : List IntentEdge => ∀ x ∈ K, x ∉ K') :=
          fun X Y hXY x hxY hxX => hXY x hxX hxY
        exact List.Pairwise.forall hsymm hpair hK hK' heq ek hekK hekK'
    rw [hKK']
    exact hv

/-- Any phase-1 agent whose request is not `FORWARD` is committed: it
records a self-loop, which is the unique (length-1) cycle of its weak
component, and the grid id at the loop node is the agent's own id. -/
theorem nonforward_committed (w : Warehouse)
    (actions : List (Action × List Nat)) (hW : Wf w)
    (hlen : actions.length = w.agents.length) {k : Nat} {aL a1 : Agent}
    (haL : ((w.withActions actions).agents)[k]? = some aL)
    (haL1 : ((w.withActions actions).precancelAgent aL).1 = a1)
    (hreq : ¬ a1.reqAction = Action.FORWARD) :
    a1.id ∈ (w.withActions actions).committedIds
      ((w.withActions actions).phase1).2 := by
  have hklt : k < w.agents.length := by
    have h2 := (List.getElem?_eq_some_iff.mp haL).1
    show k < w.agents.length
    calc k < (loadActions w.msgBits w.agents actions).length := h2
      _ = w.agents.length := by rw [loadActions_length, hlen, Nat.min_self]
  have haorig : w.agents[k]? = some w.agents[k] := List.getElem?_eq_some_iff.mpr ⟨hklt, rfl⟩
  have hact : actions[k]? = some actions[k] :=
    List.getElem?_eq_some_iff.mpr ⟨by omega, rfl⟩
  have hload := loadActions_getElem? w.msgBits w.agents actions k
    w.agents[k] actions[k] haorig hact
  have haLval : aL = (if w.msgBits > 0 then
      { w.agents[k] with reqAction := actions[k].1, message := actions[k].2 }
    else { w.agents[k] with reqAction := actions[k].1 }) := by
    have haL2 : (loadActions w.msgBits w.agents actions)[k]? = some aL := haL
    rw [hload] at haL2
    cases haL2
    rfl
  have haLx : aL.x = w.agents[k].x := by rw [haLval]; split <;> rfl
  have haLy : aL.y = w.agents[k].y := by rw [haLval]; split <;> rfl
  have haLid : aL.id = w.agents[k].id := by rw [haLval]; split <;> rfl
  -- the self-loop edge
  have hreq' : ((w.withActions actions).precancelAgent aL).1.reqAction
      ≠ Action.FORWARD := by rw [haL1]; exact hreq
  have hloop := precancel_selfloop_of_nonforward (w.withActions actions) aL hreq'
  have hek : (w.stepEdges actions)[k]?
      = some ((aL.x, aL.y), (aL.x, aL.y)) := by
    rw [show w.stepEdges actions = ((w.withActions actions).phase1).2 from rfl,
      phase1_snd_getElem? _ k aL haL, hloop]
  -- the component of the self-loop
  obtain ⟨cover, spec, hpair⟩ :=
    weakComponents_spec (stepEdges_nodup w actions hW hlen)
  have hekes : ((aL.x, aL.y), (aL.x, aL.y)) ∈ w.stepEdges actions :=
    List.mem_iff_getElem?.mpr ⟨k, hek⟩
  obtain ⟨K, hK, hekK⟩ := cover _ hekes
  obtain ⟨hKne, hKsub, hKnd, hKsat, hKchain⟩ := spec K hK
  have hKfst : (K.map Prod.fst).Nodup :=
    sub_nodup_map_fst (stepEdges_starts_nodup w actions hW hlen) hKnd hKsub
  have hsucc : succOf K (aL.x, aL.y) = some (aL.x, aL.y) :=
    succOf_of_mem hKfst hekK
  have hcycs : Cyclic K (aL.x, aL.y) :=
    ⟨1, Nat.one_pos, by rw [iterSucc_one]; exact hsucc⟩
  obtain ⟨cyc, hfc⟩ := findCycle_isSome_of_cyclic hcycs
  obtain ⟨t, hcyct, hceq⟩ := findCycle_some_spec hfc
  have hiters : iterSucc K 1 (aL.x, aL.y) = some (aL.x, aL.y) := by
    rw [iterSucc_one]; exact hsucc
  have horbs : ∀ x, OrbitMem K (aL.x, aL.y) x ↔ x = (aL.x, aL.y) := by
    intro x
    constructor
    · rintro ⟨kk, hkk⟩
      rw [cyclic_iter_mod Nat.one_pos hiters kk] at hkk
      simp [Nat.mod_one, iterSucc] at hkk
      exact hkk.symm
    · rintro rfl
      exact orbitMem_refl K _
  have huniq := cycle_unique_in_component hKfst hKchain hcyct hcycs
  obtain ⟨q, ⟨hq, hiter⟩, hmin⟩ := exists_min_period hcyct
  have hcs : cyc = [(aL.x, aL.y)] := by
    refine nodup_eq_singleton (hceq ▸ orbitFrom_nodup hq hiter hmin) ?_
    intro x
    rw [hceq, orbitFrom_mem_iff hq hiter hmin x, huniq x, horbs x]
  -- the grid id at the loop node is our agent's id
  have hgridv : (w.withActions actions).gridAgents aL.y aL.x = a1.id := by
    show w.gridAgents aL.y aL.x = a1.id
    rw [haLx, haLy,
      grid_at_agent w hW (List.getElem_mem hklt),
      ← haLid, ← (precancel_core (w.withActions actions) aL).2.2.1, haL1]
  have hid1 : a1.id = k + 1 := by
    rw [← haL1, (precancel_core (w.withActions actions) aL).2.2.1, haLid]
    exact agents_id_at w hW k w.agents[k] haorig
  -- a1 is committed after all
  have hcommit : a1.id ∈ (w.withActions actions).componentCommit K := by
    unfold Warehouse.componentCommit
    rw [hfc]
    show a1.id ∈ (if cyc.length = 2 then []
      else (cyc.map (fun n =>
        (w.withActions actions).gridAgents n.2 n.1)).filter
          (fun i => decide (0 < i)))
    rw [hcs]
    rw [if_neg (by simp)]
    simp only [List.map_cons, List.map_nil]
    simp [hgridv, hid1]
  exact committedIds_mem.mpr ⟨K, hK, hcommit⟩

/-- C4: for every joint action on a well-formed state, every agent that
conflict resolution fails to commit (and therefore forces to `NOOP`) had
`req_action == Action.FORWARD` at that point — the assertion of line 767
never fires.  Agents requesting `NOOP`/`LEFT`/`RIGHT`/`TOGGLE_LOAD`, and
agents pre-cancelled by the standing-shelf rule, record a self-loop; a
self-loop is a length-1 cycle, the unique cycle of its weak component
(`≠ 2`), so the grid id at its node — the agent's own id — is always
committed. -/
theorem forced_noop_only_forward (w : Warehouse)
    (actions : List (Action × List Nat)) (hW : Wf w)
    (hlen : actions.length = w.agents.length) :
    (w.withActions actions).forcedNoopAssert := by
  intro a1 ha1 hncom
  by_contra hreq
  obtain ⟨k, hk⟩ := List.mem_iff_getElem?.mp ha1
  -- the loaded agent behind the phase-1 record
  have hk' : (((w.withActions actions).agents)[k]?).map
      (fun a => ((w.withActions actions).precancelAgent a).1) = some a1 := by
    have h1 : ((w.withActions actions).phase1).1[k]?
        = (((w.withActions actions).agents)[k]?).map
          (fun a => ((w.withActions actions).precancelAgent a).1) := by
      unfold Warehouse.phase1
      simp only [List.getElem?_map, List.map_map]
      rfl
    rw [← h1, hk]
  obtain ⟨aL, haL, haL1⟩ : ∃ aL, ((w.withActions actions).agents)[k]? = some aL
      ∧ ((w.withActions actions).precancelAgent aL).1 = a1 := by
    cases hx : ((w.withActions actions).agents)[k]? with
    | none => rw [hx] at hk'; cases hk'
    | some v =>
      rw [hx] at hk'
      exact ⟨v, rfl, by simpa using hk'⟩
  exact hncom (nonforward_committed w actions hW hlen haL haL1 hreq)

/-- The loaded form of the agent at an index, with its stable fields. -/
theorem loaded_at (w : Warehouse) (actions : List (Action × List Nat))
    (hlen : actions.length = w.agents.length) (k : Nat) (a : Agent)
    (ha : w.agents[k]? = some a) :
    ∃ aL, ((w.withActions actions).agents)[k]? = some aL ∧
      aL.x = a.x ∧ aL.y = a.y ∧ aL.id = a.id ∧ aL.dir = a.dir ∧
      aL.carryingShelf = a.carryingShelf := by
  have hklt : k < w.agents.length := (List.getElem?_eq_some_iff.mp ha).1
  have hact : actions[k]? = some actions[k] :=
    List.getElem?_eq_some_iff.mpr ⟨by omega, rfl⟩
  have hload := loadActions_getElem? w.msgBits w.agents actions k
    a actions[k] ha hact
  refine ⟨_, hload, ?_, ?_, ?_, ?_, ?_⟩ <;> (split <;> rfl)

/-- An uncommitted agent finishes the step on its own cell. -/
theorem uncommitted_stays (w : Warehouse)
    (actions : List (Action × List Nat)) (pick : Nat → Nat)
    (hlen : actions.length = w.agents.length)
    (k : Nat) (a : Agent) (ha : w.agents[k]? = some a)
    (hnc : a.id ∉ (w.withActions actions).committedIds
      ((w.withActions actions).phase1).2) :
    (((w.step actions pick).state.agents)[k]?).map (fun b => (b.x, b.y))
      = some (a.x, a.y) := by
  obtain ⟨aL, haL, hx, hy, hid, hdir, hcar⟩ := loaded_at w actions hlen k a ha
  have hres := resolvedAgents_getElem? (w.withActions actions) k aL haL
  have hc := precancel_core (w.withActions actions) aL
  have hidp : ((w.withActions actions).precancelAgent aL).1.id = a.id := by
    rw [hc.2.2.1, hid]
  rw [hidp, if_neg hnc] at hres
  rw [step_position w actions pick k _ hres]
  have h2 : ((w.withActions actions).precancelAgent aL).1.x = a.x := by
    rw [hc.1, hx]
  have h3 : ((w.withActions actions).precancelAgent aL).1.y = a.y := by
    rw [hc.2.1, hy]
  simp [h2, h3]

/-- A committed agent finishes the step on its recorded edge target. -/
theorem committed_moves (w : Warehouse)
    (actions : List (Action × List Nat)) (pick : Nat → Nat)
    (hlen : actions.length = w.agents.length)
    (k : Nat) (a : Agent) (ha : w.agents[k]? = some a)
    (ek : IntentEdge) (hek : (w.stepEdges actions)[k]? = some ek)
    (hcom : a.id ∈ (w.withActions actions).committedIds
      ((w.withActions actions).phase1).2) :
    (((w.step actions pick).state.agents)[k]?).map (fun b => (b.x, b.y))
      = some ek.2 := by
  obtain ⟨aL, haL, hx, hy, hid, hdir, hcar⟩ := loaded_at w actions hlen k a ha
  have hres := resolvedAgents_getElem? (w.withActions actions) k aL haL
  have hc := precancel_core (w.withActions actions) aL
  have hidp : ((w.withActions actions).precancelAgent aL).1.id = a.id := by
    rw [hc.2.2.1, hid]
  rw [hidp, if_pos hcom] at hres
  rw [step_position w actions pick k _ hres]
  have hek' : (w.stepEdges actions)[k]?
      = some ((w.withActions actions).precancelAgent aL).2 :=
    phase1_snd_getElem? _ k aL haL
  rw [hek] at hek'
  have hek2 : ek = ((w.withActions actions).precancelAgent aL).2 := by
    cases hek'
    rfl
  rw [hek2]
  exact congrArg some (precancel_move_eq (w.withActions actions) aL)

/-- A duplicate-free list whose membership is a two-point set has length
two. -/
theorem nodup_length_pair {l : List Cell} {u v : Cell} (hnd : l.Nodup)
    (huv : u ≠ v) (hmem : ∀ x, x ∈ l ↔ (x = u ∨ x = v)) : l.length = 2 := by
  have h1 : l.toFinset = {u, v} := by
    ext x
    simp [hmem x]
  have h2 : l.toFinset.card = 2 := by
    rw [h1, Finset.card_insert_of_not_mem (by simp [huv])]
    simp
  rw [← List.toFinset_card_of_nodup hnd, h2]

/-- C2: two agents that request swapping into each other's cells record a
2-cycle; the cycle found for their weak component then has length exactly
2, so the component commits nobody: every agent whose edge lies in that
component — the two swappers included — is forced to `NOOP` and ends the
step at its pre-step position. -/
theorem swap_cycle_rejected (w : Warehouse)
    (actions : List (Action × List Nat)) (pick : Nat → Nat) (hW : Wf w)
    (hlen : actions.length = w.agents.length)
    (i j : Nat) (pi pj : Cell) (hpij : pi ≠ pj)
    (hei : (w.stepEdges actions)[i]? = some (pi, pj))
    (hej : (w.stepEdges actions)[j]? = some (pj, pi)) :
    ∃ K, K ∈ weakComponents (w.stepEdges actions) ∧ (pi, pj) ∈ K ∧
      (pj, pi) ∈ K ∧
      ∀ (k : Nat) (ek : IntentEdge) (a : Agent),
        (w.stepEdges actions)[k]? = some ek → ek ∈ K →
        w.agents[k]? = some a →
        a.id ∉ (w.withActions actions).committedIds
          ((w.withActions actions).phase1).2 ∧
        (((w.step actions pick).state.agents)[k]?).map (fun b => (b.x, b.y))
          = some (a.x, a.y) := by
  obtain ⟨cover, spec, hpair⟩ :=
    weakComponents_spec (stepEdges_nodup w actions hW hlen)
  have heies : (pi, pj) ∈ w.stepEdges actions :=
    List.mem_iff_getElem?.mpr ⟨i, hei⟩
  have hejes : (pj, pi) ∈ w.stepEdges actions :=
    List.mem_iff_getElem?.mpr ⟨j, hej⟩
  obtain ⟨K, hK, hiK⟩ := cover _ heies
  obtain ⟨hKne, hKsub, hKnd, hKsat, hKchain⟩ := spec K hK
  have hjK : (pj, pi) ∈ K := by
    by_contra hno
    have hsh : sharesNode (pj, pi) (pi, pj) = true := by
      unfold sharesNode
      simp
    rw [hKsat (pj, pi) hejes hno (pi, pj) hiK] at hsh
    cases hsh
  have hKfst : (K.map Prod.fst).Nodup :=
    sub_nodup_map_fst (stepEdges_starts_nodup w actions hW hlen) hKnd hKsub
  have hsucci : succOf K pi = some pj := succOf_of_mem hKfst hiK
  have hsuccj : succOf K pj = some pi := succOf_of_mem hKfst hjK
  have hiter2 : iterSucc K 2 pi = some pi := by
    show (match succOf K pi with
      | none => none
      | some m => iterSucc K 1 m) = some pi
    rw [hsucci]
    show iterSucc K 1 pj = some pi
    rw [iterSucc_one]
    exact hsuccj
  have hcycp : Cyclic K pi := ⟨2, by omega, hiter2⟩
  obtain ⟨cyc, hfc⟩ := findCycle_isSome_of_cyclic hcycp
  obtain ⟨t, hcyct, hceq⟩ := findCycle_some_spec hfc
  have horb2 : ∀ x, OrbitMem K pi x ↔ (x = pi ∨ x = pj) := by
    intro x
    constructor
    · rintro ⟨kk, hkk⟩
      rw [cyclic_iter_mod (by omega) hiter2 kk] at hkk
      rcases Nat.mod_two_eq_zero_or_one kk with hm | hm
      · rw [hm] at hkk
        left
        simpa [iterSucc] using hkk.symm
      · rw [hm, iterSucc_one, hsucci] at hkk
        right
        simpa using hkk.symm
    · rintro (rfl | rfl)
      · exact orbitMem_refl K x
      · exact ⟨1, by rw [iterSucc_one]; exact hsucci⟩
  have huniq := cycle_unique_in_component hKfst hKchain hcyct hcycp
  obtain ⟨q, ⟨hq, hiter⟩, hmin⟩ := exists_min_period hcyct
  have hlen2 : cyc.length = 2 := by
    refine nodup_length_pair (hceq ▸ orbitFrom_nodup hq hiter hmin) hpij ?_
    intro x
    rw [hceq, orbitFrom_mem_iff hq hiter hmin x, huniq x, horb2 x]
  have hcommitK : (w.withActions actions).componentCommit K = [] := by
    unfold Warehouse.componentCommit
    rw [hfc]
    show (if cyc.length = 2 then []
      else (cyc.map (fun n =>
        (w.withActions actions).gridAgents n.2 n.1)).filter
          (fun i => decide (0 < i))) = []
    rw [if_pos hlen2]
  refine ⟨K, hK, hiK, hjK, ?_⟩
  intro k ek a hek hekK ha
  have hnc : a.id ∉ (w.withActions actions).committedIds
      ((w.withActions actions).phase1).2 := by
    intro hcom
    have hown := committed_only_own w actions hW hlen k a ha ek hek K hK hekK hcom
    rw [hcommitK] at hown
    cases hown
  exact ⟨hnc, uncommitted_stays w actions pick hlen k a ha hnc⟩

/-- Witness for C4 at the fresh two-agent state `wTwo0` with one `FORWARD`
and one `TOGGLE_LOAD` request. -/
theorem forced_noop_only_forward_witness :
    ([((Action.FORWARD : Action), ([] : List Nat)),
        (Action.TOGGLE_LOAD, [])].length = wTwo0.agents.length) ∧
    (wTwo0.withActions
      [(Action.FORWARD, []), (Action.TOGGLE_LOAD, [])]).forcedNoopAssert :=
  ⟨by decide,
    forced_noop_only_forward wTwo0
      [(Action.FORWARD, []), (Action.TOGGLE_LOAD, [])]
      ⟨by decide, by decide, rfl⟩ (by decide)⟩

/-- Witness for C2 at `wSwap0`: the two agents at `(1,2)` and `(2,2)` both
request `FORWARD` into each other; agent 1 ends the step still at `(1,2)`. -/
theorem swap_cycle_rejected_witness :
    (([((Action.FORWARD : Action), ([] : List Nat)),
        (Action.FORWARD, [])]).length = wSwap0.agents.length ∧
      ((1, 2) : Cell) ≠ (2, 2)) ∧
    ((((wSwap0.step [(Action.FORWARD, []), (Action.FORWARD, [])]
        pickOne).state.agents)[0]?).map (fun b => (b.x, b.y))
      = some (1, 2)) := by
  refine ⟨⟨by decide, by decide⟩, ?_⟩
  obtain ⟨K, hK, hmi, hmj, hall⟩ := swap_cycle_rejected wSwap0
    [(Action.FORWARD, []), (Action.FORWARD, [])] pickOne
    ⟨by decide, by decide, rfl⟩ (by decide) 0 1 (1, 2) (2, 2)
    (by decide) (by decide) (by decide)
  exact (hall 0 ((1, 2), (2, 2))
    ⟨1, none, none, 1, 2, Direction.RIGHT, [], Action.NOOP, none, false⟩
    (by decide) hmi (by decide)).2

/-- Two duplicate-free lists with the same membership have the same
length. -/
theorem nodup_length_eq {l m : List Cell} (hl : l.Nodup) (hm : m.Nodup)
    (h : ∀ x, x ∈ l ↔ x ∈ m) : l.length = m.length := by
  rw [← List.toFinset_card_of_nodup hl, ← List.toFinset_card_of_nodup hm]
  congr 1
  ext x
  simp [h x]

/-- C3: when the recorded edges contain a rotational cycle through three or
more pairwise-distinct cells, the cycle search of that weak component finds
exactly those cells — more than two — so every agent standing on one of
them commits and ends the step on its requested target cell. -/
theorem rotation_cycle_commits (w : Warehouse)
    (actions : List (Action × List Nat)) (pick : Nat → Nat) (hW : Wf w)
    (hlen : actions.length = w.agents.length)
    (ps : List Cell) (hm : 3 ≤ ps.length) (hnd : ps.Nodup)
    (hedges : ∀ i ∈ List.range ps.length,
      (ps.getD i (0, 0), ps.getD ((i + 1) % ps.length) (0, 0))
        ∈ w.stepEdges actions) :
    ∀ (k : Nat) (ek : IntentEdge) (a : Agent),
      (w.stepEdges actions)[k]? = some ek → ek.1 ∈ ps →
      w.agents[k]? = some a →
      a.id ∈ (w.withActions actions).committedIds
        ((w.withActions actions).phase1).2 ∧
      (((w.step actions pick).state.agents)[k]?).map (fun b => (b.x, b.y))
        = some ek.2 := by
  obtain ⟨cover, spec, hpair⟩ :=
    weakComponents_spec (stepEdges_nodup w actions hW hlen)
  have hedges' : ∀ i, i < ps.length →
      (ps.getD i (0, 0), ps.getD ((i + 1) % ps.length) (0, 0))
        ∈ w.stepEdges actions :=
    fun i hi => hedges i (List.mem_range.mpr hi)
  -- the component of the first rotation edge
  obtain ⟨K, hK, h0K⟩ := cover _ (hedges' 0 (by omega))
  obtain ⟨hKne, hKsub, hKnd, hKsat, hKchain⟩ := spec K hK
  have hKfst : (K.map Prod.fst).Nodup :=
    sub_nodup_map_fst (stepEdges_starts_nodup w actions hW hlen) hKnd hKsub
  -- all rotation edges live in this component
  have hallK : ∀ i, i < ps.length →
      (ps.getD i (0, 0), ps.getD ((i + 1) % ps.length) (0, 0)) ∈ K := by
    intro i
    induction i with
    | zero => intro _; exact h0K
    | succ i' ih =>
      intro hi
      have hiK := ih (by omega)
      by_contra hno
      have hsh : sharesNode
          (ps.getD (i' + 1) (0, 0),
            ps.getD ((i' + 1 + 1) % ps.length) (0, 0))
          (ps.getD i' (0, 0), ps.getD ((i' + 1) % ps.length) (0, 0))
          = true := by
        unfold sharesNode
        simp only [Bool.or_eq_true, beq_iff_eq]
        left; left; right
        show ps.getD (i' + 1) (0, 0) = ps.getD ((i' + 1) % ps.length) (0, 0)
        rw [Nat.mod_eq_of_lt hi]
      rw [hKsat _ (hedges' (i' + 1) hi) hno _ hiK] at hsh
      cases hsh
  have hsucc : ∀ i, i < ps.length →
      succOf K (ps.getD i (0, 0))
        = some (ps.getD ((i + 1) % ps.length) (0, 0)) :=
    fun i hi => succOf_of_mem hKfst (hallK i hi)
  -- iterating the successor walks the rotation
  have hiterk : ∀ c i, i < ps.length →
      iterSucc K c (ps.getD i (0, 0))
        = some (ps.getD ((i + c) % ps.length) (0, 0)) := by
    intro c
    induction c with
    | zero =>
      intro i hi
      simp [iterSucc, Nat.mod_eq_of_lt hi]
    | succ c' ih =>
      intro i hi
      show (match succOf K (ps.getD i (0, 0)) with
        | none => none
        | some m => iterSucc K c' m) = _
      rw [hsucc i hi]
      show iterSucc K c' (ps.getD ((i + 1) % ps.length) (0, 0)) = _
      rw [ih ((i + 1) % ps.length) (Nat.mod_lt _ (by omega))]
      congr 2
      rw [Nat.mod_add_mod]
      congr 1
      omega
  have hiterm : iterSucc K ps.length (ps.getD 0 (0, 0))
      = some (ps.getD 0 (0, 0)) := by
    rw [hiterk ps.length 0 (by omega)]
    simp
  have hcycp : Cyclic K (ps.getD 0 (0, 0)) := ⟨ps.length, by omega, hiterm⟩
  obtain ⟨cyc, hfc⟩ := findCycle_isSome_of_cyclic hcycp
  obtain ⟨t, hcyct, hceq⟩ := findCycle_some_spec hfc
  -- the orbit of the base point is exactly the rotation's cell set
  have horbp : ∀ x, OrbitMem K (ps.getD 0 (0, 0)) x ↔ x ∈ ps := by
    intro x
    constructor
    · rintro ⟨c, hc⟩
      rw [hiterk c 0 (by omega)] at hc
      have hcm : (0 + c) % ps.length < ps.length := Nat.mod_lt _ (by omega)
      rw [List.getD_eq_getElem _ _ hcm] at hc
      simp only [Option.some.injEq] at hc
      exact hc ▸ List.getElem_mem hcm
    · intro hx
      obtain ⟨idx, hidx⟩ := List.mem_iff_getElem?.mp hx
      have hlt : idx < ps.length := (List.getElem?_eq_some_iff.mp hidx).1
      refine ⟨idx, ?_⟩
      rw [hiterk idx 0 (by omega)]
      rw [Nat.zero_add, Nat.mod_eq_of_lt hlt, List.getD_eq_getElem _ _ hlt]
      rw [(List.getElem?_eq_some_iff.mp hidx).2]
  have huniq := cycle_unique_in_component hKfst hKchain hcyct hcycp
  obtain ⟨q, ⟨hq, hiter⟩, hmin⟩ := exists_min_period hcyct
  have hcycmem : ∀ x, x ∈ cyc ↔ x ∈ ps := by
    intro x
    rw [hceq, orbitFrom_mem_iff hq hiter hmin x, huniq x, horbp x]
  have hclen : cyc.length = ps.length :=
    nodup_length_eq (hceq ▸ orbitFrom_nodup hq hiter hmin) hnd hcycmem
  intro k ek a hek hstart ha
  -- agent k is committed: its id is the grid entry at its cyc node
  have hstarteq : ek.1 = (a.x, a.y) :=
    stepEdges_start_eq w actions hlen k a ha ek hek
  have hgridv : (w.withActions actions).gridAgents ek.1.2 ek.1.1 = a.id := by
    show w.gridAgents ek.1.2 ek.1.1 = a.id
    rw [hstarteq]
    exact grid_at_agent w hW
      (by
        obtain ⟨hlt, hv⟩ := List.getElem?_eq_some_iff.mp ha
        exact hv ▸ List.getElem_mem hlt)
  have hid1 : a.id = k + 1 := agents_id_at w hW k a ha
  have hcommit : a.id ∈ (w.withActions actions).componentCommit K := by
    unfold Warehouse.componentCommit
    rw [hfc]
    show a.id ∈ (if cyc.length = 2 then []
      else (cyc.map (fun n =>
        (w.withActions actions).gridAgents n.2 n.1)).filter
          (fun i => decide (0 < i)))
    rw [if_neg (by omega)]
    refine List.mem_filter.mpr ⟨?_, by simp [hid1]⟩
    exact List.mem_map.mpr ⟨ek.1, (hcycmem ek.1).mpr hstart, hgridv⟩
  have hcom : a.id ∈ (w.withActions actions).committedIds
      ((w.withActions actions).phase1).2 :=
    committedIds_mem.mpr ⟨K, hK, hcommit⟩
  exact ⟨hcom, committed_moves w actions pick hlen k a ha ek hek hcom⟩

/-- Witness for C3 at `wRot0`: four agents on the square
`(1,1) → (2,1) → (2,2) → (1,2) → (1,1)` all request `FORWARD`; agent 1
ends the step on `(2,1)`, its requested target. -/
theorem rotation_cycle_commits_witness :
    ((List.replicate 4 ((Action.FORWARD : Action), ([] : List Nat))).length
        = wRot0.agents.length ∧
      3 ≤ ([(1, 1), (2, 1), (2, 2), (1, 2)] : List Cell).length) ∧
    ((((wRot0.step (List.replicate 4 (Action.FORWARD, []))
        pickOne).state.agents)[0]?).map (fun b => (b.x, b.y))
      = some (2, 1)) := by
  refine ⟨⟨by decide, by decide⟩, ?_⟩
  have h := rotation_cycle_commits wRot0
    (List.replicate 4 (Action.FORWARD, [])) pickOne
    ⟨by decide, by decide, rfl⟩ (by decide)
    [(1, 1), (2, 1), (2, 2), (1, 2)] (by decide) (by decide) (by decide)
  exact (h 0 ((1, 1), (2, 1))
    ⟨1, none, none, 1, 1, Direction.RIGHT, [], Action.NOOP, none, false⟩
    (by decide) (by decide) (by decide)).2

/-! ### Distinctness of step positions -/

/-- Chain entries are walk values. -/
theorem isChain_iter {es : List IntentEdge} {n : Cell} {l : List Cell}
    (h : IsChain es n l) :
    ∀ i x, l[i]? = some x → iterSucc es i n = some x := by
  induction h with
  | sink hs =>
    intro i x hx
    cases i with
    | zero =>
      simp at hx
      rw [hx]
      rfl
    | succ i' => simp at hx
  | step hs hc ih =>
    intro i x hx
    cases i with
    | zero =>
      simp at hx
      rw [hx]
      rfl
    | succ i' =>
      rw [List.getElem?_cons_succ] at hx
      show (match succOf es _ with
        | none => none
        | some m => iterSucc es i' m) = some x
      rw [hs]
      exact ih i' x hx

/-- In an acyclic edge set, a chain has no repeated node. -/
theorem isChain_nodup {es : List IntentEdge} {n : Cell} {l : List Cell}
    (h : IsChain es n l) (hacyc : ∀ c, ¬ Cyclic es c) : l.Nodup := by
  rw [List.nodup_iff_getElem?_ne_getElem?]
  intro i j hij hjl
  by_contra heq
  have hj : l[j]? = some l[j] := List.getElem?_eq_some_iff.mpr ⟨hjl, rfl⟩
  have hi : l[i]? = some l[j] := by
    rw [heq, hj]
  have h1 := isChain_iter h i _ hi
  have h2 := isChain_iter h j _ hj
  have hper : iterSucc es (j - i) l[j] = some l[j] := by
    have h3 : iterSucc es j n
        = (iterSucc es i n).bind (iterSucc es (j - i)) := by
      rw [← iterSucc_add]; congr 1; omega
    rw [h1, h2] at h3
    simpa using h3.symm
  exact hacyc l[j] ⟨j - i, by omega, hper⟩

/-- A nonempty longest path in an acyclic component is a maximal chain. -/
theorem dag_longest_path_chain {K : List IntentEdge}
    (hacyc : findCycle K = none) :
    dag_longest_path K = [] ∨
    ∃ n₀, IsChain K n₀ (dag_longest_path K) := by
  unfold dag_longest_path
  rcases foldl_choose_mem ((nodesOf K).map (chainFrom K K.length)) []
    with hf | hf
  · exact Or.inl hf
  · obtain ⟨n₀, _, hchain⟩ := List.mem_map.mp hf
    refine Or.inr ⟨n₀, ?_⟩
    rw [← hchain]
    refine chainFrom_isChain K.length n₀ ?_
    cases hit : iterSucc K (K.length + 1) n₀ with
    | none => rfl
    | some t =>
      exfalso
      exact no_cyclic_of_findCycle_none hacyc t (exists_cyclic_of_long_walk hit)

/-- Refined commit membership: the witnessing node lies on the structure
the commit branch actually read. -/
theorem componentCommit_node {w : Warehouse} {K : List IntentEdge} {v : Nat}
    (h : v ∈ w.componentCommit K) :
    v ≠ 0 ∧ ∃ n, w.gridAgents n.2 n.1 = v ∧
      ((∃ cyc, findCycle K = some cyc ∧ cyc.length ≠ 2 ∧ n ∈ cyc) ∨
        (findCycle K = none ∧ n ∈ dag_longest_path K)) := by
  unfold Warehouse.componentCommit at h
  cases hfc : findCycle K with
  | some cyc =>
    rw [hfc] at h
    replace h : v ∈ (if cyc.length = 2 then []
        else (cyc.map (fun n => w.gridAgents n.2 n.1)).filter
          (fun i => decide (0 < i))) := h
    by_cases hl : cyc.length = 2
    · rw [if_pos hl] at h; cases h
    · rw [if_neg hl] at h
      obtain ⟨hmem, hpos⟩ := List.mem_filter.mp h
      obtain ⟨n, hn, hvn⟩ := List.mem_map.mp hmem
      have hv0 : 0 < v := by simpa using hpos
      exact ⟨by omega, n, hvn, Or.inl ⟨cyc, rfl, hl, hn⟩⟩
  | none =>
    rw [hfc] at h
    replace h : v ∈ ((dag_longest_path K).map
        (fun n => w.gridAgents n.2 n.1)).filter (fun i => !(i == 0)) := h
    obtain ⟨hmem, hpos⟩ := List.mem_filter.mp h
    obtain ⟨n, hn, hvn⟩ := List.mem_map.mp hmem
    exact ⟨by simpa using hpos, n, hvn, Or.inr ⟨rfl, hn⟩⟩

/-- The entry layer points back at the agent: a cell whose grid value is
the id of the agent stored at index `k` is that agent's cell. -/
theorem grid_id_position (w : Warehouse) (hW : Wf w) {k : Nat} {a : Agent}
    (ha : w.agents[k]? = some a) {n : Cell}
    (hgrid : w.gridAgents n.2 n.1 = a.id) : n = (a.x, a.y) := by
  have hid1 : a.id = k + 1 := agents_id_at w hW k a ha
  rw [hW.gridA] at hgrid
  rcases recalcAgentLayer_cases w.agents n.2 n.1 with h0 | hb0
  · rw [h0] at hgrid
    omega
  · obtain ⟨b, hb, hby, hbx, hbid⟩ := hb0
    have hba : b.id = a.id := by rw [hbid, hgrid]
    obtain ⟨j, hj⟩ := List.mem_iff_getElem?.mp hb
    have hjk : j = k := agents_id_inj w hW hj ha hba
    subst hjk
    rw [ha] at hj
    cases hj
    have : n = (n.1, n.2) := rfl
    rw [this, ← hby, ← hbx]

/-- `modifyAt` keeps the length. -/
theorem modifyAt_length {α : Type} (l : List α) (k : Nat) (f : α → α) :
    (modifyAt l k f).length = l.length := by
  unfold modifyAt
  cases l[k]? <;> simp

/-- One loop iteration keeps the number of agents. -/
theorem applyAgentAction_agents_length (w : Warehouse)
    (c : List (Option (Nat × Nat))) (st : MutState) (i : Nat) :
    (applyAgentAction w c st i).agents.length = st.agents.length := by
  unfold applyAgentAction
  cases h : st.agents[i]? with
  | none => rfl
  | some a0 =>
    simp only []
    split_ifs <;> simp [modifyAt_length]

/-- The whole loop keeps the number of agents. -/
theorem foldl_applyAgentAction_length (w : Warehouse)
    (c : List (Option (Nat × Nat))) (idxs : List Nat) (st : MutState) :
    ((idxs.foldl (applyAgentAction w c) st).agents).length
      = st.agents.length := by
  induction idxs generalizing st with
  | nil => rfl
  | cons j js ih => rw [List.foldl_cons, ih, applyAgentAction_agents_length]

/-- Lists with the same position images have the same length. -/
theorem length_eq_of_map_pos {l m : List Agent}
    (h : ∀ i : Nat, (l[i]?).map (fun a => (a.x, a.y))
      = (m[i]?).map (fun a => (a.x, a.y))) : l.length = m.length := by
  by_contra hne
  rcases Nat.lt_or_ge l.length m.length with hlt | hge
  · have h1 := h l.length
    rw [show l[l.length]? = none from List.getElem?_eq_none (Nat.le_refl _),
      List.getElem?_eq_getElem hlt] at h1
    simp at h1
  · have hlt : m.length < l.length := by omega
    have h1 := h m.length
    rw [show m[m.length]? = none from List.getElem?_eq_none (Nat.le_refl _),
      List.getElem?_eq_getElem hlt] at h1
    simp at h1

/-- A step keeps the number of agents. -/
theorem step_agents_length (w : Warehouse)
    (actions : List (Action × List Nat)) (pick : Nat → Nat)
    (hlen : actions.length = w.agents.length) :
    ((w.step actions pick).state.agents).length = w.agents.length := by
  have h1 : ((w.step actions pick).state.agents).length
      = ((w.actionPass actions).agents).length := by
    refine length_eq_of_map_pos ?_
    intro i
    exact deliveryFold_positions w.rewardType w.shelfOriginalCoordinates
      pick w.goals (w.deliveryInit (w.actionPass actions)) i
  rw [h1]
  show ((((w.withActions actions).midStep).applyPass).agents).length = _
  unfold Warehouse.applyPass
  rw [foldl_applyAgentAction_length]
  show ((w.withActions actions).resolvedAgents).length = _
  rw [resolvedAgents_length]
  show (loadActions w.msgBits w.agents actions).length = _
  rw [loadActions_length, hlen, Nat.min_self]

/-- A step records one edge per agent. -/
theorem stepEdges_length (w : Warehouse)
    (actions : List (Action × List Nat))
    (hlen : actions.length = w.agents.length) :
    (w.stepEdges actions).length = w.agents.length := by
  have := congrArg List.length (stepEdges_starts w actions hlen)
  simpa using this

/-- In a duplicate-free list, positions of a value are unique. -/
theorem nodup_getElem?_inj {α : Type} {l : List α} (hnd : l.Nodup)
    {i j : Nat} {x : α} (hi : l[i]? = some x) (hj : l[j]? = some x) :
    i = j := by
  by_contra hne
  rcases Nat.lt_or_ge i j with hl | hl
  · have hjl : j < l.length := (List.getElem?_eq_some_iff.mp hj).1
    have := List.nodup_iff_getElem?_ne_getElem?.mp hnd i j hl hjl
    rw [hi, hj] at this
    exact this rfl
  · have hl' : j < i := by omega
    have hil : i < l.length := (List.getElem?_eq_some_iff.mp hi).1
    have := List.nodup_iff_getElem?_ne_getElem?.mp hnd j i hl' hil
    rw [hi, hj] at this
    exact this rfl

/-- An edge whose start lies on a maximal chain points at the next chain
entry. -/
theorem chain_target_index {K : List IntentEdge} {n₀ : Cell} {P : List Cell}
    (hchain : IsChain K n₀ P) (hKfst : (K.map Prod.fst).Nodup)
    {e : IntentEdge} (heK : e ∈ K) (he1 : e.1 ∈ P) :
    ∃ i, P[i]? = some e.1 ∧ P[i + 1]? = some e.2 := by
  obtain ⟨i, hi⟩ := List.mem_iff_getElem?.mp he1
  have heK' : (e.1, e.2) ∈ K := by cases e; exact heK
  have hsucc : succOf K e.1 = some e.2 := succOf_of_mem hKfst heK'
  have hlenP : i < P.length := (List.getElem?_eq_some_iff.mp hi).1
  obtain ⟨z, hz, hzs⟩ := isChain_last hchain
  have hine : i ≠ P.length - 1 := by
    intro hie
    rw [hie] at hi
    rw [hi] at hz
    cases hz
    rw [hzs] at hsucc
    cases hsucc
  have hi1 : i + 1 < P.length := by omega
  have hP1 : P[i + 1]? = some P[i + 1] :=
    List.getElem?_eq_some_iff.mpr ⟨hi1, rfl⟩
  have hstep := isChain_succ hchain i e.1 P[i + 1] hi hP1
  rw [hsucc] at hstep
  refine ⟨i, hi, ?_⟩
  rw [hP1]
  simp only [Option.some.injEq] at hstep ⊢
  exact hstep.symm

/-- Cycle commit membership from a cycle node. -/
theorem commit_of_cyc_node {w : Warehouse} {K : List IntentEdge}
    {cyc : List Cell} (hfc : findCycle K = some cyc)
    (hl2 : cyc.length ≠ 2) {n : Cell} {v : Nat} (hn : n ∈ cyc)
    (hgrid : w.gridAgents n.2 n.1 = v) (hv : 0 < v) :
    v ∈ w.componentCommit K := by
  unfold Warehouse.componentCommit
  rw [hfc]
  show v ∈ (if cyc.length = 2 then []
    else (cyc.map (fun n => w.gridAgents n.2 n.1)).filter
      (fun i => decide (0 < i)))
  rw [if_neg hl2]
  exact List.mem_filter.mpr
    ⟨List.mem_map.mpr ⟨n, hn, hgrid⟩, by simpa using hv⟩

/-- Path commit membership from a path node. -/
theorem commit_of_path_node {w : Warehouse} {K : List IntentEdge}
    (hfc : findCycle K = none) {n : Cell} {v : Nat}
    (hn : n ∈ dag_longest_path K) (hgrid : w.gridAgents n.2 n.1 = v)
    (hv : v ≠ 0) : v ∈ w.componentCommit K := by
  unfold Warehouse.componentCommit
  rw [hfc]
  show v ∈ ((dag_longest_path K).map
    (fun n => w.gridAgents n.2 n.1)).filter (fun i => !(i == 0))
  exact List.mem_filter.mpr
    ⟨List.mem_map.mpr ⟨n, hn, hgrid⟩, by simpa using hv⟩

/-- Walk values below the minimal period determine their index. -/
theorem orbit_getD_inj {K : List IntentEdge} {t : Cell} {q : Nat}
    (hq : 0 < q) (hiter : iterSucc K q t = some t)
    (hmin : ∀ k, 0 < k → k < q → iterSucc K k t ≠ some t)
    {i j : Nat} (hi : i < q) (hj : j < q)
    (h : (iterSucc K i t).getD t = (iterSucc K j t).getD t) : i = j := by
  have hcyc : Cyclic K t := ⟨q, hq, hiter⟩
  by_contra hne
  rcases Nat.lt_or_ge i j with hl | hl
  · exact min_period_inj hq hiter hmin hl hj (by
      rw [cyclic_iter_eq_getD hcyc i, cyclic_iter_eq_getD hcyc j, h])
  · have hl' : j < i := by omega
    exact min_period_inj hq hiter hmin hl' hi (by
      rw [cyclic_iter_eq_getD hcyc i, cyclic_iter_eq_getD hcyc j, h])

/-- Advancing one cell around a cycle is injective on indices. -/
theorem rotation_mod_inj {q i j : Nat} (hq : 0 < q) (hi : i < q) (hj : j < q)
    (h : (i + 1) % q = (j + 1) % q) : i = j := by
  rcases Nat.lt_or_ge (i + 1) q with h1 | h1 <;>
    rcases Nat.lt_or_ge (j + 1) q with h2 | h2
  · rw [Nat.mod_eq_of_lt h1, Nat.mod_eq_of_lt h2] at h
    omega
  · have hjq : j + 1 = q := by omega
    rw [Nat.mod_eq_of_lt h1, hjq, Nat.mod_self] at h
    omega
  · have hiq : i + 1 = q := by omega
    rw [hiq, Nat.mod_self, Nat.mod_eq_of_lt h2] at h
    omega
  · omega

/-- An edge whose start lies on the orbit points at the orbit's next
entry. -/
theorem cyc_succ_target {K : List IntentEdge} {t : Cell} {q : Nat}
    (hq : 0 < q) (hiter : iterSucc K q t = some t)
    (hmin : ∀ k, 0 < k → k < q → iterSucc K k t ≠ some t)
    (hKfst : (K.map Prod.fst).Nodup) {e : IntentEdge} (heK : e ∈ K)
    (he1 : e.1 ∈ orbitFrom K t) :
    ∃ i, i < q ∧ e.1 = (iterSucc K i t).getD t ∧
      e.2 = (iterSucc K ((i + 1) % q) t).getD t := by
  rw [orbitFrom_eq hq hiter hmin] at he1
  obtain ⟨i, hir, hieq⟩ := List.mem_map.mp he1
  have hiq := List.mem_range.mp hir
  have heK' : (e.1, e.2) ∈ K := by cases e; exact heK
  have hsucc1 : succOf K e.1 = some e.2 := succOf_of_mem hKfst heK'
  have hsucc2 := cyclic_succ_step ⟨q, hq, hiter⟩ i
  rw [hieq] at hsucc2
  rw [hsucc1] at hsucc2
  have hmod : (iterSucc K (i + 1) t).getD t
      = (iterSucc K ((i + 1) % q) t).getD t := by
    rw [cyclic_iter_mod hq hiter (i + 1)]
  simp only [Option.some.injEq] at hsucc2
  exact ⟨i, hiq, hieq.symm, by rw [← hmod, ← hsucc2]⟩

/-- A committed agent of an acyclic component stands on the longest path,
and its edge points at the next path entry. -/
theorem commit_path_index (w : Warehouse)
    (actions : List (Action × List Nat)) (hW : Wf w)
    (hlen : actions.length = w.agents.length) {K : List IntentEdge}
    (hKfst : (K.map Prod.fst).Nodup) (hfc : findCycle K = none)
    {k : Nat} {a : Agent} {e : IntentEdge}
    (ha : w.agents[k]? = some a) (he : (w.stepEdges actions)[k]? = some e)
    (heK : e ∈ K)
    (hcom : a.id ∈ (w.withActions actions).componentCommit K) :
    ∃ i, (dag_longest_path K)[i]? = some e.1 ∧
      (dag_longest_path K)[i + 1]? = some e.2 := by
  obtain ⟨hne0, n, hgrid, hbr⟩ := componentCommit_node hcom
  have hgrid' : w.gridAgents n.2 n.1 = a.id := hgrid
  have hn_pos : n = (a.x, a.y) := grid_id_position w hW ha hgrid'
  have hstart : e.1 = (a.x, a.y) := stepEdges_start_eq w actions hlen k a ha e he
  have hn_e : n = e.1 := by rw [hn_pos, hstart]
  rcases hbr with ⟨cyc', hfc', _, _⟩ | ⟨_, hnP⟩
  · rw [hfc] at hfc'
    cases hfc'
  · rcases dag_longest_path_chain hfc with hPnil | ⟨n₀, hchain⟩
    · rw [hPnil] at hnP
      cases hnP
    · exact chain_target_index hchain hKfst heK (hn_e ▸ hnP)

/-- A committed agent of a cyclic component stands on the orbit, and its
edge points one step around it. -/
theorem commit_cyc_index (w : Warehouse)
    (actions : List (Action × List Nat)) (hW : Wf w)
    (hlen : actions.length = w.agents.length) {K : List IntentEdge}
    (hKfst : (K.map Prod.fst).Nodup) {cyc : List Cell} {t : Cell} {q : Nat}
    (hfc : findCycle K = some cyc) (hceq : cyc = orbitFrom K t)
    (hq : 0 < q) (hiter : iterSucc K q t = some t)
    (hmin : ∀ c, 0 < c → c < q → iterSucc K c t ≠ some t)
    {k : Nat} {a : Agent} {e : IntentEdge}
    (ha : w.agents[k]? = some a) (he : (w.stepEdges actions)[k]? = some e)
    (heK : e ∈ K)
    (hcom : a.id ∈ (w.withActions actions).componentCommit K) :
    ∃ i, i < q ∧ e.1 = (iterSucc K i t).getD t ∧
      e.2 = (iterSucc K ((i + 1) % q) t).getD t := by
  obtain ⟨hne0, n, hgrid, hbr⟩ := componentCommit_node hcom
  have hgrid' : w.gridAgents n.2 n.1 = a.id := hgrid
  have hn_pos : n = (a.x, a.y) := grid_id_position w hW ha hgrid'
  have hstart : e.1 = (a.x, a.y) := stepEdges_start_eq w actions hlen k a ha e he
  have hn_e : n = e.1 := by rw [hn_pos, hstart]
  rcases hbr with ⟨cyc', hfc', _, hncyc⟩ | ⟨hfc', _⟩
  · rw [hfc] at hfc'
    have hcc : cyc = cyc' := by
      injection hfc'
    refine cyc_succ_target hq hiter hmin hKfst heK ?_
    rw [← hceq, hcc]
    exact hn_e ▸ hncyc
  · rw [hfc] at hfc'
    cases hfc'

/-- Two committed agents of the same component with distinct starts have
distinct targets. -/
theorem committed_targets_ne (w : Warehouse)
    (actions : List (Action × List Nat)) (hW : Wf w)
    (hlen : actions.length = w.agents.length) {K : List IntentEdge}
    (hKnd : K.Nodup) (hKsub : ∀ x ∈ K, x ∈ w.stepEdges actions)
    {k l : Nat} {ak al : Agent} {ek el : IntentEdge}
    (hak : w.agents[k]? = some ak) (hal : w.agents[l]? = some al)
    (hek : (w.stepEdges actions)[k]? = some ek)
    (hel : (w.stepEdges actions)[l]? = some el)
    (hekK : ek ∈ K) (helK : el ∈ K)
    (hck : ak.id ∈ (w.withActions actions).componentCommit K)
    (hcl : al.id ∈ (w.withActions actions).componentCommit K)
    (hne : ek.1 ≠ el.1) : ek.2 ≠ el.2 := by
  have hKfst := sub_nodup_map_fst
    (stepEdges_starts_nodup w actions hW hlen) hKnd hKsub
  intro heq
  cases hfc : findCycle K with
  | none =>
    have hacyc := no_cyclic_of_findCycle_none hfc
    obtain ⟨i, hi1, hi2⟩ :=
      commit_path_index w actions hW hlen hKfst hfc hak hek hekK hck
    obtain ⟨j, hj1, hj2⟩ :=
      commit_path_index w actions hW hlen hKfst hfc hal hel helK hcl
    rcases dag_longest_path_chain hfc with hPnil | ⟨n₀, hchain⟩
    · rw [hPnil] at hi1
      cases hi1
    · have hnd := isChain_nodup hchain hacyc
      rw [heq] at hi2
      have hij : i + 1 = j + 1 := nodup_getElem?_inj hnd hi2 hj2
      have hij' : i = j := by omega
      subst hij'
      rw [hi1] at hj1
      injection hj1 with hj1'
      exact hne hj1'
  | some cyc =>
    obtain ⟨t, hcyct, hceq⟩ := findCycle_some_spec hfc
    obtain ⟨q, ⟨hq, hiter⟩, hmin⟩ := exists_min_period hcyct
    by_cases hl2 : cyc.length = 2
    · have hempty : (w.withActions actions).componentCommit K = [] := by
        unfold Warehouse.componentCommit
        rw [hfc]
        show (if cyc.length = 2 then []
          else (cyc.map (fun n =>
            (w.withActions actions).gridAgents n.2 n.1)).filter
              (fun i => decide (0 < i))) = []
        rw [if_pos hl2]
      rw [hempty] at hck
      cases hck
    · obtain ⟨i, hiq, hie1, hie2⟩ := commit_cyc_index w actions hW hlen
        hKfst hfc hceq hq hiter hmin hak hek hekK hck
      obtain ⟨j, hjq, hje1, hje2⟩ := commit_cyc_index w actions hW hlen
        hKfst hfc hceq hq hiter hmin hal hel helK hcl
      rw [hie2, hje2] at heq
      have hmodeq := orbit_getD_inj hq hiter hmin
        (Nat.mod_lt _ hq) (Nat.mod_lt _ hq) heq
      have hij := rotation_mod_inj hq hiq hjq hmodeq
      subst hij
      exact hne (by rw [hie1, hje1])

/-- A committed agent's target is never an uncommitted agent's cell (in
the same component): the cells the commit branch read all hold committed
agents. -/
theorem committed_target_ne_uncommitted_start (w : Warehouse)
    (actions : List (Action × List Nat)) (hW : Wf w)
    (hlen : actions.length = w.agents.length) {K : List IntentEdge}
    (hK : K ∈ weakComponents (w.stepEdges actions))
    (hKnd : K.Nodup) (hKsub : ∀ x ∈ K, x ∈ w.stepEdges actions)
    {k l : Nat} {ak al : Agent} {ek el : IntentEdge}
    (hak : w.agents[k]? = some ak) (hal : w.agents[l]? = some al)
    (hek : (w.stepEdges actions)[k]? = some ek)
    (hel : (w.stepEdges actions)[l]? = some el)
    (hekK : ek ∈ K) (helK : el ∈ K)
    (hck : ak.id ∈ (w.withActions actions).componentCommit K)
    (hcl : al.id ∉ (w.withActions actions).committedIds
      ((w.withActions actions).phase1).2) : ek.2 ≠ el.1 := by
  have hKfst := sub_nodup_map_fst
    (stepEdges_starts_nodup w actions hW hlen) hKnd hKsub
  intro heq
  have hstartl : el.1 = (al.x, al.y) :=
    stepEdges_start_eq w actions hlen l al hal el hel
  have hgridl : (w.withActions actions).gridAgents el.1.2 el.1.1 = al.id := by
    show w.gridAgents el.1.2 el.1.1 = al.id
    rw [hstartl]
    exact grid_at_agent w hW (by
      obtain ⟨hlt, hv⟩ := List.getElem?_eq_some_iff.mp hal
      exact hv ▸ List.getElem_mem hlt)
  have hpos : 0 < al.id := by
    rw [agents_id_at w hW l al hal]
    omega
  cases hfc : findCycle K with
  | none =>
    obtain ⟨i, hi1, hi2⟩ :=
      commit_path_index w actions hW hlen hKfst hfc hak hek hekK hck
    rw [heq] at hi2
    have hmem : el.1 ∈ dag_longest_path K :=
      List.mem_iff_getElem?.mpr ⟨i + 1, hi2⟩
    exact hcl (committedIds_mem.mpr
      ⟨K, hK, commit_of_path_node hfc hmem hgridl (by omega)⟩)
  | some cyc =>
    obtain ⟨t, hcyct, hceq⟩ := findCycle_some_spec hfc
    obtain ⟨q, ⟨hq, hiter⟩, hmin⟩ := exists_min_period hcyct
    by_cases hl2 : cyc.length = 2
    · have hempty : (w.withActions actions).componentCommit K = [] := by
        unfold Warehouse.componentCommit
        rw [hfc]
        show (if cyc.length = 2 then []
          else (cyc.map (fun n =>
            (w.withActions actions).gridAgents n.2 n.1)).filter
              (fun i => decide (0 < i))) = []
        rw [if_pos hl2]
      rw [hempty] at hck
      cases hck
    · obtain ⟨i, hiq, hie1, hie2⟩ := commit_cyc_index w actions hW hlen
        hKfst hfc hceq hq hiter hmin hak hek hekK hck
      have hmem : el.1 ∈ cyc := by
        rw [← heq, hie2, hceq, orbitFrom_eq hq hiter hmin]
        exact List.mem_map.mpr
          ⟨(i + 1) % q, List.mem_range.mpr (Nat.mod_lt _ hq), rfl⟩
      exact hcl (committedIds_mem.mpr
        ⟨K, hK, commit_of_cyc_node hfc hl2 hmem hgridl hpos⟩)

/-- C1 (amended part, proved): for every joint action applied by `step` on a
well-formed state, the post-step agents occupy pairwise distinct cells —
i.e. the agent layer holds at most one agent id per cell.  (The shelf-layer
clause and the coexistence-only-when-carrying clause of the original claim
are refuted by `step_shelf_overlap_after_delivery`.) -/
theorem step_agent_positions_distinct (w : Warehouse)
    (actions : List (Action × List Nat)) (pick : Nat → Nat) (hW : Wf w)
    (hlen : actions.length = w.agents.length) :
    ((w.step actions pick).state.agents).Pairwise
      (fun a b => (a.x, a.y) ≠ (b.x, b.y)) := by
  rw [List.pairwise_iff_getElem]
  intro k l hk hl hkl
  have hreslen := step_agents_length w actions pick hlen
  have hkn : k < w.agents.length := by omega
  have hln : l < w.agents.length := by omega
  have heslen := stepEdges_length w actions hlen
  have hkE : k < (w.stepEdges actions).length := by omega
  have hlE : l < (w.stepEdges actions).length := by omega
  obtain ⟨ak, hak⟩ : ∃ a, w.agents[k]? = some a :=
    ⟨w.agents[k], List.getElem?_eq_some_iff.mpr ⟨hkn, rfl⟩⟩
  obtain ⟨al, hal⟩ : ∃ a, w.agents[l]? = some a :=
    ⟨w.agents[l], List.getElem?_eq_some_iff.mpr ⟨hln, rfl⟩⟩
  obtain ⟨ek, hek⟩ : ∃ e, (w.stepEdges actions)[k]? = some e :=
    ⟨(w.stepEdges actions)[k], List.getElem?_eq_some_iff.mpr ⟨hkE, rfl⟩⟩
  obtain ⟨el, hel⟩ : ∃ e, (w.stepEdges actions)[l]? = some e :=
    ⟨(w.stepEdges actions)[l], List.getElem?_eq_some_iff.mpr ⟨hlE, rfl⟩⟩
  have hresk : ((w.step actions pick).state.agents)[k]?
      = some ((w.step actions pick).state.agents[k]) :=
    List.getElem?_eq_some_iff.mpr ⟨hk, rfl⟩
  have hresl : ((w.step actions pick).state.agents)[l]?
      = some ((w.step actions pick).state.agents[l]) :=
    List.getElem?_eq_some_iff.mpr ⟨hl, rfl⟩
  have hstartne : ek.1 ≠ el.1 := by
    intro heq
    have h1 : ((w.stepEdges actions).map Prod.fst)[k]? = some ek.1 := by
      simp [List.getElem?_map, hek]
    have h2 : ((w.stepEdges actions).map Prod.fst)[l]? = some el.1 := by
      simp [List.getElem?_map, hel]
    rw [heq] at h1
    have := nodup_getElem?_inj (stepEdges_starts_nodup w actions hW hlen) h1 h2
    omega
  intro heq
  by_cases hck : ak.id ∈ (w.withActions actions).committedIds
      ((w.withActions actions).phase1).2
  · by_cases hcl : al.id ∈ (w.withActions actions).committedIds
        ((w.withActions actions).phase1).2
    · -- both committed: both reach their distinct targets
      have hposk := committed_moves w actions pick hlen k ak hak ek hek hck
      have hposl := committed_moves w actions pick hlen l al hal el hel hcl
      rw [hresk] at hposk
      rw [hresl] at hposl
      simp only [Option.map_some', Option.some.injEq] at hposk hposl
      rw [hposk, hposl] at heq
      have hshare : sharesNode ek el = true := by
        unfold sharesNode
        simp only [Bool.or_eq_true, beq_iff_eq]
        exact Or.inr heq
      obtain ⟨cover, spec, _⟩ :=
        weakComponents_spec (stepEdges_nodup w actions hW hlen)
      obtain ⟨K, hK, hekK⟩ := cover ek (List.mem_iff_getElem?.mpr ⟨k, hek⟩)
      obtain ⟨_, hKsub, hKnd, hKsat, _⟩ := spec K hK
      have helK : el ∈ K := by
        by_contra hno
        have hfalse := hKsat el (List.mem_iff_getElem?.mpr ⟨l, hel⟩) hno ek hekK
        have htrue := sharesNode_symm hshare
        rw [hfalse] at htrue
        cases htrue
      have hckC := committed_only_own w actions hW hlen k ak hak ek hek
        K hK hekK hck
      have hclC := committed_only_own w actions hW hlen l al hal el hel
        K hK helK hcl
      exact committed_targets_ne w actions hW hlen hKnd hKsub hak hal hek hel
        hekK helK hckC hclC hstartne heq
    · -- k committed, l not: k's target is never an uncommitted cell
      have hposk := committed_moves w actions pick hlen k ak hak ek hek hck
      have hposl := uncommitted_stays w actions pick hlen l al hal hcl
      rw [hresk] at hposk
      rw [hresl] at hposl
      simp only [Option.map_some', Option.some.injEq] at hposk hposl
      rw [← stepEdges_start_eq w actions hlen l al hal el hel] at hposl
      rw [hposk, hposl] at heq
      have hshare : sharesNode ek el = true := by
        unfold sharesNode
        simp only [Bool.or_eq_true, beq_iff_eq]
        exact Or.inl (Or.inr heq)
      obtain ⟨cover, spec, _⟩ :=
        weakComponents_spec (stepEdges_nodup w actions hW hlen)
      obtain ⟨K, hK, hekK⟩ := cover ek (List.mem_iff_getElem?.mpr ⟨k, hek⟩)
      obtain ⟨_, hKsub, hKnd, hKsat, _⟩ := spec K hK
      have helK : el ∈ K := by
        by_contra hno
        have hfalse := hKsat el (List.mem_iff_getElem?.mpr ⟨l, hel⟩) hno ek hekK
        have htrue := sharesNode_symm hshare
        rw [hfalse] at htrue
        cases htrue
      have hckC := committed_only_own w actions hW hlen k ak hak ek hek
        K hK hekK hck
      exact committed_target_ne_uncommitted_start w actions hW hlen hK hKnd
        hKsub hak hal hek hel hekK helK hckC hcl heq
  · by_cases hcl : al.id ∈ (w.withActions actions).committedIds
        ((w.withActions actions).phase1).2
    · -- l committed, k not: symmetric to the previous case
      have hposk := uncommitted_stays w actions pick hlen k ak hak hck
      have hposl := committed_moves w actions pick hlen l al hal el hel hcl
      rw [hresk] at hposk
      rw [hresl] at hposl
      simp only [Option.map_some', Option.some.injEq] at hposk hposl
      rw [← stepEdges_start_eq w actions hlen k ak hak ek hek] at hposk
      rw [hposk, hposl] at heq
      have hshare : sharesNode ek el = true := by
        unfold sharesNode
        simp only [Bool.or_eq_true, beq_iff_eq]
        exact Or.inl (Or.inl (Or.inr heq))
      obtain ⟨cover, spec, _⟩ :=
        weakComponents_spec (stepEdges_nodup w actions hW hlen)
      obtain ⟨K, hK, hekK⟩ := cover ek (List.mem_iff_getElem?.mpr ⟨k, hek⟩)
      obtain ⟨_, hKsub, hKnd, hKsat, _⟩ := spec K hK
      have helK : el ∈ K := by
        by_contra hno
        have hfalse := hKsat el (List.mem_iff_getElem?.mpr ⟨l, hel⟩) hno ek hekK
        have htrue := sharesNode_symm hshare
        rw [hfalse] at htrue
        cases htrue
      have hclC := committed_only_own w actions hW hlen l al hal el hel
        K hK helK hcl
      exact committed_target_ne_uncommitted_start w actions hW hlen hK hKnd
        hKsub hal hak hel hek helK hekK hclC hck heq.symm
    · -- neither committed: both stay on their distinct start cells
      have hposk := uncommitted_stays w actions pick hlen k ak hak hck
      have hposl := uncommitted_stays w actions pick hlen l al hal hcl
      rw [hresk] at hposk
      rw [hresl] at hposl
      simp only [Option.map_some', Option.some.injEq] at hposk hposl
      rw [← stepEdges_start_eq w actions hlen k ak hak ek hek] at hposk
      rw [← stepEdges_start_eq w actions hlen l al hal el hel] at hposl
      rw [hposk, hposl] at heq
      exact hstartne heq

/-- A loop iteration for another agent `j ≠ i` can only touch agent `i`'s
`has_delivered` through the TWO_STAGE pickup write, whose target index is
read off the agent layer at `j`'s own cell; when that index differs from
`i`, agent `i`'s flag is untouched. -/
theorem applyAgentAction_hasDelivered_ne (w : Warehouse)
    (c : List (Option (Nat × Nat))) (st : MutState) (j i : Nat) (hne : j ≠ i)
    (htar : ∀ a', st.agents[j]? = some a' →
      pyIdx st.agents.length (w.gridAgents a'.y a'.x) ≠ i) :
    (((applyAgentAction w c st j).agents)[i]?).map (fun a => a.hasDelivered)
      = ((st.agents[i]?).map (fun a => a.hasDelivered)) := by
  unfold applyAgentAction
  cases hj : st.agents[j]? with
  | none => rfl
  | some a0 =>
    have htar0 := htar a0 hj
    simp only []
    split_ifs <;>
      simp_all [List.getElem?_set_ne hne, modifyAt_getElem?_ne]

/-- Folding the loop over indices strictly above `i`, on a state whose
pending agents still match the well-formed reference state, preserves agent
`i`'s `has_delivered` flag. -/
theorem foldl_applyAgentAction_hasDelivered (w : Warehouse) (hW : Wf w)
    (c : List (Option (Nat × Nat))) (len : Nat) :
    ∀ (s i : Nat) (st : MutState), i < s →
      st.agents.length = w.agents.length →
      (∀ j, s ≤ j → ((st.agents[j]?).map
          (fun a => (a.x, a.y, a.dir, a.reqAction, a.carryingShelf)))
        = ((w.agents[j]?).map
          (fun a => (a.x, a.y, a.dir, a.reqAction, a.carryingShelf)))) →
      ((((List.range' s len).foldl (applyAgentAction w c) st).agents)[i]?).map
          (fun a => a.hasDelivered)
        = ((st.agents[i]?).map (fun a => a.hasDelivered)) := by
  induction len with
  | zero => intro s i st _ _ _; rfl
  | succ n ih =>
    intro s i st hi hlen hcore
    rw [List.range'_succ, List.foldl_cons]
    have htar : ∀ a', st.agents[s]? = some a' →
        pyIdx st.agents.length (w.gridAgents a'.y a'.x) ≠ i := by
      intro a' ha'
      have hcs := hcore s (Nat.le_refl s)
      rw [ha'] at hcs
      cases hws : w.agents[s]? with
      | none => rw [hws] at hcs; cases hcs
      | some as =>
        rw [hws] at hcs
        simp only [Option.map_some', Option.some.injEq] at hcs
        have hx0 : a'.x = as.x := congrArg (fun t => t.1) hcs
        have hy0 : a'.y = as.y := congrArg
          (fun t : Nat × Nat × Direction × Action × Option Nat => t.2.1) hcs
        have hmem : as ∈ w.agents := by
          obtain ⟨hlt2, hv⟩ := List.getElem?_eq_some_iff.mp hws
          exact hv ▸ List.getElem_mem hlt2
        have hgr : w.gridAgents as.y as.x = as.id := grid_at_agent w hW hmem
        have hid : as.id = s + 1 := agents_id_at w hW s as hws
        rw [hx0, hy0, hgr, hid]
        unfold pyIdx
        rw [if_neg (by omega)]
        omega
    have hstep := applyAgentAction_hasDelivered_ne w c st s i (by omega) htar
    rw [ih (s + 1) i (applyAgentAction w c st s) (by omega)
      (by rw [applyAgentAction_agents_length]; exact hlen)
      (fun j hj => by
        rw [applyAgentAction_core_ne w c st s j (by omega)]
        exact hcore j (by omega)), hstep]

/-- Conflict resolution moves no agent. -/
theorem resolved_pos_map (w : Warehouse) :
    w.resolvedAgents.map (fun a => (a.x, a.y))
      = w.agents.map (fun a => (a.x, a.y)) := by
  simp only [Warehouse.resolvedAgents, Warehouse.phase1, List.map_map]
  refine List.map_congr_left (fun a _ => ?_)
  have h := precancel_core w a
  simp only [Function.comp_apply]
  split <;> simp [h.1, h.2.1]

/-- Conflict resolution renames no agent. -/
theorem resolved_id_map (w : Warehouse) :
    w.resolvedAgents.map Agent.id = w.agents.map Agent.id := by
  simp only [Warehouse.resolvedAgents, Warehouse.phase1, List.map_map]
  refine List.map_congr_left (fun a _ => ?_)
  have h := precancel_core w a
  simp only [Function.comp_apply]
  split <;> simp [h.2.2.1]

/-- On a well-formed state, the action-application loop clears the
`has_delivered` flag of a carrying agent whose (surviving) request is
`TOGGLE_LOAD` and whose cell is not a highway cell: its own iteration takes
the off-highway drop branch, and no other iteration can touch its flag. -/
theorem applyPass_toggle_drop_clears_hasDelivered (w : Warehouse) (hW : Wf w)
    (i : Nat) (b : Agent) (hb : w.agents[i]? = some b)
    (hreq : b.reqAction = Action.TOGGLE_LOAD)
    (hcarry : b.carryingShelf.isSome = true)
    (hhw : w.is_highway b.x b.y = false) :
    (((w.applyPass).agents)[i]?).map (fun a => a.hasDelivered)
      = some false := by
  have hlt : i < w.agents.length := (List.getElem?_eq_some_iff.mp hb).1
  unfold Warehouse.applyPass
  rw [range_split_at w.agents.length i hlt, List.foldl_append,
    List.foldl_cons]
  set st0 : MutState :=
    ⟨w.agents, w.shelfs, w.carriedShelf, List.replicate w.nAgents 0⟩
    with hst0
  set stmid := (List.range' 0 i).foldl
    (applyAgentAction w w.requestedCoords) st0 with hstmid
  have hcore : ((stmid.agents[i]?).map
      (fun a => (a.x, a.y, a.dir, a.reqAction, a.carryingShelf)))
      = ((st0.agents[i]?).map
        (fun a => (a.x, a.y, a.dir, a.reqAction, a.carryingShelf))) := by
    apply foldl_applyAgentAction_core
    intro hmem
    have := (List.mem_range'_1.mp hmem).2
    omega
  have hst0i : st0.agents[i]? = some b := hb
  rw [hst0i] at hcore
  obtain ⟨b', hb', hbcore⟩ : ∃ b', stmid.agents[i]? = some b' ∧
      (b'.x, b'.y, b'.dir, b'.reqAction, b'.carryingShelf)
        = (b.x, b.y, b.dir, b.reqAction, b.carryingShelf) := by
    cases hsb : stmid.agents[i]? with
    | none => rw [hsb] at hcore; cases hcore
    | some v =>
      rw [hsb] at hcore
      exact ⟨v, rfl, by simpa using hcore⟩
  have hbx : b'.x = b.x := congrArg (fun t => t.1) hbcore
  have hby : b'.y = b.y := congrArg
    (fun t : Nat × Nat × Direction × Action × Option Nat => t.2.1) hbcore
  have hbr : b'.reqAction = b.reqAction := congrArg
    (fun t : Nat × Nat × Direction × Action × Option Nat => t.2.2.2.1) hbcore
  have hbc : b'.carryingShelf = b.carryingShelf := congrArg
    (fun t : Nat × Nat × Direction × Action × Option Nat => t.2.2.2.2) hbcore
  have hlenmid : stmid.agents.length = w.agents.length := by
    rw [hstmid]
    exact foldl_applyAgentAction_length w w.requestedCoords _ st0
  have hreq' : b'.reqAction = Action.TOGGLE_LOAD := by rw [hbr, hreq]
  have hcarry' : b'.carryingShelf.isSome = true := by rw [hbc]; exact hcarry
  have hcn : ¬ b'.carryingShelf = none := by
    intro h0
    rw [h0] at hcarry'
    cases hcarry'
  have hhw' : w.is_highway b'.x b'.y = false := by rw [hbx, hby]; exact hhw
  have hlt' : i < stmid.agents.length := by omega
  have hstep : (((applyAgentAction w w.requestedCoords stmid i).agents)[i]?).map
      (fun a => a.hasDelivered) = some false := by
    unfold applyAgentAction
    rw [hb']
    simp only []
    simp [hreq', hcn, hcarry', hhw', List.getElem?_set_self', hlt']
  have hafter := foldl_applyAgentAction_hasDelivered w hW w.requestedCoords
    (w.agents.length - i - 1) (i + 1) i
    (applyAgentAction w w.requestedCoords stmid i) (by omega)
    (by rw [applyAgentAction_agents_length]; exact hlenmid)
    (fun j hj => by
      rw [applyAgentAction_core_ne w w.requestedCoords stmid i j (by omega)]
      rw [hstmid]
      rw [foldl_applyAgentAction_core w w.requestedCoords _ st0 j
        (fun hmem => by
          have := (List.mem_range'_1.mp hmem).2
          omega)])
  rw [hafter, hstep]

/-- C7 (amended part, proved; the "unconditionally" clause is refuted by
`toggle_load_keeps_has_delivered_on_highway`): for every agent that is
carrying a shelf, requests `TOGGLE_LOAD`, and stands on a cell that is NOT
a highway cell, the agent's `has_delivered` flag is false after the
action-application pass of that step — regardless of whether the carried
shelf is still in the request queue. -/
theorem toggle_load_drop_clears_has_delivered_off_highway (w : Warehouse)
    (actions : List (Action × List Nat)) (hW : Wf w)
    (hlen : actions.length = w.agents.length)
    (i : Nat) (a : Agent) (ha : w.agents[i]? = some a)
    (hcarry : a.carryingShelf.isSome = true)
    (msg : List Nat) (hact : actions[i]? = some (Action.TOGGLE_LOAD, msg))
    (hhw : w.is_highway a.x a.y = false) :
    (((w.actionPass actions).agents)[i]?).map (fun b => b.hasDelivered)
      = some false := by
  have haL0 := loadActions_getElem? w.msgBits w.agents actions i a
    (Action.TOGGLE_LOAD, msg) ha hact
  set aL := (if w.msgBits > 0 then
      { a with reqAction := Action.TOGGLE_LOAD, message := msg }
    else { a with reqAction := Action.TOGGLE_LOAD }) with haLdef
  have haL : ((w.withActions actions).agents)[i]? = some aL := haL0
  have hreqL : aL.reqAction = Action.TOGGLE_LOAD := by
    rw [haLdef]; split <;> rfl
  have hxL : aL.x = a.x := by rw [haLdef]; split <;> rfl
  have hyL : aL.y = a.y := by rw [haLdef]; split <;> rfl
  have hcarL : aL.carryingShelf = a.carryingShelf := by
    rw [haLdef]; split <;> rfl
  have hnf : ¬ aL.reqAction = Action.FORWARD := by rw [hreqL]; decide
  have htarL : ∀ gh gw : Nat, aL.req_location gh gw = (aL.x, aL.y) := by
    intro gh gw
    unfold Agent.req_location
    rw [if_pos hnf]
  have hP : ((w.withActions actions).precancelAgent aL).1 = aL := by
    simp [Warehouse.precancelAgent, htarL]
  have hcomL : aL.id ∈ (w.withActions actions).committedIds
      ((w.withActions actions).phase1).2 :=
    nonforward_committed w actions hW hlen haL hP (by rw [hreqL]; decide)
  have hres := resolvedAgents_getElem? (w.withActions actions) i aL haL
  rw [hP, if_pos hcomL] at hres
  have hlenL : ((w.withActions actions).agents).length = w.agents.length := by
    show (loadActions w.msgBits w.agents actions).length = w.agents.length
    rw [loadActions_length, hlen, Nat.min_self]
  have hposmap : (((w.withActions actions).midStep).agents).map
      (fun b => (b.x, b.y)) = w.agents.map (fun b => (b.x, b.y)) := by
    show ((w.withActions actions).resolvedAgents).map (fun b => (b.x, b.y))
      = _
    rw [resolved_pos_map]
    exact loadActions_pos_map w.msgBits w.agents actions hlen
  have hidmap : (((w.withActions actions).midStep).agents).map Agent.id
      = w.agents.map Agent.id := by
    show ((w.withActions actions).resolvedAgents).map Agent.id = _
    rw [resolved_id_map]
    exact loadActions_id_map w.msgBits w.agents actions hlen
  have hlenm : (((w.withActions actions).midStep).agents).length
      = w.agents.length := by
    show ((w.withActions actions).resolvedAgents).length = w.agents.length
    rw [resolvedAgents_length]
    exact hlenL
  have hWmid : Wf ((w.withActions actions).midStep) := by
    refine ⟨?_, ?_, rfl⟩
    · have h2 : (w.agents.map (fun b => (b.x, b.y))).Pairwise
          (fun p q => p ≠ q) :=
        (List.pairwise_map (R := (fun p q : Nat × Nat => p ≠ q))).mpr
          hW.agentsDistinct
      rw [← hposmap] at h2
      exact (List.pairwise_map (R := (fun p q : Nat × Nat => p ≠ q))).mp h2
    · rw [hlenm, hidmap]
      exact hW.agentsIndexed
  have hbmid : (((w.withActions actions).midStep).agents)[i]? = some aL :=
    hres
  have hhwm : ((w.withActions actions).midStep).is_highway aL.x aL.y
      = false := by
    show w.is_highway aL.x aL.y = false
    rw [hxL, hyL]
    exact hhw
  show (((((w.withActions actions).midStep).applyPass).agents)[i]?).map
    (fun b => b.hasDelivered) = some false
  exact applyPass_toggle_drop_clears_hasDelivered _ hWmid i aL hbmid hreqL
    (by rw [hcarL]; exact hcarry) hhwm

/-- C7 (witness for the amended theorem): the amended theorem applies to the
carrying agent of `wC7`, standing on the non-highway cell `(1,1)` with
`has_delivered` still set, when it requests `TOGGLE_LOAD`. -/
theorem toggle_load_drop_clears_has_delivered_off_highway_witness :
    (agC7.carryingShelf.isSome = true ∧ agC7.hasDelivered = true ∧
      wC7.is_highway agC7.x agC7.y = false) ∧
    (((wC7.actionPass [(Action.TOGGLE_LOAD, [])]).agents)[0]?).map
      (fun b => b.hasDelivered) = some false :=
  ⟨⟨rfl, rfl, by decide⟩,
    toggle_load_drop_clears_has_delivered_off_highway wC7
      [(Action.TOGGLE_LOAD, [])] ⟨by decide, by decide, rfl⟩ (by decide)
      0 agC7 rfl (by decide) [] rfl (by decide)⟩

/-- C1 (witness): the amended theorem applies at the concrete two-agent
reset state with both agents requesting FORWARD. -/
theorem step_agent_positions_distinct_witness :
    ([(Action.FORWARD, ([] : List Nat)), (Action.FORWARD, [])].length
      = wTwo0.agents.length) ∧
    ((wTwo0.step [(Action.FORWARD, []), (Action.FORWARD, [])]
      pickTwo).state.agents).Pairwise
      (fun a b => (a.x, a.y) ≠ (b.x, b.y)) :=
  ⟨by decide,
    step_agent_positions_distinct wTwo0
      [(Action.FORWARD, []), (Action.FORWARD, [])] pickTwo
      ⟨by decide, by decide, rfl⟩ (by decide)⟩

end RW
